import Mathlib

/-! # Verification of the cron scheduler core (`scheduler` package)

A shallow embedding of `scheduler/cron.go` (the cron compiler and matcher), of
`scheduler/lock.go` / `scheduler/scheduler.go` (single-flight lock table, the
dispatch/execute protocol and the minute clock), of `scheduler/cache.go` (the task cache) and of
`scheduler/runner.go` (the paginated HTTP runner), followed by theorems about them.

Conventions of the embedding.
* Go strings are lists of characters (`Str`), that is, valid UTF-8 text.
* Go `int` is the 64-bit two's-complement integer: values are `Int`, and every
  addition performed by the source is wrapped with `wrapInt`.
* A Go function that returns `(T, error)` returns a `Result T`; besides `ok` and
  `error` a `Result` records a run-time panic (index out of range) and a loop that
  exhausts its iteration budget.
* Fixed-size boolean arrays are maps `Nat → Bool` whose writes are bounds-checked
  against the array length exactly as Go does.
* An instant is its count of nanoseconds since the zero time of Go `time.Time`,
  and a `Duration` is a count of nanoseconds.
* The repository, the remote API and the context are environments: the outcome of
  each call is an argument of the function that makes it, and the function returns
  the calls it made.
-/

namespace Scheduler

/-! ## Strings -/

/-- Go strings, as lists of characters. -/
abbrev Str := List Char

/-- Go `unicode.IsSpace`: the white-space characters recognised by
`strings.TrimSpace` and `strings.Fields`. -/
def isSpace (c : Char) : Bool :=
  let n := c.toNat
  n = 0x09 || n = 0x0A || n = 0x0B || n = 0x0C || n = 0x0D || n = 0x20 ||
  n = 0x85 || n = 0xA0 || n = 0x1680 || (0x2000 ≤ n && n ≤ 0x200A) ||
  n = 0x2028 || n = 0x2029 || n = 0x202F || n = 0x205F || n = 0x3000

/-- Go `strings.TrimSpace`. -/
def TrimSpace (s : Str) : Str :=
  ((s.dropWhile isSpace).reverse.dropWhile isSpace).reverse

/-- Worker of `Fields`: `cur` is the word being read, reversed. -/
def fieldsAux : Str → Str → List Str
  | [], cur => if cur = [] then [] else [cur.reverse]
  | c :: cs, cur =>
    if isSpace c then
      (if cur = [] then fieldsAux cs [] else cur.reverse :: fieldsAux cs [])
    else fieldsAux cs (c :: cur)

/-- Go `strings.Fields`: the maximal runs of non-space characters. -/
def Fields (s : Str) : List Str := fieldsAux s []

/-- Worker of `Split`: `cur` is the part being read, reversed. -/
def splitAux (sep : Char) : Str → Str → List Str
  | [], cur => [cur.reverse]
  | c :: cs, cur =>
    if c = sep then cur.reverse :: splitAux sep cs [] else splitAux sep cs (c :: cur)

/-- Go `strings.Split(s, sep)` for a one-character separator. -/
def Split (s : Str) (sep : Char) : List Str := splitAux sep s []

/-- Go `strings.Contains(s, sep)` for a one-character separator. -/
def Contains (s : Str) (sep : Char) : Bool := s.contains sep

/-- Go `strings.SplitN(s, sep, 2)` for a one-character separator: cut at the first
occurrence of `sep` only. -/
def SplitN2 (s : Str) (sep : Char) : List Str :=
  if Contains s sep then
    [s.takeWhile (fun c => c != sep), (s.dropWhile (fun c => c != sep)).tail]
  else [s]

/-- Go `strings.ReplaceAll(s, old, new)` for one-character `old` and `new`. -/
def ReplaceAll (s : Str) (old new : Char) : Str :=
  s.map (fun c => if c = old then new else c)

/-! ## Errors and results -/

/-- The six fields of a cron expression, used to label wrapped errors. -/
inductive FieldName where
  | year | month | day | week | hour | minute
  deriving DecidableEq, Repr

/-- The errors produced by `cron.go`, one constructor per error site. -/
inductive CronError where
  | fieldCount (n : Nat)
  | numError (s : Str)
  | invalidStepExpr (token : Str)
  | stepNotPositive
  | valueOutOfRange (v : Int)
  | invalidRangeExpr (token : Str)
  | invalidRange (a b : Int)
  | rangeOutOfBounds (a b : Int)
  | noValidValues (field : Str)
  | partsMismatch
  | minuteMultipleParts
  | inField (f : FieldName) (e : CronError)
  deriving DecidableEq, Repr

/-- Outcome of a Go call: a value, a returned error, a run-time panic, or a loop
that did not finish within its iteration budget. -/
inductive Result (α : Type) where
  | ok (a : α)
  | error (e : CronError)
  | panic
  | diverge
  deriving DecidableEq, Repr

namespace Result

/-- Sequencing: anything but `ok` stops the computation. -/
def bind {α β : Type} (x : Result α) (f : α → Result β) : Result β :=
  match x with
  | ok a => f a
  | error e => error e
  | panic => panic
  | diverge => diverge

/-- The call returned a non-nil error. -/
def isError {α : Type} : Result α → Bool
  | error _ => true
  | _ => false

/-- The call returned normally with a nil error. -/
def isOk {α : Type} : Result α → Bool
  | ok _ => true
  | _ => false

/-- Go `fmt.Errorf("<field>: %w", err)` applied on the error path. -/
def wrapErr {α : Type} (f : FieldName) : Result α → Result α
  | error e => error (CronError.inField f e)
  | r => r

end Result

/-! ## Integers -/

/-- Largest value of Go `int` on a 64-bit platform. -/
def maxInt : Int := 9223372036854775807

/-- Smallest value of Go `int` on a 64-bit platform. -/
def minInt : Int := -9223372036854775808

/-- Two's-complement wrap-around of 64-bit signed arithmetic. -/
def wrapInt (x : Int) : Int :=
  (x + 9223372036854775808) % 18446744073709551616 - 9223372036854775808

/-- Value of a decimal digit. -/
def digitVal (c : Char) : Option Nat :=
  if 48 ≤ c.toNat ∧ c.toNat ≤ 57 then some (c.toNat - 48) else none

/-- Value of a string of decimal digits, `none` when a character is not a digit. -/
def parseDigits : Str → Nat → Option Nat
  | [], acc => some acc
  | c :: cs, acc =>
    match digitVal c with
    | some d => parseDigits cs (acc * 10 + d)
    | none => none

/-- Go `strconv.Atoi` (standard library): an optional sign followed by one or more
decimal digits whose value fits in `int`; any other input is a `*NumError`. -/
def Atoi (s : Str) : Result Int :=
  match s with
  | [] => .error (.numError s)
  | c :: cs =>
    let neg : Bool := c = '-'
    let ds : Str := if c = '-' ∨ c = '+' then cs else s
    if ds = [] then .error (.numError s)
    else
      match parseDigits ds 0 with
      | none => .error (.numError s)
      | some n =>
        let v : Int := if neg then -(n : Int) else (n : Int)
        if v < minInt ∨ maxInt < v then .error (.numError s) else .ok v

/-- Iteration budget of a counting loop: the number of distinct `int` values. A
loop over `int` that has not stopped after this many iterations never stops. -/
def loopFuel : Nat := 18446744073709551616

/-- The values taken by `v` in the Go loop `for v := start; v <= bound; v += step`,
with the increment wrapped to 64 bits. -/
def forLoop (bound step : Int) : Nat → Int → Option (List Int)
  | 0, _ => none
  | fuel + 1, v =>
    if v ≤ bound then (forLoop bound step fuel (wrapInt (v + step))).map (fun r => v :: r)
    else some []

/-! ## `parseField` -/

/-- Source `splitTokens`. -/
def splitTokens (field : Str) : List Str :=
  let field := ReplaceAll field ',' ' '
  let field := TrimSpace field
  if field = [] then [] else Fields field

/-- One iteration of the token loop of `parseField`: the values the token appends
to `result`, or the error returned. -/
def parseToken (token : Str) (min max : Int) : Result (List Int) :=
  let token := TrimSpace token
  if token = [] then .ok []
  else if Contains token '/' then
    match SplitN2 token '/' with
    | [p0, p1] =>
      (Atoi p0).bind fun start =>
      (Atoi p1).bind fun step =>
      if step ≤ 0 then .error .stepNotPositive
      else if start < min ∨ start > max then .error (.valueOutOfRange start)
      else
        match forLoop max step loopFuel start with
        | some vs => .ok vs
        | none => .diverge
    | _ => .error (.invalidStepExpr token)
  else if Contains token '-' then
    match SplitN2 token '-' with
    | [p0, p1] =>
      (Atoi p0).bind fun start =>
      (Atoi p1).bind fun endv =>
      if start > endv then .error (.invalidRange start endv)
      else if start < min ∨ endv > max then .error (.rangeOutOfBounds start endv)
      else
        match forLoop endv 1 loopFuel start with
        | some vs => .ok vs
        | none => .diverge
    | _ => .error (.invalidRangeExpr token)
  else
    (Atoi token).bind fun value =>
    if value < min ∨ value > max then .error (.valueOutOfRange value)
    else .ok [value]

/-- The token loop of `parseField`, `result` being the slice built so far. -/
def parseTokens (min max : Int) : List Str → List Int → Result (List Int)
  | [], result => .ok result
  | token :: rest, result =>
    (parseToken token min max).bind fun vs => parseTokens min max rest (result ++ vs)

/-- Source `parseField`: the values of a field and the `any` flag. -/
def parseField (field : Str) (min max : Int) : Result (List Int × Bool) :=
  let field := TrimSpace field
  if field = ['*'] ∨ field = [] then .ok ([], true)
  else
    (parseTokens min max (splitTokens field) []).bind fun result =>
    if result.length = 0 then .error (.noValidValues field)
    else .ok (result, false)

/-! ## The compiled expression -/

/-- Source `CronExprCompiled`. `years` holds the keys of the Go map (no key twice);
the arrays `[13]bool`, `[32]bool`, `[8]bool` and `[24][60]bool` are maps from
indices, written only through the bounds-checked `setIndex` and `setCell`. -/
structure CronExprCompiled where
  years : List Int
  months : Nat → Bool
  days : Nat → Bool
  weeks : Nat → Bool
  hourMinOK : Nat → Nat → Bool

/-- Length of `months`. -/
def monthsLen : Nat := 13

/-- Length of `days`. -/
def daysLen : Nat := 32

/-- Length of `weeks`. -/
def weeksLen : Nat := 8

/-- Number of rows of `hourMinOK`. -/
def hoursLen : Nat := 24

/-- Number of columns of `hourMinOK`. -/
def minutesLen : Nat := 60

/-- The zero value `&CronExprCompiled{}`. -/
def emptyCompiled : CronExprCompiled :=
  { years := [], months := fun _ => false, days := fun _ => false,
    weeks := fun _ => false, hourMinOK := fun _ _ => false }

/-- Source constant `mathMinYear`. -/
def mathMinYear : Int := 1970

/-- Source constant `mathMaxYear`. -/
def mathMaxYear : Int := 2099

/-- Go `target[v] = true` on a slice of length `len`: panics when `v` is not an
index of the slice. -/
def setIndex (len : Nat) (target : Nat → Bool) (v : Int) : Result (Nat → Bool) :=
  if 0 ≤ v ∧ v < len then .ok (fun i => if i = v.toNat then true else target i)
  else .panic

/-- Go `for _, v := range values { target[v] = true }`. -/
def setIndices (len : Nat) : List Int → (Nat → Bool) → Result (Nat → Bool)
  | [], target => .ok target
  | v :: vs, target => (setIndex len target v).bind fun t => setIndices len vs t

/-- Go `c.years[v] = struct{}{}`. -/
def insertYear (years : List Int) (v : Int) : List Int :=
  if v ∈ years then years else v :: years

/-- Source `fillYears`, returning the new value of `c.years`. -/
def fillYears (field : Str) : Result (List Int) :=
  (Result.wrapErr .year (parseField field mathMinYear mathMaxYear)).bind fun r =>
  if r.2 then .ok []
  else .ok (r.1.foldl insertYear [])

/-- Source `fillBoolField`; `len` is the length of the slice `target`. -/
def fillBoolField (field : Str) (min max : Int) (len : Nat) (target : Nat → Bool) :
    Result (Nat → Bool) :=
  (parseField field min max).bind fun r =>
  if r.2 then
    match forLoop max 1 loopFuel min with
    | some idx => setIndices len idx target
    | none => .diverge
  else setIndices len r.1 target

/-- Go `target[h][m] = true` on a `*[24][60]bool`. -/
def setCell (target : Nat → Nat → Bool) (h m : Int) : Result (Nat → Nat → Bool) :=
  if 0 ≤ h ∧ h < hoursLen ∧ 0 ≤ m ∧ m < minutesLen then
    .ok (fun i j => if i = h.toNat ∧ j = m.toNat then true else target i j)
  else .panic

/-- Inner loop of `fillHourMinutePair`: `for _, m := range minuteValues`. -/
def setRow (h : Int) : List Int → (Nat → Nat → Bool) → Result (Nat → Nat → Bool)
  | [], target => .ok target
  | m :: ms, target => (setCell target h m).bind fun t => setRow h ms t

/-- Outer loop of `fillHourMinutePair`: `for _, h := range hourValues`. -/
def setGrid (minuteValues : List Int) :
    List Int → (Nat → Nat → Bool) → Result (Nat → Nat → Bool)
  | [], target => .ok target
  | h :: hs, target => (setRow h minuteValues target).bind fun t => setGrid minuteValues hs t

/-- The slice built by `for i := 0; i < n; i++ { xs = append(xs, i) }`. -/
def upTo (n : Nat) : List Int := (List.range n).map fun i => (i : Int)

/-- Source `fillHourMinutePair`. -/
def fillHourMinutePair (target : Nat → Nat → Bool) (hourField minuteField : Str) :
    Result (Nat → Nat → Bool) :=
  (Result.wrapErr .hour (parseField hourField 0 23)).bind fun hr =>
  (Result.wrapErr .minute (parseField minuteField 0 59)).bind fun mr =>
  let hourValues := if hr.2 then upTo 24 else hr.1
  let minuteValues := if mr.2 then upTo 60 else mr.1
  setGrid minuteValues hourValues target

/-- The loop `for i := range hourParts` of `fillHourMinute`, over the zipped parts.
It is entered only when both slices have the same length. -/
def fillPairs : List Str → List Str → (Nat → Nat → Bool) → Result (Nat → Nat → Bool)
  | h :: hs, m :: ms, target =>
    (fillHourMinutePair target h m).bind fun t => fillPairs hs ms t
  | _, _, target => .ok target

/-- Source `fillHourMinute`, returning the new value of `c.hourMinOK`. -/
def fillHourMinute (target : Nat → Nat → Bool) (hourField minuteField : Str) :
    Result (Nat → Nat → Bool) :=
  let hourParts := Split hourField '|'
  let minuteParts := Split minuteField '|'
  if hourParts.length > 1 then
    if minuteParts.length ≠ hourParts.length then .error .partsMismatch
    else fillPairs hourParts minuteParts target
  else if minuteParts.length > 1 then .error .minuteMultipleParts
  else fillHourMinutePair target hourField minuteField

/-- Source `CompileCronExpr`. -/
def CompileCronExpr (expr : Str) : Result CronExprCompiled :=
  match Fields expr with
  | [f0, f1, f2, f3, f4, f5] =>
    let c := emptyCompiled
    (fillYears f0).bind fun years =>
    (Result.wrapErr .month (fillBoolField f1 1 12 monthsLen c.months)).bind fun months =>
    (Result.wrapErr .day (fillBoolField f2 1 31 daysLen c.days)).bind fun days =>
    (Result.wrapErr .week (fillBoolField f3 1 7 weeksLen c.weeks)).bind fun weeks =>
    (fillHourMinute c.hourMinOK f4 f5).bind fun hm =>
    .ok { years := years, months := months, days := days, weeks := weeks, hourMinOK := hm }
  | fields => .error (.fieldCount fields.length)

/-! ## Matching -/

/-- The calendar components of a Go `time.Time` that `Match` reads, with the ranges
guaranteed by `Month`, `Day`, `Weekday` (Sunday = 0), `Hour` and `Minute`. The
components are independent fields, so a statement about every `Time` covers every
real instant. -/
structure Time where
  year : Int
  month : Nat
  day : Nat
  weekday : Nat
  hour : Nat
  minute : Nat
  month_range : 1 ≤ month ∧ month ≤ 12
  day_range : 1 ≤ day ∧ day ≤ 31
  weekday_range : weekday ≤ 6
  hour_range : hour ≤ 23
  minute_range : minute ≤ 59

/-- The remap of `Match`: `week := int(t.Weekday()); if week == 0 { week = 7 }`. -/
def remapWeekday (w : Nat) : Nat := if w = 0 then 7 else w

/-- Source `CronExprCompiled.Match`, with its early returns. -/
def CronExprCompiled.Match (c : CronExprCompiled) (t : Time) : Bool :=
  if c.years.length ≠ 0 ∧ ¬ (t.year ∈ c.years) then false
  else if !c.months t.month then false
  else if !c.days t.day then false
  else if !c.weeks (remapWeekday t.weekday) then false
  else if !c.hourMinOK t.hour t.minute then false
  else true

/-! ## The single-flight lock table and the dispatcher -/

/-- Source `taskLock`: the keys present in the `sync.Map`, in a sequential model. -/
structure taskLock where
  locks : List Int

/-- Source `newTaskLock`. -/
def newTaskLock : taskLock := { locks := [] }

/-- Go `sync.Map.LoadOrStore(id, struct{}{})`: the new map and the `loaded` flag. -/
def taskLock.LoadOrStore (l : taskLock) (id : Int) : taskLock × Bool :=
  if id ∈ l.locks then (l, true) else ({ locks := id :: l.locks }, false)

/-- Source `taskLock.TryLock`: the new table and the returned boolean. -/
def taskLock.TryLock (l : taskLock) (id : Int) : taskLock × Bool :=
  let r := l.LoadOrStore id
  (r.1, !r.2)

/-- Source `taskLock.Unlock` (`sync.Map.Delete`). -/
def taskLock.Unlock (l : taskLock) (id : Int) : taskLock :=
  { locks := l.locks.filter (fun k => k != id) }

/-- Source `Task`; `LastStartTime` is kept as an instant in nanoseconds. -/
structure Task where
  ID : Int
  Name : Str
  Command : Str
  RunExpr : Str
  IsEnable : Int
  Status : Int
  DataCountLimit : Int
  RunSleepMicro : Int
  TryTimesLimit : Int
  RunWay : Int
  LastStartTime : Int

/-- Source `compiledTask`; `Expr` is a pointer and may be nil. -/
structure compiledTask where
  Task : Task
  Expr : Option CronExprCompiled

/-- The scheduler state observed by the single-flight protocol: the lock table and
the ids of the `executeTask` goroutines that were spawned and have not yet run their
deferred `Unlock`. -/
structure SchedState where
  lock : taskLock
  inflight : List Int

/-- State of a freshly built `Scheduler`. -/
def SchedState.init : SchedState := { lock := newTaskLock, inflight := [] }

/-- One iteration of the loop of `Scheduler.dispatch` on the snapshot entry `ct`;
`markRunningOk` is the outcome of the repository call `MarkRunning`. -/
def dispatchTask (markRunningOk : Bool) (now : Time) (s : SchedState) (ct : compiledTask) :
    SchedState :=
  if ct.Task.IsEnable ≠ 0 then s
  else if ct.Task.Status = 1 then s
  else if (match ct.Expr with
      | none => true
      | some e => !e.Match now) then s
  else
    let r := s.lock.TryLock ct.Task.ID
    if !r.2 then { s with lock := r.1 }
    else if !markRunningOk then { s with lock := r.1.Unlock ct.Task.ID }
    else { lock := r.1, inflight := ct.Task.ID :: s.inflight }

/-- The loop of `Scheduler.dispatch` over a snapshot, each entry paired with the
outcome its `MarkRunning` call would have. -/
def dispatch (now : Time) : SchedState → List (compiledTask × Bool) → SchedState
  | s, [] => s
  | s, (ct, ok) :: rest => dispatch now (dispatchTask ok now s ct) rest

/-- The end of `Scheduler.executeTask` for the task `id`: the deferred `Unlock`
runs and the goroutine is gone. -/
def finishTask (s : SchedState) (id : Int) : SchedState :=
  { lock := s.lock.Unlock id, inflight := s.inflight.erase id }

/-- Steps of the scheduler: the dispatcher handles one snapshot entry, or an
execution in flight terminates. -/
inductive Step : SchedState → SchedState → Prop where
  | dispatch (ok : Bool) (now : Time) (s : SchedState) (ct : compiledTask) :
      Step s (dispatchTask ok now s ct)
  | finish (s : SchedState) (id : Int) (h : id ∈ s.inflight) :
      Step s (finishTask s id)

/-- States reachable from the initial state. -/
inductive Reachable : SchedState → Prop where
  | init : Reachable SchedState.init
  | step {s s2 : SchedState} (h : Reachable s) (st : Step s s2) : Reachable s2

/-- The single-flight invariant: no id is in flight twice, and every id in flight
is in the lock table. -/
def SingleFlight (s : SchedState) : Prop :=
  s.inflight.Nodup ∧ ∀ id ∈ s.inflight, id ∈ s.lock.locks

/-! ## Definitions used to state the properties -/

/-- The six bounds passed to `parseField` by `fillYears`, `CompileCronExpr` and
`fillHourMinutePair`: the lower bound of each field. -/
def FieldName.min : FieldName → Int
  | .year => mathMinYear
  | .month => 1
  | .day => 1
  | .week => 1
  | .hour => 0
  | .minute => 0

/-- The upper bound of each field. -/
def FieldName.max : FieldName → Int
  | .year => mathMaxYear
  | .month => 12
  | .day => 31
  | .week => 7
  | .hour => 23
  | .minute => 59

/-- The value list a sub-expression contributes in `fillHourMinutePair`
(`hourValues`, `minuteValues`): the parsed values, or `0 .. n-1` when the
sub-expression is `any`; `none` when `parseField` does not succeed. -/
def fieldValues (field : Str) (min max : Int) (n : Nat) : Option (List Int) :=
  match parseField field min max with
  | .ok r => some (if r.2 then upTo n else r.1)
  | _ => none

/-- Decimal rendering of a natural number, as written in a cron token. -/
def decimal (n : Nat) : Str := Nat.toDigits 10 n

/-- The text of a step token `a/s`. -/
def stepToken (a s : Nat) : Str := decimal a ++ '/' :: decimal s

/-- A sample expression: year 2000, Sundays, `xx:30` in hours 0-9 and `xx:00` in
hours 10-23. -/
def sampleExpr : Str := "2000 * * 7 0-9|10-23 30|0".toList

/-- The compiled form of `sampleExpr`. -/
def sampleCompiled : CronExprCompiled :=
  match CompileCronExpr sampleExpr with
  | .ok c => c
  | _ => emptyCompiled

/-- Sunday 2 January 2000, 03:30. -/
def sampleTime : Time :=
  { year := 2000, month := 1, day := 2, weekday := 0, hour := 3, minute := 30,
    month_range := by decide, day_range := by decide, weekday_range := by decide,
    hour_range := by decide, minute_range := by decide }

/-- A task with id 5, enabled and idle, scheduled by `sampleExpr`. -/
def sampleTask : compiledTask :=
  { Task := { ID := 5, Name := "t".toList, Command := "c".toList, RunExpr := sampleExpr,
              IsEnable := 0, Status := 0, DataCountLimit := 0, RunSleepMicro := 0,
              TryTimesLimit := 0, RunWay := 0, LastStartTime := 0 },
    Expr := some sampleCompiled }

/-- The state after dispatching a snapshot that lists `sampleTask` twice at
`sampleTime`, both `MarkRunning` calls succeeding. -/
def sampleState : SchedState :=
  dispatch sampleTime SchedState.init [(sampleTask, true), (sampleTask, true)]

/-- The hour field of `sampleExpr`. -/
def sampleHour : Str := "0-9|10-23".toList

/-- The minute field of `sampleExpr`. -/
def sampleMinute : Str := "30|0".toList

/-- The text of a field written as a comma-separated list of tokens. -/
def joinTokens : List Str → Str
  | [] => []
  | [t] => t
  | t :: ts => t ++ ',' :: joinTokens ts

/-- The expression whose year field is the token `y` and whose other fields are `*`. -/
def yearExpr (y : Nat) : Str := decimal y ++ " * * * * *".toList

/-- The expression whose day-of-week field is the token `d` and whose other fields
are `*`. -/
def weekExpr (d : Nat) : Str := "* * * ".toList ++ decimal d ++ " * *".toList

end Scheduler

namespace Scheduler

/-! ## The HTTP task runner (`scheduler/runner.go`) -/

/-- A Go `float64`: a finite value, written as the fraction `num / den`, or one of
the special values. -/
inductive Float64 where
  | finite (num : Int) (den : Nat)
  | nan
  | inf (negative : Bool)
  deriving DecidableEq, Repr

/-- The parts of the Go runtime and standard library that the runner relies on and
that are tables or implementation choices rather than code of the repository. -/
structure Runtime where
  /-- Result of `int(v)` when the truncated value does not fit in `int` (the Go
  specification leaves it implementation-dependent). -/
  floatToInt : Float64 → Int
  /-- The case mapping `unicode.ToUpper` on non-ASCII characters. -/
  unicodeUpper : Char → Char

/-- Go `int(v)` for a `float64`: the fraction is discarded (truncation toward zero);
when the result does not fit in `int` the value is the runtime's, still an `int`. -/
def floatToInt (rt : Runtime) (v : Float64) : Int :=
  match v with
  | .finite num den =>
    if minInt ≤ Int.tdiv num den ∧ Int.tdiv num den ≤ maxInt then Int.tdiv num den
    else wrapInt (rt.floatToInt v)
  | _ => wrapInt (rt.floatToInt v)

/-- The dynamic type and value of a Go `interface{}`, as far as `extractID`
distinguishes them. -/
inductive Value where
  | float64 (v : Float64)
  | int (n : Int)
  | int64 (n : Int)
  | number (s : Str)
  | string (s : Str)
  | other
  deriving DecidableEq, Repr

/-- A Go `map[string]interface{}`: `none` is the nil map, otherwise the entries. -/
abbrev Row := Option (List (Str × Value))

/-- Go `row["id"]` with the comma-ok form: the value stored under `"id"`, if any. -/
def Row.id (row : Row) : Option Value :=
  match row with
  | none => none
  | some entries => entries.lookup "id".toList

/-- Source `extractID`; `none` stands for the result `(0, false)` and `some n` for
`(n, true)`. `json.Number.Int64` is `strconv.ParseInt(s, 10, 64)`, which accepts
the same strings as `strconv.Atoi` on a 64-bit platform. -/
def extractID (rt : Runtime) (row : Row) : Option Int :=
  match row with
  | none => none
  | some _ =>
    match Row.id row with
    | some (.float64 v) => some (floatToInt rt v)
    | some (.int v) => some v
    | some (.int64 v) => some v
    | some (.number v) =>
      match Atoi v with
      | .ok i => some i
      | _ => none
    | some (.string v) =>
      match Atoi v with
      | .ok val => some val
      | _ => none
    | _ => none

/-- Go `strings.ToUpper`: ASCII letters are shifted, other ASCII characters are
kept, and the remaining characters go through `unicode.ToUpper`. -/
def ToUpper (rt : Runtime) (s : Str) : Str :=
  s.map fun c =>
    if c.toNat < 128 then (if 97 ≤ c.toNat ∧ c.toNat ≤ 122 then Char.ofNat (c.toNat - 32) else c)
    else rt.unicodeUpper c

/-- The errors returned by the runner, one constructor per error site. -/
inductive RunError where
  | baseURLEmpty
  | transport (e : Str)
  | getdataRequestFailed (status : Str)
  | decode
  | getdataFailed (message : Str)
  | cancelled
  | updateRequestFailed (status : Str)
  | updateFailed
  deriving DecidableEq, Repr

/-- Source `getDataResponse`, the decoded body of a getdata reply. -/
structure getDataResponse where
  Status : Str
  Message : Str
  Data : List Row
  deriving DecidableEq, Repr

/-- What the HTTP exchange of `fetchData` produces: an error from building or
sending the request or from reading the body, or a reply with its status code,
status line and body; `body` is `none` when `json.Unmarshal` fails. -/
inductive FetchReply where
  | failed (e : Str)
  | http (StatusCode : Int) (Status : Str) (body : Option getDataResponse)
  deriving DecidableEq, Repr

/-- Source `HTTPTaskRunner.fetchData`, applied to the reply of the server. -/
def fetchData (rt : Runtime) (reply : FetchReply) : Except RunError (List Row) :=
  match reply with
  | .failed e => .error (.transport e)
  | .http code status body =>
    if code ≥ 400 then .error (.getdataRequestFailed status)
    else
      match body with
      | none => .error .decode
      | some gd =>
        if ToUpper rt gd.Status ≠ "SUCCESS".toList then .error (.getdataFailed gd.Message)
        else .ok gd.Data

/-- What the HTTP exchange of `sendUpdate` produces; `result` is the decoded body,
`none` when decoding fails, otherwise the string stored under `"status"` (the empty
string when it is missing or not a string). -/
inductive UpdateReply where
  | failed (e : Str)
  | http (StatusCode : Int) (Status : Str) (result : Option Str)
  deriving DecidableEq, Repr

/-- Source `HTTPTaskRunner.sendUpdate`, applied to the reply of the server: the
error returned, if any. -/
def sendUpdate (rt : Runtime) (reply : UpdateReply) : Option RunError :=
  match reply with
  | .failed e => some (.transport e)
  | .http code status result =>
    if code ≥ 400 then some (.updateRequestFailed status)
    else
      match result with
      | none => some .decode
      | some st => if ToUpper rt st ≠ "SUCCESS".toList then some .updateFailed else none

/-- Source `HTTPTaskRunner`, without the HTTP client and the logger. -/
structure HTTPTaskRunner where
  BaseURL : Str

/-- What `Run` does that is visible outside: the getdata requests with their
`last_id`, the update requests with their row, and the warnings logged. -/
inductive RunEvent where
  | getdata (command : Str) (limit lastID : Int)
  | update (command : Str) (row : Row)
  | warn (e : RunError)
  deriving DecidableEq, Repr

/-- How `Run` ends: it returns nil, it returns an error, or it is waiting for a
reply that the script of the server does not contain. -/
inductive RunResult where
  | ok
  | error (e : RunError)
  | pending
  deriving DecidableEq, Repr

/-- The environment of one iteration of the row loop: the reply to the update
request and whether the context is cancelled during the pacing sleep. -/
structure RowOracle where
  update : UpdateReply
  cancelled : Bool

/-- The environment of one iteration of the outer loop of `Run`: the reply to the
getdata request and, by position, the environment of each row. -/
structure Exchange where
  reply : FetchReply
  rows : Nat → RowOracle

/-- The update of `minID` in the row loop. -/
def trackMin (rt : Runtime) (minID : Int) (row : Row) : Int :=
  match extractID rt row with
  | some id => if minID = 0 ∨ id < minID then id else minID
  | none => minID

/-- The row loop of `Run` from position `i`: the events, and the final `minID`, or
`none` when the loop returns `ctx.Err()`. -/
def processRows (rt : Runtime) (command : Str) (sleepDuration : Int) (oracle : Nat → RowOracle) :
    Nat → List Row → Int → List RunEvent × Option Int
  | _, [], minID => ([], some minID)
  | i, row :: rest, minID =>
    let sent : List RunEvent :=
      match sendUpdate rt (oracle i).update with
      | some e => [.update command row, .warn e]
      | none => [.update command row]
    let minID := trackMin rt minID row
    if sleepDuration > 0 ∧ (oracle i).cancelled = true then (sent, none)
    else
      let r := processRows rt command sleepDuration oracle (i + 1) rest minID
      (sent ++ r.1, r.2)

/-- The outer loop of `Run` against a script of exchanges, from the cursor
`lastID`. -/
def runLoop (rt : Runtime) (command : Str) (limit sleepDuration : Int) :
    List Exchange → Int → List RunEvent × RunResult
  | [], lastID => ([.getdata command limit lastID], .pending)
  | x :: script, lastID =>
    match fetchData rt x.reply with
    | .error e => ([.getdata command limit lastID], .error e)
    | .ok rows =>
      if rows.length = 0 then ([.getdata command limit lastID], .ok)
      else
        let p := processRows rt command sleepDuration x.rows 0 rows 0
        match p.2 with
        | none => (.getdata command limit lastID :: p.1, .error .cancelled)
        | some minID =>
          if minID = 0 then (.getdata command limit lastID :: p.1, .ok)
          else
            let r := runLoop rt command limit sleepDuration script minID
            (.getdata command limit lastID :: p.1 ++ r.1, r.2)

/-- Source `HTTPTaskRunner.Run` against a script of exchanges. -/
def Run (rt : Runtime) (r : HTTPTaskRunner) (task : Task) (script : List Exchange) :
    List RunEvent × RunResult :=
  if r.BaseURL = [] then ([], .error .baseURLEmpty)
  else
    let limit := if task.DataCountLimit ≤ 0 then 50 else task.DataCountLimit
    let sleepDuration := wrapInt (task.RunSleepMicro * 1000)
    runLoop rt task.Command limit sleepDuration script 0

end Scheduler

namespace Scheduler

/-! ## Calls made by the dispatcher and by `executeTask` (`scheduler/scheduler.go`) -/

/-- The calls made by `Scheduler.dispatch`: `repo.MarkRunning(ctx, id, now)` and
`go s.executeTask(ctx, task)`. -/
inductive DispatchEvent where
  | markRunning (id : Int) (now : Time)
  | spawn (task : Task)

/-- One iteration of the loop of `Scheduler.dispatch` on the snapshot entry `ct`,
with the calls it makes; `markRunningOk` is the outcome of `MarkRunning`. -/
def dispatchStep (markRunningOk : Bool) (now : Time) (s : SchedState) (ct : compiledTask) :
    SchedState × List DispatchEvent :=
  if ct.Task.IsEnable ≠ 0 then (s, [])
  else if ct.Task.Status = 1 then (s, [])
  else if (match ct.Expr with
      | none => true
      | some e => !e.Match now) then (s, [])
  else
    let r := s.lock.TryLock ct.Task.ID
    if !r.2 then ({ s with lock := r.1 }, [])
    else if !markRunningOk then
      ({ s with lock := r.1.Unlock ct.Task.ID }, [.markRunning ct.Task.ID now])
    else
      ({ lock := r.1, inflight := ct.Task.ID :: s.inflight },
        [.markRunning ct.Task.ID now, .spawn ct.Task])

/-- The loop of `Scheduler.dispatch` over a snapshot, with the calls it makes in
order; each entry is paired with the outcome its `MarkRunning` call would have. -/
def dispatchTrace (now : Time) :
    SchedState → List (compiledTask × Bool) → SchedState × List DispatchEvent
  | s, [] => (s, [])
  | s, (ct, ok) :: rest =>
    let r := dispatchStep ok now s ct
    let r2 := dispatchTrace now r.1 rest
    (r2.1, r.2 ++ r2.2)

/-- The calls made by `Scheduler.executeTask`, and the errors it logs. -/
inductive ExecEvent where
  | run (task : Task)
  | markStatus (id : Int) (status : Int)
  | logError

/-- Source `Scheduler.executeTask`: `runErr` is the error returned by `runner.Run`,
`markStatusOk` the outcome of `repo.MarkStatus`. Returns the calls made and the lock
table left by the deferred `Unlock`. -/
def executeTask (runErr : Option RunError) (markStatusOk : Bool) (l : taskLock) (task : Task) :
    taskLock × List ExecEvent :=
  let body : List ExecEvent :=
    match runErr with
    | some _ =>
      [.run task, .logError, .markStatus task.ID (-1)] ++
        (if markStatusOk then [] else [.logError])
    | none =>
      [.run task, .markStatus task.ID 0] ++ (if markStatusOk then [] else [.logError])
  (l.Unlock task.ID, body)

/-! ## The task cache (`scheduler/cache.go`) -/

/-- Source `TaskCache`: the compiled task list, in a sequential model. -/
structure TaskCache where
  tasks : List compiledTask

/-- The compile loop of `TaskCache.refresh`, `compiled` being the slice built so
far: a task whose expression returns an error is skipped; a panic of
`CompileCronExpr` is not recovered. -/
def compileTasks : List Task → List compiledTask → Result (List compiledTask)
  | [], compiled => .ok compiled
  | task :: rest, compiled =>
    match CompileCronExpr task.RunExpr with
    | .ok expr => compileTasks rest (compiled ++ [{ Task := task, Expr := some expr }])
    | .error _ => compileTasks rest compiled
    | .panic => .panic
    | .diverge => .diverge

/-- Source `TaskCache.refresh`; `load` is the result of `repo.LoadEnabledTasks`. -/
def TaskCache.refresh (load : Except Str (List Task)) (c : TaskCache) : Result TaskCache :=
  match load with
  | .error _ => .ok c
  | .ok tasks => (compileTasks tasks []).bind fun compiled => .ok { tasks := compiled }

/-- Source `TaskCache.Snapshot`: a copy of the compiled task list. -/
def TaskCache.Snapshot (c : TaskCache) : List compiledTask := c.tasks

/-- The entry that `refresh` keeps for a task, if its expression compiles. -/
def compiledEntry (task : Task) : Option compiledTask :=
  match CompileCronExpr task.RunExpr with
  | .ok expr => some { Task := task, Expr := some expr }
  | _ => none

/-- The task of `sampleTask` after a failed run: `Status = -1`. -/
def retryTask : compiledTask :=
  { sampleTask with Task := { sampleTask.Task with Status := -1 } }

/-- A task whose month field is the step token `1/9223372036854775807`. -/
def overflowTask : Task :=
  { sampleTask.Task with ID := 6, RunExpr := "* 1/9223372036854775807 * * * *".toList }

/-! ## Definitions used to state the properties of the runner -/

/-- The requests among the events of a run: everything but the logged warnings. -/
def RunEvent.isRequest : RunEvent → Bool
  | .warn _ => false
  | _ => true

/-- The `last_id` of a getdata request. -/
def RunEvent.lastID? : RunEvent → Option Int
  | .getdata _ _ lastID => some lastID
  | _ => none

/-- A runtime whose implementation-dependent conversions give `0` and whose
non-ASCII case mapping is the identity. -/
def sampleRuntime : Runtime := { floatToInt := fun _ => 0, unicodeUpper := fun c => c }

/-- The decoded row `{"id": n}`: JSON numbers decode to `float64`. -/
def idRow (n : Int) : Row := some [("id".toList, Value.float64 (.finite n 1))]

/-- A `200` reply with status `success` and the given rows. -/
def okReply (rows : List Row) : FetchReply :=
  .http 200 "200 OK".toList (some { Status := "success".toList, Message := [], Data := rows })

/-- Every update succeeds and the context is never cancelled. -/
def quietRows : Nat → RowOracle :=
  fun _ => { update := .http 200 "200 OK".toList (some "SUCCESS".toList), cancelled := false }

/-- Every update fails with status `500` and the context is never cancelled. -/
def failingRows : Nat → RowOracle :=
  fun _ => { update := .http 500 "500 Internal Server Error".toList none, cancelled := false }

/-- A runner with a base URL. -/
def sampleRunner : HTTPTaskRunner := { BaseURL := "http://api".toList }

/-- The multi-page drain: batches `[{id:10},{id:7},{id:9}]`, `[{id:4}]`, `[]`. -/
def sampleScript : List Exchange :=
  [{ reply := okReply [idRow 10, idRow 7, idRow 9], rows := quietRows },
   { reply := okReply [idRow 4], rows := quietRows },
   { reply := okReply [], rows := quietRows }]

/-- The same drain with every update failing. -/
def failingScript : List Exchange :=
  [{ reply := okReply [idRow 10, idRow 7, idRow 9], rows := failingRows },
   { reply := okReply [idRow 4], rows := failingRows },
   { reply := okReply [], rows := failingRows }]

end Scheduler
namespace Scheduler

/-! ## The minute clock (`Scheduler.untilNextMinute`) -/

/-- Go `time.Minute`: the number of nanoseconds of a minute. -/
def Minute : Int := 60000000000

/-- Go `Time.Truncate` on an instant given as its count of nanoseconds since the
zero time: the instant rounded down to a multiple of `d`, and the instant itself
when `d ≤ 0`. The standard library rounds down for instants before the zero time
too (`r = d - r` for a negative count), which is the non-negative remainder `%`. -/
def timeTruncate (t d : Int) : Int := if d ≤ 0 then t else t - t % d

/-- Go `Time.Add`. Instants are not bounded here: a `Time` counts seconds in an
`int64`, far beyond the nanosecond range of a `Duration`. -/
def timeAdd (t d : Int) : Int := t + d

/-- Go `Time.Sub`: the difference as a `Duration`, saturated at the smallest and
the largest `Duration` (an `int64` of nanoseconds). -/
def timeSub (t u : Int) : Int :=
  if t - u < minInt then minInt else if maxInt < t - u then maxInt else t - u

/-- Source `Scheduler.untilNextMinute`; `now` is the value of `time.Now()`. -/
def untilNextMinute (now : Int) : Int :=
  let next := timeAdd (timeTruncate now Minute) Minute
  timeSub next now

/-! ## Definitions used to state the termination of the runner -/

/-- The `last_id` values of the getdata requests among the events of a run, in
order. -/
def cursors (evs : List RunEvent) : List Int := evs.filterMap RunEvent.lastID?

/-- The ids that the row loop extracts from the batch of a reply; there is none
when `fetchData` returns an error. -/
def batchIDs (rt : Runtime) (x : Exchange) : List Int :=
  match fetchData rt x.reply with
  | .ok rows => rows.filterMap (extractID rt)
  | .error _ => []

/-- The descending-window contract for one request and its reply: the reply to the
request with `last_id = L` is a success, the ids of its batch are positive and,
when `L > 0`, below `L`. -/
abbrev descendingReply (rt : Runtime) (L : Int) (x : Exchange) : Prop :=
  (fetchData rt x.reply).isOk = true ∧ ∀ id ∈ batchIDs rt x, 0 < id ∧ (0 < L → id < L)

/-- The descending-window contract along a run: the `k`-th reply of the script
answers the `k`-th getdata request, whose `last_id` is the `k`-th of `requests`. -/
abbrev DescendingWindow (rt : Runtime) (script : List Exchange) (requests : List Int) : Prop :=
  ∀ p ∈ requests.zip script, descendingReply rt p.1 p.2

/-- A server reply that is always the same non-empty batch `[{id:7}]`. -/
def sameBatch : Exchange := { reply := okReply [idRow 7], rows := quietRows }

/-- A descending drain: batches `[{id:3},{id:2}]`, `[{id:1}]`, `[]`. -/
def windowScript : List Exchange :=
  [{ reply := okReply [idRow 3, idRow 2], rows := quietRows },
   { reply := okReply [idRow 1], rows := quietRows },
   { reply := okReply [], rows := quietRows }]

end Scheduler

/-! # Theorems -/

namespace Scheduler

/-! ## Results -/

theorem Result.bind_eq_ok {α β : Type} (x : Result α) (f : α → Result β) (b : β) :
    x.bind f = .ok b ↔ ∃ a, x = .ok a ∧ f a = .ok b := by
  cases x <;> simp [Result.bind]

theorem Result.wrapErr_eq_ok {α : Type} (n : FieldName) (x : Result α) (a : α) :
    Result.wrapErr n x = .ok a ↔ x = .ok a := by
  cases x <;> simp [Result.wrapErr]

/-! ## Integer loops -/

theorem wrapInt_id (x : Int) (h1 : minInt ≤ x) (h2 : x ≤ maxInt) : wrapInt x = x := by
  unfold wrapInt; unfold minInt at h1; unfold maxInt at h2; omega

theorem wrapInt_over (x : Int) (h1 : maxInt < x) (h2 : x ≤ maxInt + maxInt) :
    wrapInt x = x - 18446744073709551616 := by
  unfold wrapInt; unfold maxInt at h1 h2; omega

theorem forLoop_succ (bound step : Int) (fuel : Nat) (v : Int) :
    forLoop bound step (fuel + 1) v =
      if v ≤ bound then (forLoop bound step fuel (wrapInt (v + step))).map (fun r => v :: r)
      else some [] := rfl

/-- Without overflow the loop stops within `bound - v + 2` iterations. -/
theorem forLoop_some_small (bound step : Int) (hs : 0 < step) (hA : bound + step ≤ maxInt) :
    ∀ (n fuel : Nat) (v : Int), 0 ≤ v → (bound - v + 1).toNat ≤ n → n < fuel →
      ∃ l, forLoop bound step fuel v = some l := by
  intro n
  induction n with
  | zero =>
    intro fuel v hv hn hf
    obtain ⟨f, rfl⟩ : ∃ f, fuel = f + 1 := ⟨fuel - 1, by omega⟩
    rw [forLoop_succ, if_neg (by omega)]
    exact ⟨[], rfl⟩
  | succ n ih =>
    intro fuel v hv hn hf
    obtain ⟨f, rfl⟩ : ∃ f, fuel = f + 1 := ⟨fuel - 1, by omega⟩
    rw [forLoop_succ]
    by_cases hvb : v ≤ bound
    · rw [if_pos hvb, wrapInt_id (v + step) (by unfold minInt; omega) (by omega)]
      obtain ⟨l, hl⟩ := ih f (v + step) (by omega) (by omega) (by omega)
      exact ⟨v :: l, by rw [hl]; rfl⟩
    · rw [if_neg hvb]
      exact ⟨[], rfl⟩

/-- With a step so large that `bound + step` overflows, the loop still stops: every
second iteration lowers the non-negative values of `v` by at least two. -/
theorem forLoop_some_large (bound step : Int) (hs2 : step ≤ maxInt)
    (hb : bound ≤ 2305843009213693952) (hB : maxInt < bound + step) :
    ∀ (n fuel : Nat) (v : Int), 0 ≤ v → v ≤ bound → v.toNat ≤ n → 2 * n + 4 ≤ fuel →
      ∃ l, forLoop bound step fuel v = some l := by
  intro n
  induction n with
  | zero =>
    intro fuel v hv hvb hn hf
    obtain ⟨f, rfl⟩ : ∃ f, fuel = f + 2 := ⟨fuel - 2, by omega⟩
    have hv0 : v = 0 := by omega
    subst hv0
    rw [forLoop_succ, if_pos hvb, wrapInt_id _ (by unfold minInt; unfold maxInt at hB; omega) (by omega),
      forLoop_succ, if_neg (by unfold maxInt at hB; omega)]
    exact ⟨_, rfl⟩
  | succ n ih =>
    intro fuel v hv hvb hn hf
    obtain ⟨f, rfl⟩ : ∃ f, fuel = f + 3 := ⟨fuel - 3, by omega⟩
    rw [forLoop_succ, if_pos hvb]
    by_cases ho : v + step ≤ maxInt
    · rw [wrapInt_id _ (by unfold minInt; unfold maxInt at hB; omega) ho,
        forLoop_succ, if_neg (by unfold maxInt at hB; omega)]
      exact ⟨_, rfl⟩
    · rw [wrapInt_over _ (by omega) (by unfold maxInt at *; omega), forLoop_succ,
        if_pos (by unfold maxInt at *; omega),
        wrapInt_id _ (by unfold minInt; unfold maxInt at *; omega) (by unfold maxInt at *; omega)]
      by_cases hneg : 0 ≤ v + step - 18446744073709551616 + step
      · obtain ⟨l, hl⟩ := ih (f + 1) (v + step - 18446744073709551616 + step) hneg
          (by unfold maxInt at *; omega) (by unfold maxInt at *; omega) (by omega)
        exact ⟨_, by rw [hl]; rfl⟩
      · rw [forLoop_succ, if_pos (by omega),
          wrapInt_id _ (by unfold minInt; unfold maxInt at *; omega) (by unfold maxInt at *; omega)]
        obtain ⟨g, rfl⟩ : ∃ g, f = g + 1 := ⟨f - 1, by omega⟩
        rw [forLoop_succ, if_neg (by unfold maxInt at *; omega)]
        exact ⟨_, rfl⟩

theorem forLoop_total (bound step v : Int) (hs : 0 < step) (hs2 : step ≤ maxInt)
    (hv : 0 ≤ v) (hvb : v ≤ bound) (hb : bound ≤ 2305843009213693952) :
    ∃ l, forLoop bound step loopFuel v = some l := by
  by_cases hA : bound + step ≤ maxInt
  · exact forLoop_some_small bound step hs hA (bound - v + 1).toNat loopFuel v hv le_rfl
      (by unfold loopFuel; omega)
  · exact forLoop_some_large bound step hs2 hb (by omega) v.toNat loopFuel v hv hvb le_rfl
      (by unfold loopFuel; omega)

/-! ## The hour/minute table -/

theorem setCell_spec (t g : Nat → Nat → Bool) (h m : Int) (hg : setCell t h m = .ok g) :
    (0 ≤ h ∧ h < hoursLen ∧ 0 ≤ m ∧ m < minutesLen) ∧
    ∀ i j, g i j = true ↔ t i j = true ∨ ((i : Int) = h ∧ (j : Int) = m) := by
  unfold setCell at hg
  split at hg
  · rename_i hr
    refine ⟨hr, ?_⟩
    injection hg with hg
    subst hg
    intro i j
    by_cases hij : i = h.toNat ∧ j = m.toNat
    · simp only [if_pos hij, true_iff]
      right
      omega
    · simp only [if_neg hij]
      constructor
      · intro h1; exact Or.inl h1
      · rintro (h1 | h1)
        · exact h1
        · exact absurd (by omega) hij
  · cases hg

theorem setRow_spec (h : Int) : ∀ (ms : List Int) (t g : Nat → Nat → Bool),
    setRow h ms t = .ok g →
    (∀ m ∈ ms, 0 ≤ h ∧ h < hoursLen ∧ 0 ≤ m ∧ m < minutesLen) ∧
    ∀ i j, g i j = true ↔ t i j = true ∨ ((i : Int) = h ∧ (j : Int) ∈ ms) := by
  intro ms
  induction ms with
  | nil =>
    intro t g hg
    simp only [setRow] at hg
    injection hg with hg
    subst hg
    simp
  | cons m ms ih =>
    intro t g hg
    simp only [setRow] at hg
    obtain ⟨t1, h1, h2⟩ := (Result.bind_eq_ok _ _ _).1 hg
    obtain ⟨hr, hc⟩ := setCell_spec t t1 h m h1
    obtain ⟨hr2, hc2⟩ := ih t1 g h2
    refine ⟨?_, ?_⟩
    · intro x hx
      rcases List.mem_cons.1 hx with rfl | hx
      · exact hr
      · exact hr2 x hx
    · intro i j
      rw [hc2, hc, List.mem_cons]
      tauto

theorem setGrid_spec (ms : List Int) : ∀ (hs : List Int) (t g : Nat → Nat → Bool),
    setGrid ms hs t = .ok g →
    (∀ h ∈ hs, ∀ m ∈ ms, 0 ≤ h ∧ h < hoursLen ∧ 0 ≤ m ∧ m < minutesLen) ∧
    ∀ i j, g i j = true ↔ t i j = true ∨ ((i : Int) ∈ hs ∧ (j : Int) ∈ ms) := by
  intro hs
  induction hs with
  | nil =>
    intro t g hg
    simp only [setGrid] at hg
    injection hg with hg
    subst hg
    simp
  | cons h hs ih =>
    intro t g hg
    simp only [setGrid] at hg
    obtain ⟨t1, h1, h2⟩ := (Result.bind_eq_ok _ _ _).1 hg
    obtain ⟨hr, hc⟩ := setRow_spec h ms t t1 h1
    obtain ⟨hr2, hc2⟩ := ih t1 g h2
    refine ⟨?_, ?_⟩
    · intro x hx
      rcases List.mem_cons.1 hx with rfl | hx
      · exact hr
      · exact hr2 x hx
    · intro i j
      rw [hc2, hc, List.mem_cons]
      tauto

theorem fillHourMinutePair_spec (t g : Nat → Nat → Bool) (hf mf : Str)
    (hg : fillHourMinutePair t hf mf = .ok g) :
    ∃ hv mv, fieldValues hf 0 23 24 = some hv ∧ fieldValues mf 0 59 60 = some mv ∧
      (∀ h ∈ hv, ∀ m ∈ mv, 0 ≤ h ∧ h < hoursLen ∧ 0 ≤ m ∧ m < minutesLen) ∧
      ∀ i j, g i j = true ↔ t i j = true ∨ ((i : Int) ∈ hv ∧ (j : Int) ∈ mv) := by
  unfold fillHourMinutePair at hg
  obtain ⟨hr, h1, hg⟩ := (Result.bind_eq_ok _ _ _).1 hg
  obtain ⟨mr, h2, hg⟩ := (Result.bind_eq_ok _ _ _).1 hg
  rw [Result.wrapErr_eq_ok] at h1 h2
  refine ⟨if hr.2 then upTo 24 else hr.1, if mr.2 then upTo 60 else mr.1, ?_, ?_, ?_⟩
  · simp only [fieldValues, h1]
  · simp only [fieldValues, h2]
  · exact setGrid_spec _ _ _ _ hg

theorem fillPairs_spec : ∀ (hs ms : List Str) (t g : Nat → Nat → Bool),
    hs.length = ms.length → fillPairs hs ms t = .ok g →
    ∀ i j, g i j = true ↔ t i j = true ∨
      ∃ (k : Nat) (hp mp : Str) (hv mv : List Int), hs[k]? = some hp ∧ ms[k]? = some mp ∧
        fieldValues hp 0 23 24 = some hv ∧ fieldValues mp 0 59 60 = some mv ∧
        (i : Int) ∈ hv ∧ (j : Int) ∈ mv := by
  intro hs
  induction hs with
  | nil =>
    intro ms t g hl hg
    cases ms with
    | nil =>
      simp only [fillPairs] at hg
      injection hg with hg
      subst hg
      simp
    | cons m ms => simp at hl
  | cons h hs ih =>
    intro ms t g hl hg
    cases ms with
    | nil => simp at hl
    | cons m ms =>
      simp only [fillPairs] at hg
      obtain ⟨t1, h1, h2⟩ := (Result.bind_eq_ok _ _ _).1 hg
      obtain ⟨hv, mv, e1, e2, -, hc⟩ := fillHourMinutePair_spec t t1 h m h1
      have hc2 := ih ms t1 g (by simpa using hl) h2
      intro i j
      rw [hc2, hc]
      constructor
      · rintro ((h3 | h3) | ⟨k, hp, mp, hv2, mv2, k1, k2, k3, k4, k5⟩)
        · exact Or.inl h3
        · exact Or.inr ⟨0, h, m, hv, mv, by simp, by simp, e1, e2, h3.1, h3.2⟩
        · exact Or.inr ⟨k + 1, hp, mp, hv2, mv2, by simpa using k1, by simpa using k2, k3, k4, k5⟩
      · rintro (h3 | ⟨k, hp, mp, hv2, mv2, k1, k2, k3, k4, k5⟩)
        · exact Or.inl (Or.inl h3)
        · cases k with
          | zero =>
            simp only [List.getElem?_cons_zero, Option.some.injEq] at k1 k2
            subst k1; subst k2
            rw [e1] at k3; rw [e2] at k4
            injection k3 with k3; injection k4 with k4
            subst k3; subst k4
            exact Or.inl (Or.inr k5)
          | succ k =>
            exact Or.inr ⟨k, hp, mp, hv2, mv2, by simpa using k1, by simpa using k2, k3, k4, k5⟩

theorem compile_fields (expr f0 f1 f2 f3 f4 f5 : Str) (C : CronExprCompiled)
    (hF : Fields expr = [f0, f1, f2, f3, f4, f5]) (hC : CompileCronExpr expr = .ok C) :
    fillYears f0 = .ok C.years ∧
    fillBoolField f1 1 12 monthsLen emptyCompiled.months = .ok C.months ∧
    fillBoolField f2 1 31 daysLen emptyCompiled.days = .ok C.days ∧
    fillBoolField f3 1 7 weeksLen emptyCompiled.weeks = .ok C.weeks ∧
    fillHourMinute emptyCompiled.hourMinOK f4 f5 = .ok C.hourMinOK := by
  unfold CompileCronExpr at hC
  rw [hF] at hC
  simp only at hC
  obtain ⟨y, h0, hC⟩ := (Result.bind_eq_ok _ _ _).1 hC
  obtain ⟨mo, h1, hC⟩ := (Result.bind_eq_ok _ _ _).1 hC
  obtain ⟨d, h2, hC⟩ := (Result.bind_eq_ok _ _ _).1 hC
  obtain ⟨w, h3, hC⟩ := (Result.bind_eq_ok _ _ _).1 hC
  obtain ⟨hm, h4, hC⟩ := (Result.bind_eq_ok _ _ _).1 hC
  rw [Result.wrapErr_eq_ok] at h1 h2 h3
  injection hC with hC
  subst hC
  exact ⟨h0, h1, h2, h3, h4⟩

theorem setRow_ok (h : Int) (hh : 0 ≤ h ∧ h < hoursLen) : ∀ (ms : List Int) (t : Nat → Nat → Bool),
    (∀ m ∈ ms, 0 ≤ m ∧ m < minutesLen) → ∃ g, setRow h ms t = .ok g := by
  intro ms
  induction ms with
  | nil => intro t _; exact ⟨t, rfl⟩
  | cons m ms ih =>
    intro t hm
    have h1 := hm m (List.mem_cons_self _ _)
    simp only [setRow, setCell, if_pos (show 0 ≤ h ∧ h < hoursLen ∧ 0 ≤ m ∧ m < minutesLen from
      ⟨hh.1, hh.2, h1.1, h1.2⟩), Result.bind]
    exact ih _ (fun x hx => hm x (List.mem_cons_of_mem _ hx))

theorem setGrid_ok (ms : List Int) (hm : ∀ m ∈ ms, 0 ≤ m ∧ m < minutesLen) :
    ∀ (hs : List Int) (t : Nat → Nat → Bool),
    (∀ h ∈ hs, 0 ≤ h ∧ h < hoursLen) → ∃ g, setGrid ms hs t = .ok g := by
  intro hs
  induction hs with
  | nil => intro t _; exact ⟨t, rfl⟩
  | cons h hs ih =>
    intro t hh
    obtain ⟨t1, h1⟩ := setRow_ok h (hh h (List.mem_cons_self _ _)) ms t hm
    simp only [setGrid, h1, Result.bind]
    exact ih _ (fun x hx => hh x (List.mem_cons_of_mem _ hx))

theorem fieldValues_eq_some (field : Str) (min max : Int) (n : Nat) (vs : List Int)
    (h : fieldValues field min max n = some vs) :
    ∃ r, parseField field min max = .ok r ∧ vs = if r.2 then upTo n else r.1 := by
  unfold fieldValues at h
  split at h
  · rename_i r hr
    injection h with h
    exact ⟨r, hr, h.symm⟩
  · cases h

theorem fillHourMinutePair_ok (t : Nat → Nat → Bool) (hf mf : Str) (hv mv : List Int)
    (h1 : fieldValues hf 0 23 24 = some hv) (h2 : fieldValues mf 0 59 60 = some mv)
    (hh : ∀ h ∈ hv, 0 ≤ h ∧ h < hoursLen) (hm : ∀ m ∈ mv, 0 ≤ m ∧ m < minutesLen) :
    ∃ g, fillHourMinutePair t hf mf = .ok g := by
  obtain ⟨hr, e1, rfl⟩ := fieldValues_eq_some _ _ _ _ _ h1
  obtain ⟨mr, e2, rfl⟩ := fieldValues_eq_some _ _ _ _ _ h2
  simp only [fillHourMinutePair, e1, e2, Result.wrapErr, Result.bind]
  exact setGrid_ok _ hm _ t hh

theorem fillPairs_ok : ∀ (hs ms : List Str) (t : Nat → Nat → Bool),
    (∀ (k : Nat) (hp mp : Str), hs[k]? = some hp → ms[k]? = some mp →
      ∃ hv mv, fieldValues hp 0 23 24 = some hv ∧ fieldValues mp 0 59 60 = some mv ∧
        (∀ h ∈ hv, 0 ≤ h ∧ h < hoursLen) ∧ (∀ m ∈ mv, 0 ≤ m ∧ m < minutesLen)) →
    ∃ g, fillPairs hs ms t = .ok g := by
  intro hs
  induction hs with
  | nil => intro ms t _; exact ⟨t, by simp [fillPairs]⟩
  | cons h hs ih =>
    intro ms t hv
    cases ms with
    | nil => exact ⟨t, by simp [fillPairs]⟩
    | cons m ms =>
      obtain ⟨hv1, mv1, e1, e2, r1, r2⟩ := hv 0 h m (by simp) (by simp)
      obtain ⟨t1, ht1⟩ := fillHourMinutePair_ok t h m hv1 mv1 e1 e2 r1 r2
      simp only [fillPairs, ht1, Result.bind]
      exact ih ms t1 (fun k hp mp k1 k2 => hv (k + 1) hp mp (by simpa using k1) (by simpa using k2))

/-! ## `parseField` always returns -/

theorem Atoi_cases (s : Str) :
    (∃ v, Atoi s = .ok v ∧ minInt ≤ v ∧ v ≤ maxInt) ∨ Atoi s = .error (.numError s) := by
  cases s with
  | nil => exact Or.inr rfl
  | cons c cs =>
    simp only [Atoi]
    by_cases hds : (if c = '-' ∨ c = '+' then cs else c :: cs) = []
    · rw [if_pos hds]; exact Or.inr rfl
    · rw [if_neg hds]
      cases hp : parseDigits (if c = '-' ∨ c = '+' then cs else c :: cs) 0 with
      | none => exact Or.inr rfl
      | some n =>
        simp only
        by_cases hr : (if decide (c = '-') = true then -(n : Int) else (n : Int)) < minInt ∨
            maxInt < (if decide (c = '-') = true then -(n : Int) else (n : Int))
        · rw [if_pos hr]; exact Or.inr rfl
        · rw [if_neg hr]
          push_neg at hr
          exact Or.inl ⟨_, rfl, hr⟩

theorem parseToken_returns (token : Str) (min max : Int) (hmin : 0 ≤ min)
    (hmax : max ≤ 2305843009213693952) :
    (∃ vs, parseToken token min max = .ok vs) ∨ ∃ e, parseToken token min max = .error e := by
  unfold parseToken
  simp only
  split
  · exact Or.inl ⟨_, rfl⟩
  · split
    · split
      · rename_i p0 p1 _
        rcases Atoi_cases p0 with ⟨start, h0, -, -⟩ | h0
        · rcases Atoi_cases p1 with ⟨step, h1, -, hs2⟩ | h1
          · simp only [h0, h1, Result.bind]
            split
            · exact Or.inr ⟨_, rfl⟩
            · split
              · exact Or.inr ⟨_, rfl⟩
              · rename_i hs hr
                push_neg at hs hr
                obtain ⟨l, hl⟩ := forLoop_total max step start hs hs2 (by omega) hr.2 hmax
                rw [hl]
                exact Or.inl ⟨_, rfl⟩
          · simp only [h0, h1, Result.bind]
            exact Or.inr ⟨_, rfl⟩
        · simp only [h0, Result.bind]
          exact Or.inr ⟨_, rfl⟩
      · exact Or.inr ⟨_, rfl⟩
    · split
      · split
        · rename_i p0 p1 _
          rcases Atoi_cases p0 with ⟨start, h0, -, -⟩ | h0
          · rcases Atoi_cases p1 with ⟨endv, h1, -, hs2⟩ | h1
            · simp only [h0, h1, Result.bind]
              split
              · exact Or.inr ⟨_, rfl⟩
              · split
                · exact Or.inr ⟨_, rfl⟩
                · rename_i hs hr
                  push_neg at hs hr
                  obtain ⟨l, hl⟩ := forLoop_total endv 1 start (by decide) (by decide) (by omega)
                    hs (by omega)
                  rw [hl]
                  exact Or.inl ⟨_, rfl⟩
            · simp only [h0, h1, Result.bind]
              exact Or.inr ⟨_, rfl⟩
          · simp only [h0, Result.bind]
            exact Or.inr ⟨_, rfl⟩
        · exact Or.inr ⟨_, rfl⟩
      · rcases Atoi_cases (TrimSpace token) with ⟨v, h0, -, -⟩ | h0
        · simp only [h0, Result.bind]
          split
          · exact Or.inr ⟨_, rfl⟩
          · exact Or.inl ⟨_, rfl⟩
        · simp only [h0, Result.bind]
          exact Or.inr ⟨_, rfl⟩

/-- Once a token of the list is rejected, the token loop returns an error. -/
theorem parseTokens_error (min max : Int) (hmin : 0 ≤ min) (hmax : max ≤ 2305843009213693952) :
    ∀ (tokens : List Str) (result : List Int),
      (∃ t ∈ tokens, ∃ e, parseToken t min max = .error e) →
      ∃ e, parseTokens min max tokens result = .error e := by
  intro tokens
  induction tokens with
  | nil => intro result h; obtain ⟨t, ht, -⟩ := h; cases ht
  | cons tok rest ih =>
    intro result h
    rcases parseToken_returns tok min max hmin hmax with ⟨vs, hv⟩ | ⟨e, he⟩
    · simp only [parseTokens, hv, Result.bind]
      apply ih
      obtain ⟨t, ht, e, he⟩ := h
      rcases List.mem_cons.1 ht with rfl | ht
      · rw [hv] at he; cases he
      · exact ⟨t, ht, e, he⟩
    · simp only [parseTokens, he, Result.bind]
      exact ⟨e, rfl⟩

/-- The token loop always returns: a slice or an error. -/
theorem parseTokens_returns (min max : Int) (hmin : 0 ≤ min) (hmax : max ≤ 2305843009213693952) :
    ∀ (tokens : List Str) (result : List Int),
      (∃ vs, parseTokens min max tokens result = .ok vs) ∨
      ∃ e, parseTokens min max tokens result = .error e := by
  intro tokens
  induction tokens with
  | nil => intro result; exact Or.inl ⟨result, rfl⟩
  | cons tok rest ih =>
    intro result
    rcases parseToken_returns tok min max hmin hmax with ⟨vs, hv⟩ | ⟨e, he⟩
    · simp only [parseTokens, hv, Result.bind]
      exact ih _
    · simp only [parseTokens, he, Result.bind]
      exact Or.inr ⟨e, rfl⟩

theorem parseField_returns (field : Str) (min max : Int) (hmin : 0 ≤ min)
    (hmax : max ≤ 2305843009213693952) :
    (∃ r, parseField field min max = .ok r) ∨ ∃ e, parseField field min max = .error e := by
  unfold parseField
  simp only
  split
  · exact Or.inl ⟨_, rfl⟩
  · rcases parseTokens_returns min max hmin hmax (splitTokens (TrimSpace field)) [] with
      ⟨vs, hv⟩ | ⟨e, he⟩
    · simp only [hv, Result.bind]
      split
      · exact Or.inr ⟨_, rfl⟩
      · exact Or.inl ⟨_, rfl⟩
    · simp only [he, Result.bind]
      exact Or.inr ⟨_, rfl⟩

/-- A field that is not the lone wildcard and has a rejected token is rejected. -/
theorem parseField_error_of_token (field : Str) (min max : Int) (hmin : 0 ≤ min)
    (hmax : max ≤ 2305843009213693952)
    (hstar : ¬ (TrimSpace field = ['*'] ∨ TrimSpace field = []))
    (htok : ∃ t ∈ splitTokens (TrimSpace field), ∃ e, parseToken t min max = .error e) :
    ∃ e, parseField field min max = .error e := by
  obtain ⟨e, he⟩ := parseTokens_error min max hmin hmax _ [] htok
  unfold parseField
  simp only [if_neg hstar, he, Result.bind]
  exact ⟨e, rfl⟩

theorem parseToken_star (min max : Int) :
    parseToken ['*'] min max = .error (.numError ['*']) := by
  rfl

/-! ## Tokenising a comma-separated field -/

theorem fieldsAux_cons (c : Char) (cs cur : Str) :
    fieldsAux (c :: cs) cur =
      if isSpace c then
        (if cur = [] then fieldsAux cs [] else cur.reverse :: fieldsAux cs [])
      else fieldsAux cs (c :: cur) := rfl

theorem fieldsAux_spaces : ∀ (b : Str), (∀ c ∈ b, isSpace c = true) → ∀ cur : Str,
    fieldsAux b cur = if cur = [] then [] else [cur.reverse] := by
  intro b
  induction b with
  | nil => intro _ cur; rfl
  | cons c b ih =>
    intro hb cur
    have hc := hb c (List.mem_cons_self _ _)
    have ih2 := ih (fun x hx => hb x (List.mem_cons_of_mem _ hx)) []
    simp only [if_true] at ih2
    simp only [fieldsAux, hc, if_true, ih2]

theorem fieldsAux_append_spaces (b : Str) (hb : ∀ c ∈ b, isSpace c = true) :
    ∀ (a cur : Str), fieldsAux (a ++ b) cur = fieldsAux a cur := by
  intro a
  induction a with
  | nil =>
    intro cur
    rw [List.nil_append, fieldsAux_spaces b hb cur]
    rfl
  | cons c a ih =>
    intro cur
    rw [List.cons_append, fieldsAux_cons, fieldsAux_cons]
    simp only [ih]

theorem fieldsAux_dropWhile : ∀ s : Str, fieldsAux (s.dropWhile isSpace) [] = fieldsAux s [] := by
  intro s
  induction s with
  | nil => rfl
  | cons c s ih =>
    by_cases hc : isSpace c = true
    · simp only [List.dropWhile, hc, fieldsAux, if_true, ih]
    · simp only [List.dropWhile, hc]

theorem Fields_TrimSpace (s : Str) : Fields (TrimSpace s) = Fields s := by
  unfold Fields TrimSpace
  rw [← fieldsAux_dropWhile s]
  generalize s.dropWhile isSpace = u
  have hsplit : u = (u.reverse.dropWhile isSpace).reverse ++ (u.reverse.takeWhile isSpace).reverse := by
    rw [← List.reverse_append, List.takeWhile_append_dropWhile, List.reverse_reverse]
  have hsp : ∀ c ∈ (u.reverse.takeWhile isSpace).reverse, isSpace c = true := by
    intro c hc
    exact List.mem_takeWhile_imp (List.mem_reverse.1 hc)
  conv_rhs => rw [hsplit]
  rw [fieldsAux_append_spaces _ hsp]

theorem TrimSpace_noSpace (s : Str) (h : ∀ c ∈ s, isSpace c = false) : TrimSpace s = s := by
  have key : ∀ u : Str, (∀ c ∈ u, isSpace c = false) → u.dropWhile isSpace = u := by
    intro u hu
    cases u with
    | nil => rfl
    | cons c u => simp [List.dropWhile, hu c (List.mem_cons_self _ _)]
  unfold TrimSpace
  rw [key s h, key s.reverse (fun c hc => h c (List.mem_reverse.1 hc)), List.reverse_reverse]

theorem fieldsAux_word (rest : Str) : ∀ (w : Str), (∀ c ∈ w, isSpace c = false) → ∀ cur : Str,
    fieldsAux (w ++ ' ' :: rest) cur =
      (if cur.reverse ++ w = [] then [] else [cur.reverse ++ w]) ++ fieldsAux rest [] := by
  intro w
  induction w with
  | nil =>
    intro _ cur
    have hsp : isSpace ' ' = true := by decide
    simp only [List.nil_append, fieldsAux, hsp, if_true, List.append_nil, List.reverse_eq_nil_iff]
    split <;> simp
  | cons c w ih =>
    intro hw cur
    have hc := hw c (List.mem_cons_self _ _)
    rw [List.cons_append, fieldsAux_cons]
    simp only [hc, Bool.false_eq_true, if_false]
    rw [ih (fun x hx => hw x (List.mem_cons_of_mem _ hx))]
    simp

theorem fieldsAux_last : ∀ (w : Str), (∀ c ∈ w, isSpace c = false) → ∀ cur : Str,
    fieldsAux w cur = if cur.reverse ++ w = [] then [] else [cur.reverse ++ w] := by
  intro w
  induction w with
  | nil =>
    intro _ cur
    simp only [fieldsAux, List.append_nil, List.reverse_eq_nil_iff]
  | cons c w ih =>
    intro hw cur
    have hc := hw c (List.mem_cons_self _ _)
    simp only [fieldsAux, hc, Bool.false_eq_true, if_false]
    rw [ih (fun x hx => hw x (List.mem_cons_of_mem _ hx))]
    simp

/-- Replacing the commas of a comma-separated list and splitting on white space
gives back its non-empty tokens. -/
theorem Fields_joinTokens : ∀ ts : List Str,
    (∀ t ∈ ts, ∀ c ∈ t, c ≠ ',' ∧ isSpace c = false) →
    Fields (ReplaceAll (joinTokens ts) ',' ' ') = ts.filter (fun t => t != []) := by
  intro ts
  induction ts with
  | nil => intro _; rfl
  | cons t ts ih =>
    intro h
    have ht := h t (List.mem_cons_self _ _)
    have hmap : ReplaceAll t ',' ' ' = t := by
      unfold ReplaceAll
      conv_rhs => rw [← List.map_id t]
      apply List.map_congr_left
      intro c hc
      simp [(ht c hc).1]
    have hns : ∀ c ∈ t, isSpace c = false := fun c hc => (ht c hc).2
    cases ts with
    | nil =>
      simp only [joinTokens, hmap, Fields]
      rw [fieldsAux_last t hns]
      by_cases hte : t = [] <;> simp [hte]
    | cons t2 ts =>
      have ih2 := ih (fun x hx => h x (List.mem_cons_of_mem _ hx))
      have hj : ReplaceAll (joinTokens (t :: t2 :: ts)) ',' ' ' =
          t ++ ' ' :: ReplaceAll (joinTokens (t2 :: ts)) ',' ' ' := by
        simp only [joinTokens]
        unfold ReplaceAll at hmap ⊢
        rw [List.map_append, hmap]
        simp
      rw [hj]
      unfold Fields at ih2 ⊢
      rw [fieldsAux_word _ t hns, ih2]
      by_cases hte : t = [] <;> simp [hte, List.filter_cons]

theorem mem_splitTokens_joinTokens (ts : List Str) (t : Str)
    (h : ∀ t ∈ ts, ∀ c ∈ t, c ≠ ',' ∧ isSpace c = false) (ht : t ∈ ts) (hne : t ≠ []) :
    t ∈ splitTokens (joinTokens ts) := by
  have hmem : t ∈ Fields (TrimSpace (ReplaceAll (joinTokens ts) ',' ' ')) := by
    rw [Fields_TrimSpace, Fields_joinTokens ts h]
    exact List.mem_filter.2 ⟨ht, by simpa using hne⟩
  unfold splitTokens
  simp only
  split
  · rename_i h0
    rw [h0] at hmem
    exact absurd hmem (by simp [Fields, fieldsAux])
  · exact hmem

theorem joinTokens_noSpace : ∀ ts : List Str,
    (∀ t ∈ ts, ∀ c ∈ t, c ≠ ',' ∧ isSpace c = false) →
    ∀ c ∈ joinTokens ts, isSpace c = false := by
  intro ts
  induction ts with
  | nil => intro _ c hc; cases hc
  | cons t ts ih =>
    intro h c hc
    cases ts with
    | nil => exact (h t (List.mem_cons_self _ _) c hc).2
    | cons t2 ts =>
      simp only [joinTokens, List.mem_append, List.mem_cons] at hc
      rcases hc with hc | rfl | hc
      · exact (h t (List.mem_cons_self _ _) c hc).2
      · decide
      · exact ih (fun x hx => h x (List.mem_cons_of_mem _ hx)) c hc

theorem comma_mem_joinTokens (ts : List Str) (h : 2 ≤ ts.length) : ',' ∈ joinTokens ts := by
  match ts, h with
  | t :: t2 :: ts, _ => simp [joinTokens]

/-! ## One-dimensional tables -/

theorem setIndex_spec (len : Nat) (t g : Nat → Bool) (v : Int) (hg : setIndex len t v = .ok g) :
    (0 ≤ v ∧ v < len) ∧ ∀ i, g i = true ↔ t i = true ∨ (i : Int) = v := by
  unfold setIndex at hg
  split at hg
  · rename_i hr
    refine ⟨hr, ?_⟩
    injection hg with hg
    subst hg
    intro i
    by_cases hi : i = v.toNat
    · simp only [if_pos hi, true_iff]
      right
      omega
    · simp only [if_neg hi]
      constructor
      · intro h1; exact Or.inl h1
      · rintro (h1 | h1)
        · exact h1
        · exact absurd (by omega) hi
  · cases hg

theorem setIndices_spec (len : Nat) : ∀ (vs : List Int) (t g : Nat → Bool),
    setIndices len vs t = .ok g →
    (∀ v ∈ vs, 0 ≤ v ∧ v < len) ∧ ∀ i, g i = true ↔ t i = true ∨ (i : Int) ∈ vs := by
  intro vs
  induction vs with
  | nil =>
    intro t g hg
    simp only [setIndices] at hg
    injection hg with hg
    subst hg
    simp
  | cons v vs ih =>
    intro t g hg
    simp only [setIndices] at hg
    obtain ⟨t1, h1, h2⟩ := (Result.bind_eq_ok _ _ _).1 hg
    obtain ⟨hr, hc⟩ := setIndex_spec len t t1 v h1
    obtain ⟨hr2, hc2⟩ := ih t1 g h2
    refine ⟨?_, ?_⟩
    · intro x hx
      rcases List.mem_cons.1 hx with rfl | hx
      · exact hr
      · exact hr2 x hx
    · intro i
      rw [hc2, hc, List.mem_cons]
      tauto

theorem setIndices_ok (len : Nat) : ∀ (vs : List Int) (t : Nat → Bool),
    (∀ v ∈ vs, 0 ≤ v ∧ v < len) → ∃ g, setIndices len vs t = .ok g := by
  intro vs
  induction vs with
  | nil => intro t _; exact ⟨t, rfl⟩
  | cons v vs ih =>
    intro t hv
    simp only [setIndices, setIndex, if_pos (hv v (List.mem_cons_self _ _)), Result.bind]
    exact ih _ (fun x hx => hv x (List.mem_cons_of_mem _ hx))

/-- What a successful `fillBoolField` wrote: the parsed values, or `min .. max`
for a wildcard. -/
theorem fillBoolField_spec (field : Str) (min max : Int) (len : Nat) (t g : Nat → Bool)
    (hg : fillBoolField field min max len t = .ok g) :
    ∃ r idx, parseField field min max = .ok r ∧
      (if r.2 then forLoop max 1 loopFuel min = some idx else idx = r.1) ∧
      (∀ v ∈ idx, 0 ≤ v ∧ v < len) ∧
      ∀ i, g i = true ↔ t i = true ∨ (i : Int) ∈ idx := by
  unfold fillBoolField at hg
  obtain ⟨r, h1, hg⟩ := (Result.bind_eq_ok _ _ _).1 hg
  by_cases hany : r.2 = true
  · simp only [hany, if_true] at hg
    cases hl : forLoop max 1 loopFuel min with
    | none => rw [hl] at hg; cases hg
    | some idx =>
      rw [hl] at hg
      simp only at hg
      obtain ⟨hr, hc⟩ := setIndices_spec len idx t g hg
      exact ⟨r, idx, h1, by simp [hany], hr, hc⟩
  · simp only [hany, Bool.false_eq_true, if_false] at hg
    obtain ⟨hr, hc⟩ := setIndices_spec len r.1 t g hg
    exact ⟨r, r.1, h1, by simp [hany], hr, hc⟩

theorem fillBoolField_ok (field : Str) (min max : Int) (len : Nat) (t : Nat → Bool)
    (r : List Int × Bool) (idx : List Int) (h1 : parseField field min max = .ok r)
    (h2 : if r.2 then forLoop max 1 loopFuel min = some idx else idx = r.1)
    (h3 : ∀ v ∈ idx, 0 ≤ v ∧ v < len) :
    ∃ g, fillBoolField field min max len t = .ok g := by
  unfold fillBoolField
  simp only [h1, Result.bind]
  by_cases hany : r.2 = true
  · simp only [hany, if_true] at h2 ⊢
    rw [h2]
    exact setIndices_ok len idx t h3
  · simp only [hany, Bool.false_eq_true, if_false] at h2 ⊢
    subst h2
    exact setIndices_ok len _ t h3

theorem parseField_star (min max : Int) : parseField ['*'] min max = .ok ([], true) := rfl

theorem star_loops :
    forLoop 12 1 loopFuel 1 = some [1, 2, 3, 4, 5, 6, 7, 8, 9, 10, 11, 12] ∧
    forLoop 31 1 loopFuel 1 = some [1, 2, 3, 4, 5, 6, 7, 8, 9, 10, 11, 12, 13, 14, 15, 16,
      17, 18, 19, 20, 21, 22, 23, 24, 25, 26, 27, 28, 29, 30, 31] ∧
    forLoop 7 1 loopFuel 1 = some [1, 2, 3, 4, 5, 6, 7] := by decide

/-- The tables built from wildcard month, day and week fields. -/
theorem star_tables :
    (∃ g, fillBoolField ['*'] 1 12 monthsLen emptyCompiled.months = .ok g ∧
      ∀ i, g i = true ↔ 1 ≤ i ∧ i ≤ 12) ∧
    (∃ g, fillBoolField ['*'] 1 31 daysLen emptyCompiled.days = .ok g ∧
      ∀ i, g i = true ↔ 1 ≤ i ∧ i ≤ 31) ∧
    (∃ g, fillBoolField ['*'] 1 7 weeksLen emptyCompiled.weeks = .ok g ∧
      ∀ i, g i = true ↔ 1 ≤ i ∧ i ≤ 7) := by
  obtain ⟨l1, l2, l3⟩ := star_loops
  refine ⟨?_, ?_, ?_⟩
  · obtain ⟨g, hg⟩ := fillBoolField_ok ['*'] 1 12 monthsLen emptyCompiled.months _ _
      (parseField_star 1 12) l1 (by decide)
    refine ⟨g, hg, ?_⟩
    obtain ⟨r, idx, h1, h2, -, h4⟩ := fillBoolField_spec _ _ _ _ _ _ hg
    rw [parseField_star] at h1
    injection h1 with h1
    subst h1
    simp only [if_true, l1, Option.some.injEq] at h2
    subst h2
    intro i
    rw [h4]
    simp only [emptyCompiled, Bool.false_eq_true, false_or, List.mem_cons, List.mem_singleton,
      List.not_mem_nil, or_false]
    omega
  · obtain ⟨g, hg⟩ := fillBoolField_ok ['*'] 1 31 daysLen emptyCompiled.days _ _
      (parseField_star 1 31) l2 (by decide)
    refine ⟨g, hg, ?_⟩
    obtain ⟨r, idx, h1, h2, -, h4⟩ := fillBoolField_spec _ _ _ _ _ _ hg
    rw [parseField_star] at h1
    injection h1 with h1
    subst h1
    simp only [if_true, l2, Option.some.injEq] at h2
    subst h2
    intro i
    rw [h4]
    simp only [emptyCompiled, Bool.false_eq_true, false_or, List.mem_cons, List.mem_singleton,
      List.not_mem_nil, or_false]
    omega
  · obtain ⟨g, hg⟩ := fillBoolField_ok ['*'] 1 7 weeksLen emptyCompiled.weeks _ _
      (parseField_star 1 7) l3 (by decide)
    refine ⟨g, hg, ?_⟩
    obtain ⟨r, idx, h1, h2, -, h4⟩ := fillBoolField_spec _ _ _ _ _ _ hg
    rw [parseField_star] at h1
    injection h1 with h1
    subst h1
    simp only [if_true, l3, Option.some.injEq] at h2
    subst h2
    intro i
    rw [h4]
    simp only [emptyCompiled, Bool.false_eq_true, false_or, List.mem_cons, List.mem_singleton,
      List.not_mem_nil, or_false]
    omega

theorem mem_upTo (n i : Nat) : (i : Int) ∈ upTo n ↔ i < n := by
  unfold upTo
  simp

/-- The table built from wildcard hour and minute fields. -/
theorem star_hourMinute :
    ∃ g, fillHourMinute emptyCompiled.hourMinOK ['*'] ['*'] = .ok g ∧
      ∀ H M, g H M = true ↔ H < 24 ∧ M < 60 := by
  have hv : fieldValues ['*'] 0 23 24 = some (upTo 24) := rfl
  have mv : fieldValues ['*'] 0 59 60 = some (upTo 60) := rfl
  obtain ⟨g, hg⟩ := fillHourMinutePair_ok emptyCompiled.hourMinOK ['*'] ['*'] _ _ hv mv
    (by decide) (by decide)
  refine ⟨g, ?_, ?_⟩
  · have e : fillHourMinute emptyCompiled.hourMinOK ['*'] ['*'] =
        fillHourMinutePair emptyCompiled.hourMinOK ['*'] ['*'] := rfl
    rw [e, hg]
  · obtain ⟨hv2, mv2, e1, e2, -, h4⟩ := fillHourMinutePair_spec _ _ _ _ hg
    rw [hv] at e1; rw [mv] at e2
    injection e1 with e1; injection e2 with e2
    subst e1; subst e2
    intro H M
    rw [h4, mem_upTo, mem_upTo]
    simp [emptyCompiled]

theorem compile_of_stages (expr f0 f1 f2 f3 f4 f5 : Str) (ys : List Int)
    (gm gd gw : Nat → Bool) (ghm : Nat → Nat → Bool)
    (hF : Fields expr = [f0, f1, f2, f3, f4, f5])
    (h0 : fillYears f0 = .ok ys)
    (h1 : fillBoolField f1 1 12 monthsLen emptyCompiled.months = .ok gm)
    (h2 : fillBoolField f2 1 31 daysLen emptyCompiled.days = .ok gd)
    (h3 : fillBoolField f3 1 7 weeksLen emptyCompiled.weeks = .ok gw)
    (h4 : fillHourMinute emptyCompiled.hourMinOK f4 f5 = .ok ghm) :
    CompileCronExpr expr =
      .ok { years := ys, months := gm, days := gd, weeks := gw, hourMinOK := ghm } := by
  unfold CompileCronExpr
  rw [hF]
  simp only [h0, h1, h2, h3, h4, Result.bind, Result.wrapErr]

theorem Match_true_iff (c : CronExprCompiled) (t : Time) :
    c.Match t = true ↔
      ((c.years.length = 0 ∨ t.year ∈ c.years) ∧ c.months t.month = true ∧
        c.days t.day = true ∧ c.weeks (remapWeekday t.weekday) = true ∧
        c.hourMinOK t.hour t.minute = true) := by
  unfold CronExprCompiled.Match
  by_cases hy : c.years.length ≠ 0 ∧ ¬ (t.year ∈ c.years)
  · simp only [if_pos hy]
    constructor
    · intro h; cases h
    · rintro ⟨h1, -⟩
      rcases h1 with h1 | h1
      · exact absurd h1 hy.1
      · exact absurd h1 hy.2
  · have hy2 : c.years.length = 0 ∨ t.year ∈ c.years := by
      by_contra hc
      push_neg at hc
      exact hy ⟨hc.1, hc.2⟩
    simp only [if_neg hy]
    cases hm : c.months t.month <;> cases hd : c.days t.day <;>
      cases hw : c.weeks (remapWeekday t.weekday) <;>
      cases hh : c.hourMinOK t.hour t.minute <;> simp_all

theorem remapWeekday_range (t : Time) :
    1 ≤ remapWeekday t.weekday ∧ remapWeekday t.weekday ≤ 7 := by
  have := t.weekday_range
  unfold remapWeekday
  split <;> omega

/-- The bounds of every cron field are small non-negative integers. -/
theorem FieldName.bounds (f : FieldName) : 0 ≤ f.min ∧ f.max ≤ 2305843009213693952 := by
  cases f <;> exact ⟨by decide, by decide⟩

/-! ## Decimal tokens -/

theorem digitVal_digitChar (m : Nat) (h : m < 10) :
    digitVal (Nat.digitChar m) = some m ∧
    48 ≤ (Nat.digitChar m).toNat ∧ (Nat.digitChar m).toNat ≤ 57 := by
  interval_cases m <;> decide

theorem parseDigits_append : ∀ (pre ds : Str) (acc : Nat),
    parseDigits (pre ++ ds) acc = (parseDigits pre acc).bind (parseDigits ds) := by
  intro pre
  induction pre with
  | nil => intro ds acc; rfl
  | cons c pre ih =>
    intro ds acc
    simp only [List.cons_append, parseDigits]
    cases digitVal c with
    | none => rfl
    | some d => exact ih ds _

theorem toDigitsCore_spec : ∀ (fuel n : Nat) (ds : Str), n < fuel →
    ∃ (pre : Str) (k : Nat), Nat.toDigitsCore 10 fuel n ds = pre ++ ds ∧ pre ≠ [] ∧
      (∀ c ∈ pre, 48 ≤ c.toNat ∧ c.toNat ≤ 57) ∧
      ∀ acc, parseDigits pre acc = some (acc * 10 ^ k + n) := by
  intro fuel
  induction fuel with
  | zero => intro n ds h; omega
  | succ fuel ih =>
    intro n ds h
    simp only [Nat.toDigitsCore]
    have hd := digitVal_digitChar (n % 10) (Nat.mod_lt _ (by decide))
    by_cases h0 : n / 10 = 0
    · rw [if_pos h0]
      refine ⟨[Nat.digitChar (n % 10)], 1, rfl, by simp, ?_, ?_⟩
      · intro c hc
        rw [List.mem_singleton] at hc
        subst hc
        exact hd.2
      · intro acc
        simp only [parseDigits, hd.1]
        congr 1
        omega
    · rw [if_neg h0]
      obtain ⟨pre, k, e1, e2, e3, e4⟩ := ih (n / 10) (Nat.digitChar (n % 10) :: ds) (by omega)
      refine ⟨pre ++ [Nat.digitChar (n % 10)], k + 1, by rw [e1]; simp, by simp, ?_, ?_⟩
      · intro c hc
        rcases List.mem_append.1 hc with hc | hc
        · exact e3 c hc
        · rw [List.mem_singleton] at hc
          subst hc
          exact hd.2
      · intro acc
        rw [parseDigits_append, e4]
        simp only [Option.bind, parseDigits, hd.1]
        congr 1
        rw [pow_succ]
        have := Nat.div_add_mod n 10
        nlinarith [this]

theorem decimal_spec (n : Nat) :
    decimal n ≠ [] ∧ (∀ c ∈ decimal n, 48 ≤ c.toNat ∧ c.toNat ≤ 57) ∧
    parseDigits (decimal n) 0 = some n := by
  obtain ⟨pre, k, e1, e2, e3, e4⟩ := toDigitsCore_spec (n + 1) n [] (by omega)
  unfold decimal Nat.toDigits
  rw [e1, List.append_nil]
  refine ⟨e2, e3, ?_⟩
  rw [e4]
  simp

theorem Atoi_decimal (n : Nat) (h : (n : Int) ≤ maxInt) : Atoi (decimal n) = .ok (n : Int) := by
  obtain ⟨h1, h2, h3⟩ := decimal_spec n
  cases hs : decimal n with
  | nil => exact absurd hs h1
  | cons c cs =>
    rw [hs] at h2 h3
    have hc := h2 c (List.mem_cons_self _ _)
    have hm : c ≠ '-' := by rintro rfl; revert hc; decide
    have hp : c ≠ '+' := by rintro rfl; revert hc; decide
    simp only [Atoi, hm, hp, or_self, if_false, h3, decide_False, Bool.false_eq_true]
    rw [if_neg (by simp), if_neg]
    push_neg
    constructor
    · unfold minInt; omega
    · exact h

theorem digit_facts (c : Char) (h : 48 ≤ c.toNat ∧ c.toNat ≤ 57) :
    isSpace c = false ∧ c ≠ '/' ∧ c ≠ ',' ∧ c ≠ '-' ∧ c ≠ '*' := by
  refine ⟨?_, ?_, ?_, ?_, ?_⟩
  · unfold isSpace
    simp only [Bool.or_eq_false_iff, Bool.and_eq_false_iff, decide_eq_false_iff_not]
    omega
  · rintro rfl; revert h; decide
  · rintro rfl; revert h; decide
  · rintro rfl; revert h; decide
  · rintro rfl; revert h; decide

theorem splitTokens_joinTokens (ts : List Str)
    (h : ∀ t ∈ ts, ∀ c ∈ t, c ≠ ',' ∧ isSpace c = false) :
    splitTokens (joinTokens ts) = ts.filter (fun t => t != []) := by
  have hF : Fields (TrimSpace (ReplaceAll (joinTokens ts) ',' ' ')) =
      ts.filter (fun t => t != []) := by
    rw [Fields_TrimSpace, Fields_joinTokens ts h]
  unfold splitTokens
  simp only
  split
  · rename_i h0
    rw [h0] at hF
    rw [← hF]
    rfl
  · exact hF

/-- Without overflow, the loop visits the arithmetic progression from `v` by `step`
up to `bound`. -/
theorem forLoop_values (bound step : Int) (hs : 0 < step) (hA : bound + step ≤ maxInt) :
    ∀ (fuel : Nat) (v : Int) (l : List Int), 0 ≤ v → forLoop bound step fuel v = some l →
      ∀ x, x ∈ l ↔ ∃ k : Nat, x = v + k * step ∧ x ≤ bound := by
  intro fuel
  induction fuel with
  | zero => intro v l _ h; cases h
  | succ fuel ih =>
    intro v l hv h x
    rw [forLoop_succ] at h
    by_cases hvb : v ≤ bound
    · rw [if_pos hvb, wrapInt_id (v + step) (by unfold minInt; omega) (by omega)] at h
      cases hl : forLoop bound step fuel (v + step) with
      | none => rw [hl] at h; cases h
      | some l2 =>
        rw [hl] at h
        simp only [Option.map_some', Option.some.injEq] at h
        subst h
        rw [List.mem_cons, ih (v + step) l2 (by omega) hl x]
        constructor
        · rintro (rfl | ⟨k, hk, hb⟩)
          · exact ⟨0, by simp, hvb⟩
          · exact ⟨k + 1, by rw [hk]; push_cast; ring, hb⟩
        · rintro ⟨k, hk, hb⟩
          cases k with
          | zero => left; simpa using hk
          | succ k => right; exact ⟨k, by rw [hk]; push_cast; ring, hb⟩
    · rw [if_neg hvb] at h
      injection h with h
      subst h
      simp only [List.not_mem_nil, false_iff]
      rintro ⟨k, hk, hb⟩
      have : 0 ≤ (k : Int) * step := mul_nonneg (by positivity) (le_of_lt hs)
      omega

theorem SplitN2_stepToken (a s : Nat) :
    TrimSpace (stepToken a s) = stepToken a s ∧ stepToken a s ≠ [] ∧
    Contains (stepToken a s) '/' = true ∧
    SplitN2 (stepToken a s) '/' = [decimal a, decimal s] := by
  obtain ⟨-, ha, -⟩ := decimal_spec a
  obtain ⟨-, hs, -⟩ := decimal_spec s
  have hc : Contains (stepToken a s) '/' = true := by
    unfold Contains stepToken
    simp
  refine ⟨?_, ?_, hc, ?_⟩
  · apply TrimSpace_noSpace
    intro c hcm
    unfold stepToken at hcm
    rcases List.mem_append.1 hcm with h | h
    · exact (digit_facts c (ha c h)).1
    · rcases List.mem_cons.1 h with rfl | h
      · decide
      · exact (digit_facts c (hs c h)).1
  · unfold stepToken
    simp
  · unfold SplitN2
    rw [if_pos hc]
    unfold stepToken
    have key : ∀ (l : Str), (∀ c ∈ l, 48 ≤ c.toNat ∧ c.toNat ≤ 57) →
        (l ++ '/' :: decimal s).takeWhile (fun c => c != '/') = l ∧
        (l ++ '/' :: decimal s).dropWhile (fun c => c != '/') = '/' :: decimal s := by
      intro l
      induction l with
      | nil => intro _; simp [List.takeWhile, List.dropWhile]
      | cons c l ih =>
        intro hl
        have h1 := (digit_facts c (hl c (List.mem_cons_self _ _))).2.1
        have h2 := ih (fun x hx => hl x (List.mem_cons_of_mem _ hx))
        have h3 : (c != '/') = true := by simpa using h1
        rw [List.cons_append, List.takeWhile_cons, List.dropWhile_cons, h3]
        simp only [if_true, h2.1, h2.2, and_self]
    rw [(key _ ha).1, (key _ ha).2]
    rfl

/-- The step token `a/s` of a field, when `max + s` does not overflow: `parseField`
returns exactly the values `a + k*s` that do not exceed `max`. -/
theorem step_token_progression (f : FieldName) (a s : Nat) (hs : 0 < s)
    (h1 : f.min ≤ a) (h2 : (a : Int) ≤ f.max) (hno : f.max + s ≤ maxInt) :
    ∃ l, parseField (stepToken a s) f.min f.max = .ok (l, false) ∧
      ∀ x : Int, x ∈ l ↔ ∃ k : Nat, x = a + k * s ∧ x ≤ f.max := by
  obtain ⟨t1, t2, t3, t4⟩ := SplitN2_stepToken a s
  have hb := f.bounds
  have hsm : (s : Int) ≤ maxInt := by unfold maxInt at hno ⊢; omega
  have ham : (a : Int) ≤ maxInt := by unfold maxInt; omega
  obtain ⟨l, hl⟩ := forLoop_total f.max s a (by omega) hsm (by omega) h2 hb.2
  have hvals := forLoop_values f.max s (by omega) hno loopFuel a l (by omega) hl
  have htok : parseToken (stepToken a s) f.min f.max = .ok l := by
    unfold parseToken
    simp only [t1, if_neg t2, t3, if_true, t4, Atoi_decimal a ham, Atoi_decimal s hsm,
      Result.bind, hl]
    rw [if_neg (by omega), if_neg (by omega)]
  have hclean : ∀ t ∈ [stepToken a s], ∀ c ∈ t, c ≠ ',' ∧ isSpace c = false := by
    intro t ht c hc
    rw [List.mem_singleton] at ht
    subst ht
    obtain ⟨-, ha, -⟩ := decimal_spec a
    obtain ⟨-, hs, -⟩ := decimal_spec s
    unfold stepToken at hc
    rcases List.mem_append.1 hc with h | h
    · exact ⟨(digit_facts c (ha c h)).2.2.1, (digit_facts c (ha c h)).1⟩
    · rcases List.mem_cons.1 h with rfl | h
      · decide
      · exact ⟨(digit_facts c (hs c h)).2.2.1, (digit_facts c (hs c h)).1⟩
  have hsplit : splitTokens (stepToken a s) = [stepToken a s] := by
    have := splitTokens_joinTokens [stepToken a s] hclean
    simpa [joinTokens, t2] using this
  have hstar : ¬ (stepToken a s = ['*'] ∨ stepToken a s = []) := by
    rintro (h | h)
    · have : Contains (stepToken a s) '/' = true := t3
      rw [h] at this
      revert this
      decide
    · exact t2 h
  have hmem : (a : Int) ∈ l := (hvals a).2 ⟨0, by simp, h2⟩
  refine ⟨l, ?_, hvals⟩
  unfold parseField
  simp only [t1, if_neg hstar, hsplit, parseTokens, htok, Result.bind, List.nil_append]
  rw [if_neg]
  intro h0
  rw [List.length_eq_zero] at h0
  rw [h0] at hmem
  cases hmem

/-! # The claims -/

/-! ## Matching -/

/-- C1. For every expression on which `CompileCronExpr` succeeds with result `C` and
every instant `t`, `C.Match t` is true exactly when all five field constraints
accept `t`: the year set is empty (any) or contains the year, and the month, day,
remapped weekday and hour/minute bits are set; in particular a match implies each
constraint on its own. -/
theorem Match_iff_fields (e : Str) (C : CronExprCompiled) (t : Time)
    (_h : CompileCronExpr e = .ok C) :
    (C.Match t = true ↔
      ((C.years.length = 0 ∨ t.year ∈ C.years) ∧ C.months t.month = true ∧
        C.days t.day = true ∧ C.weeks (remapWeekday t.weekday) = true ∧
        C.hourMinOK t.hour t.minute = true)) ∧
    (C.Match t = true → (C.years.length = 0 ∨ t.year ∈ C.years)) ∧
    (C.Match t = true → C.months t.month = true) ∧
    (C.Match t = true → C.days t.day = true) ∧
    (C.Match t = true → C.weeks (remapWeekday t.weekday) = true) ∧
    (C.Match t = true → C.hourMinOK t.hour t.minute = true) := by
  have key := Match_true_iff C t
  refine ⟨key, ?_, ?_, ?_, ?_, ?_⟩ <;> intro hm
  · exact (key.1 hm).1
  · exact (key.1 hm).2.1
  · exact (key.1 hm).2.2.1
  · exact (key.1 hm).2.2.2.1
  · exact (key.1 hm).2.2.2.2

/-- C1 at the sample expression and Sunday 2 January 2000, 03:30: the expression
compiles, the instant matches, and the match is equivalent to the five field
constraints. -/
theorem Match_iff_fields_witness :
    CompileCronExpr sampleExpr = .ok sampleCompiled ∧
    sampleCompiled.Match sampleTime = true ∧
    (sampleCompiled.Match sampleTime = true ↔
      ((sampleCompiled.years.length = 0 ∨ sampleTime.year ∈ sampleCompiled.years) ∧
        sampleCompiled.months sampleTime.month = true ∧
        sampleCompiled.days sampleTime.day = true ∧
        sampleCompiled.weeks (remapWeekday sampleTime.weekday) = true ∧
        sampleCompiled.hourMinOK sampleTime.hour sampleTime.minute = true)) :=
  ⟨rfl, by decide, (Match_iff_fields sampleExpr sampleCompiled sampleTime rfl).1⟩

/-! ## Hour/minute pairing -/

/-- C2. When the hour field has `k > 1` sub-expressions separated by `|`, the minute
field has exactly `k`, and each sub-expression is valid (it parses, with values
inside the 24×60 table), `fillHourMinute` succeeds and the table it builds — the
`hourMinOK` of every expression compiled from these two fields — accepts `(H, M)`
exactly when some index `k` has `H` among the values of the `k`-th hour
sub-expression and `M` among the values of the `k`-th minute sub-expression. -/
theorem fillHourMinute_zipped (hf mf : Str)
    (hk : 1 < (Split hf '|').length)
    (hlen : (Split mf '|').length = (Split hf '|').length)
    (hvalid : ∀ (k : Nat) (hp mp : Str),
      (Split hf '|')[k]? = some hp → (Split mf '|')[k]? = some mp →
      ∃ hv mv, fieldValues hp 0 23 24 = some hv ∧ fieldValues mp 0 59 60 = some mv ∧
        (∀ h ∈ hv, 0 ≤ h ∧ h < hoursLen) ∧ (∀ m ∈ mv, 0 ≤ m ∧ m < minutesLen)) :
    ∃ g, fillHourMinute emptyCompiled.hourMinOK hf mf = .ok g ∧
      (∀ H M : Nat, g H M = true ↔
        ∃ (k : Nat) (hp mp : Str) (hv mv : List Int),
          (Split hf '|')[k]? = some hp ∧ (Split mf '|')[k]? = some mp ∧
          fieldValues hp 0 23 24 = some hv ∧ fieldValues mp 0 59 60 = some mv ∧
          (H : Int) ∈ hv ∧ (M : Int) ∈ mv) ∧
      (∀ (expr f0 f1 f2 f3 : Str) (C : CronExprCompiled),
        Fields expr = [f0, f1, f2, f3, hf, mf] → CompileCronExpr expr = .ok C →
        C.hourMinOK = g) := by
  obtain ⟨g, hg⟩ := fillPairs_ok _ _ emptyCompiled.hourMinOK hvalid
  have hfm : fillHourMinute emptyCompiled.hourMinOK hf mf = .ok g := by
    unfold fillHourMinute
    simp only [gt_iff_lt, hk, if_true, hlen, ne_eq, not_true_eq_false, if_false]
    exact hg
  refine ⟨g, hfm, ?_, ?_⟩
  · intro H M
    rw [fillPairs_spec _ _ _ _ hlen.symm hg H M]
    simp [emptyCompiled]
  · intro expr f0 f1 f2 f3 C hF hC
    have h5 := (compile_fields expr f0 f1 f2 f3 hf mf C hF hC).2.2.2.2
    rw [hfm] at h5
    injection h5 with h5
    exact h5.symm

theorem sample_splits :
    Split sampleHour '|' = [['0', '-', '9'], ['1', '0', '-', '2', '3']] ∧
    Split sampleMinute '|' = [['3', '0'], ['0']] := by decide

theorem sample_values :
    fieldValues ['0', '-', '9'] 0 23 24 = some [0, 1, 2, 3, 4, 5, 6, 7, 8, 9] ∧
    fieldValues ['1', '0', '-', '2', '3'] 0 23 24 =
      some [10, 11, 12, 13, 14, 15, 16, 17, 18, 19, 20, 21, 22, 23] ∧
    fieldValues ['3', '0'] 0 59 60 = some [30] ∧
    fieldValues ['0'] 0 59 60 = some [0] := by decide

/-- C2 at hour `0-9|10-23` and minute `30|0`: the table accepts exactly `H:30` for
`0 ≤ H ≤ 9` and `H:00` for `10 ≤ H ≤ 23`. -/
theorem fillHourMinute_zipped_witness :
    ∃ g, fillHourMinute emptyCompiled.hourMinOK sampleHour sampleMinute = .ok g ∧
      sampleCompiled.hourMinOK = g ∧
      ∀ H M : Nat, g H M = true ↔ (H ≤ 9 ∧ M = 30) ∨ (10 ≤ H ∧ H ≤ 23 ∧ M = 0) := by
  obtain ⟨s1, s2⟩ := sample_splits
  obtain ⟨v1, v2, v3, v4⟩ := sample_values
  obtain ⟨g, hg, hspec, hC⟩ := fillHourMinute_zipped sampleHour sampleMinute
    (by rw [s1]; decide) (by rw [s1, s2]; rfl)
    (by
      rw [s1, s2]
      intro k hp mp h1 h2
      match k, h1, h2 with
      | 0, h1, h2 =>
        simp only [List.getElem?_cons_zero, Option.some.injEq] at h1 h2
        subst h1; subst h2
        exact ⟨_, _, v1, v3, by decide, by decide⟩
      | 1, h1, h2 =>
        simp only [List.getElem?_cons_succ, List.getElem?_cons_zero, Option.some.injEq] at h1 h2
        subst h1; subst h2
        exact ⟨_, _, v2, v4, by decide, by decide⟩
      | k + 2, h1, h2 => simp at h1)
  refine ⟨g, hg, hC sampleExpr ['2', '0', '0', '0'] ['*'] ['*'] ['7'] sampleCompiled
    (by decide) rfl, ?_⟩
  intro H M
  rw [hspec, s1, s2]
  constructor
  · rintro ⟨k, hp, mp, hv, mv, h1, h2, h3, h4, h5, h6⟩
    match k, h1, h2 with
    | 0, h1, h2 =>
      simp only [List.getElem?_cons_zero, Option.some.injEq] at h1 h2
      subst h1; subst h2
      rw [v1] at h3; rw [v3] at h4
      injection h3 with h3; injection h4 with h4
      subst h3; subst h4
      simp only [List.mem_cons, List.mem_singleton, List.not_mem_nil, or_false] at h5 h6
      omega
    | 1, h1, h2 =>
      simp only [List.getElem?_cons_succ, List.getElem?_cons_zero, Option.some.injEq] at h1 h2
      subst h1; subst h2
      rw [v2] at h3; rw [v4] at h4
      injection h3 with h3; injection h4 with h4
      subst h3; subst h4
      simp only [List.mem_cons, List.mem_singleton, List.not_mem_nil, or_false] at h5 h6
      omega
    | k + 2, h1, h2 => simp at h1
  · rintro (⟨h1, h2⟩ | ⟨h1, h2, h3⟩)
    · refine ⟨0, _, _, _, _, rfl, rfl, v1, v3, ?_, ?_⟩
      · simp only [List.mem_cons, List.mem_singleton, List.not_mem_nil, or_false]
        omega
      · simp only [List.mem_cons, List.mem_singleton, List.not_mem_nil, or_false]
        omega
    · refine ⟨1, _, _, _, _, rfl, rfl, v2, v4, ?_, ?_⟩
      · simp only [List.mem_cons, List.mem_singleton, List.not_mem_nil, or_false]
        omega
      · simp only [List.mem_cons, List.mem_singleton, List.not_mem_nil, or_false]
        omega

/-! ## Rejected expressions -/

/-- Whatever table it is given, `fillHourMinute` returns an error when the hour and
minute fields do not have the same number of sub-expressions. -/
theorem fillHourMinute_count_mismatch (target : Nat → Nat → Bool) (hf mf : Str)
    (h : (Split mf '|').length ≠ (Split hf '|').length) :
    fillHourMinute target hf mf = .error .partsMismatch ∨
    fillHourMinute target hf mf = .error .minuteMultipleParts := by
  have hpos : ∀ s : Str, 1 ≤ (Split s '|').length := by
    intro s
    unfold Split
    generalize ([] : Str) = cur
    induction s generalizing cur with
    | nil => simp [splitAux]
    | cons c cs ih =>
      simp only [splitAux]
      split
      · simp
      · exact ih _
  unfold fillHourMinute
  simp only
  by_cases hk : (Split hf '|').length > 1
  · rw [if_pos hk, if_pos h]
    exact Or.inl rfl
  · rw [if_neg hk]
    have h1 := hpos hf
    have h2 := hpos mf
    rw [if_pos (by omega)]
    exact Or.inr rfl

theorem setIndices_ok_or_panic (len : Nat) : ∀ (vs : List Int) (t : Nat → Bool),
    (∃ g, setIndices len vs t = .ok g) ∨ setIndices len vs t = .panic := by
  intro vs
  induction vs with
  | nil => intro t; exact Or.inl ⟨t, rfl⟩
  | cons v vs ih =>
    intro t
    simp only [setIndices, setIndex]
    split
    · simp only [Result.bind]
      exact ih _
    · exact Or.inr rfl

/-- With the bounds of a cron field, `fillBoolField` returns a table or an error, or
panics; its loops always stop. -/
theorem fillBoolField_outcome (field : Str) (min max : Int) (len : Nat) (t : Nat → Bool)
    (hmin : 0 ≤ min) (hle : min ≤ max) (hmax : max ≤ 2305843009213693952) :
    (∃ g, fillBoolField field min max len t = .ok g) ∨
    (∃ e, fillBoolField field min max len t = .error e) ∨
    fillBoolField field min max len t = .panic := by
  unfold fillBoolField
  rcases parseField_returns field min max hmin hmax with ⟨r, hr⟩ | ⟨e, he⟩
  · simp only [hr, Result.bind]
    split
    · obtain ⟨l, hl⟩ := forLoop_total max 1 min (by decide) (by decide) hmin hle hmax
      rw [hl]
      rcases setIndices_ok_or_panic len l t with h | h
      · exact Or.inl h
      · exact Or.inr (Or.inr h)
    · rcases setIndices_ok_or_panic len r.1 t with h | h
      · exact Or.inl h
      · exact Or.inr (Or.inr h)
  · simp only [he, Result.bind]
    exact Or.inr (Or.inl ⟨e, rfl⟩)

theorem fillYears_outcome (field : Str) :
    (∃ ys, fillYears field = .ok ys) ∨ ∃ e, fillYears field = .error e := by
  unfold fillYears
  rcases parseField_returns field mathMinYear mathMaxYear (by decide) (by decide) with
    ⟨r, hr⟩ | ⟨e, he⟩
  · simp only [hr, Result.wrapErr, Result.bind]
    split
    · exact Or.inl ⟨_, rfl⟩
    · exact Or.inl ⟨_, rfl⟩
  · simp only [he, Result.wrapErr, Result.bind]
    exact Or.inr ⟨_, rfl⟩

/-- An expression whose hour and minute fields have different numbers of
sub-expressions never compiles: `CompileCronExpr` returns an error, unless an
earlier field makes it panic. -/
theorem count_mismatch_outcome (expr f0 f1 f2 f3 hf mf : Str)
    (hF : Fields expr = [f0, f1, f2, f3, hf, mf])
    (h : (Split mf '|').length ≠ (Split hf '|').length) :
    (∃ e, CompileCronExpr expr = .error e) ∨ CompileCronExpr expr = .panic := by
  unfold CompileCronExpr
  rw [hF]
  simp only
  rcases fillYears_outcome f0 with ⟨ys, h0⟩ | ⟨e, h0⟩
  · rcases fillBoolField_outcome f1 1 12 monthsLen emptyCompiled.months (by decide) (by decide)
      (by decide) with ⟨g1, h1⟩ | ⟨e, h1⟩ | h1
    · rcases fillBoolField_outcome f2 1 31 daysLen emptyCompiled.days (by decide) (by decide)
        (by decide) with ⟨g2, h2⟩ | ⟨e, h2⟩ | h2
      · rcases fillBoolField_outcome f3 1 7 weeksLen emptyCompiled.weeks (by decide) (by decide)
          (by decide) with ⟨g3, h3⟩ | ⟨e, h3⟩ | h3
        · rcases fillHourMinute_count_mismatch emptyCompiled.hourMinOK hf mf h with h4 | h4
          · simp only [h0, h1, h2, h3, h4, Result.bind, Result.wrapErr]
            exact Or.inl ⟨_, rfl⟩
          · simp only [h0, h1, h2, h3, h4, Result.bind, Result.wrapErr]
            exact Or.inl ⟨_, rfl⟩
        · simp only [h0, h1, h2, h3, Result.bind, Result.wrapErr]
          exact Or.inl ⟨_, rfl⟩
        · simp only [h0, h1, h2, h3, Result.bind, Result.wrapErr]
          exact Or.inr trivial
      · simp only [h0, h1, h2, Result.bind, Result.wrapErr]
        exact Or.inl ⟨_, rfl⟩
      · simp only [h0, h1, h2, Result.bind, Result.wrapErr]
        exact Or.inr trivial
    · simp only [h0, h1, Result.bind, Result.wrapErr]
      exact Or.inl ⟨_, rfl⟩
    · simp only [h0, h1, Result.bind, Result.wrapErr]
      exact Or.inr trivial
  · simp only [h0, Result.bind]
    exact Or.inl ⟨_, rfl⟩

/-- C3, at the expression `* 1/9223372036854775807 * * 1|2 5`: the hour field has two
sub-expressions and the minute field one, and the hour/minute stage on its own
returns the count-mismatch error, but `CompileCronExpr` does not return an error:
it panics in the month field, whose step loop overflows to negative indices. -/
theorem count_mismatch_panics :
    (Split ['1', '|', '2'] '|').length = 2 ∧ (Split ['5'] '|').length = 1 ∧
    fillHourMinute emptyCompiled.hourMinOK ['1', '|', '2'] ['5'] = .error .partsMismatch ∧
    CompileCronExpr "* 1/9223372036854775807 * * 1|2 5".toList = .panic :=
  ⟨by decide, by decide, rfl, rfl⟩

/-! ## Step tokens -/

/-- C4, at the minute token `1/9223372036854775807` (start 1 within `0..59`, step the
largest `int`): `parseField` succeeds but returns `1`, the smallest `int` and `-1`
instead of the progression `{1}`; the increment `v += step` wraps around. The
expression with that minute field makes `CompileCronExpr` panic. The token `0/15`
yields `0, 15, 30, 45`, as does every step for which `max + s` does not overflow
(`step_token_progression`). -/
theorem step_overflow_values :
    parseField "1/9223372036854775807".toList 0 59 =
      .ok ([1, -9223372036854775808, -1], false) ∧
    CompileCronExpr "* * * * * 1/9223372036854775807".toList = .panic ∧
    parseField "0/15".toList 0 59 = .ok ([0, 15, 30, 45], false) :=
  ⟨by decide, rfl, by decide⟩

/-- C5, at the expression `* 1/9223372036854775807 * 0 * *`: the day-of-week field
holds the value `0`, outside `1..7`, and `parseField` rejects that field, but
`CompileCronExpr` does not return an error: it panics in the month field before
the day-of-week field is read. When no earlier field panics the expressions of
the claim are rejected: day-of-week `0`, hour `30`, step `0/0` and range `5-3`
each make `CompileCronExpr` return an error. -/
theorem out_of_range_panics :
    parseField ['0'] 1 7 = .error (.valueOutOfRange 0) ∧
    parseField "1/9223372036854775807".toList 1 12 =
      .ok ([1, -9223372036854775808, -1], false) ∧
    CompileCronExpr "* 1/9223372036854775807 * 0 * *".toList = .panic ∧
    CompileCronExpr "* * * 0 * *".toList = .error (.inField .week (.valueOutOfRange 0)) ∧
    CompileCronExpr "* * * * 30 *".toList = .error (.inField .hour (.valueOutOfRange 30)) ∧
    CompileCronExpr "* * * * * 0/0".toList = .error (.inField .minute .stepNotPositive) ∧
    CompileCronExpr "* * * * 5-3 *".toList = .error (.inField .hour (.invalidRange 5 3)) :=
  ⟨by decide, by decide, rfl, rfl, rfl, rfl, rfl⟩

/-! ## Single-token fields -/

/-- The year expressions split into the year token and five wildcards, and the
year token fills the year set with that year alone. -/
theorem yearExpr_stages (y : Nat) (h1 : 1970 ≤ y) (h2 : y ≤ 2099) :
    Fields (yearExpr y) = [decimal y, ['*'], ['*'], ['*'], ['*'], ['*']] ∧
    fillYears (decimal y) = .ok [(y : Int)] := by
  interval_cases y <;> exact ⟨by decide, by decide⟩

/-- C6. For every year `y` in `[1970, 2099]`, the expression whose year field is the
token `y` and whose other five fields are `*` compiles, and it matches an instant
`t` exactly when the year of `t` is `y`, whatever that year is. -/
theorem year_token_matches (y : Nat) (h1 : 1970 ≤ y) (h2 : y ≤ 2099) :
    ∃ C, CompileCronExpr (yearExpr y) = .ok C ∧ ∀ t : Time, C.Match t = true ↔ t.year = y := by
  obtain ⟨hF, hY⟩ := yearExpr_stages y h1 h2
  obtain ⟨⟨gm, hm, sm⟩, ⟨gd, hd, sd⟩, ⟨gw, hw, sw⟩⟩ := star_tables
  obtain ⟨ghm, hhm, shm⟩ := star_hourMinute
  refine ⟨_, compile_of_stages _ _ _ _ _ _ _ _ _ _ _ _ hF hY hm hd hw hhm, ?_⟩
  intro t
  rw [Match_true_iff]
  simp only [sm, sd, sw, shm]
  have r1 := t.month_range
  have r2 := t.day_range
  have r3 := remapWeekday_range t
  have r4 := t.hour_range
  have r5 := t.minute_range
  constructor
  · rintro ⟨hy, -⟩
    rcases hy with hy | hy
    · simp at hy
    · simpa using hy
  · intro hy
    refine ⟨Or.inr (by simp [hy]), r1, r2, r3, by omega, by omega⟩

/-- C6 at the year token `2000`: the expression `2000 * * * * *` compiles and
matches exactly the instants of year 2000. -/
theorem year_token_matches_witness :
    (1970 ≤ 2000 ∧ 2000 ≤ 2099) ∧ yearExpr 2000 = "2000 * * * * *".toList ∧
    ∃ C, CompileCronExpr (yearExpr 2000) = .ok C ∧
      ∀ t : Time, C.Match t = true ↔ t.year = (2000 : Nat) :=
  ⟨by decide, by decide, year_token_matches 2000 (by decide) (by decide)⟩

/-- The day-of-week expressions split into three wildcards, the token and two
wildcards, and the token parses to that value alone. -/
theorem weekExpr_stages (d : Nat) (h1 : 1 ≤ d) (h2 : d ≤ 7) :
    Fields (weekExpr d) = [['*'], ['*'], ['*'], decimal d, ['*'], ['*']] ∧
    parseField (decimal d) 1 7 = .ok ([(d : Int)], false) := by
  interval_cases d <;> exact ⟨by decide, by decide⟩

/-- C7. For the expression whose day-of-week field is the token `d` in `1..7` and
whose other fields are `*`, an instant matches exactly when its weekday, numbered
Monday = 1 … Sunday = 7, is `d`: for `d = 7` exactly the instants whose wall-clock
weekday is 0 (Sunday), otherwise exactly those whose wall-clock weekday is `d`; in
particular token `7` matches exactly Sundays and token `1` exactly Mondays. -/
theorem week_token_matches (d : Nat) (h1 : 1 ≤ d) (h2 : d ≤ 7) :
    ∃ C, CompileCronExpr (weekExpr d) = .ok C ∧
      (∀ t : Time, C.Match t = true ↔ remapWeekday t.weekday = d) ∧
      (∀ t : Time, C.Match t = true ↔ if d = 7 then t.weekday = 0 else t.weekday = d) ∧
      (d = 7 → ∀ t : Time, C.Match t = true ↔ t.weekday = 0) ∧
      (d = 1 → ∀ t : Time, C.Match t = true ↔ t.weekday = 1) := by
  obtain ⟨hF, hP⟩ := weekExpr_stages d h1 h2
  obtain ⟨⟨gm, hm, sm⟩, ⟨gd, hd, sd⟩, -⟩ := star_tables
  obtain ⟨ghm, hhm, shm⟩ := star_hourMinute
  have hrange : ∀ v ∈ [(d : Int)], 0 ≤ v ∧ v < weeksLen := by
    intro v hv
    rw [List.mem_singleton] at hv
    subst hv
    unfold weeksLen
    omega
  obtain ⟨gw, hw⟩ := fillBoolField_ok (decimal d) 1 7 weeksLen emptyCompiled.weeks
    ([(d : Int)], false) [(d : Int)] hP (by simp) hrange
  have sw : ∀ i, gw i = true ↔ i = d := by
    obtain ⟨r, idx, e1, e2, -, e4⟩ := fillBoolField_spec _ _ _ _ _ _ hw
    rw [hP] at e1
    injection e1 with e1
    subst e1
    simp only [Bool.false_eq_true, if_false] at e2
    subst e2
    intro i
    rw [e4]
    simp [emptyCompiled]
  have hY : fillYears ['*'] = .ok [] := rfl
  have key : ∀ t : Time,
      ({ years := [], months := gm, days := gd, weeks := gw, hourMinOK := ghm } :
        CronExprCompiled).Match t = true ↔ remapWeekday t.weekday = d := by
    intro t
    rw [Match_true_iff]
    simp only [sm, sd, sw, shm]
    have r1 := t.month_range
    have r2 := t.day_range
    have r4 := t.hour_range
    have r5 := t.minute_range
    constructor
    · rintro ⟨-, -, -, h, -⟩
      exact h
    · intro h
      exact ⟨Or.inl rfl, r1, r2, h, by omega, by omega⟩
  have key2 : ∀ t : Time,
      remapWeekday t.weekday = d ↔ if d = 7 then t.weekday = 0 else t.weekday = d := by
    intro t
    have r3 := t.weekday_range
    unfold remapWeekday
    split <;> split <;> omega
  refine ⟨_, compile_of_stages _ _ _ _ _ _ _ _ _ _ _ _ hF hY hm hd hw hhm, key, ?_, ?_, ?_⟩
  · intro t
    rw [key, key2]
  · intro h7 t
    rw [key, key2, if_pos h7]
  · intro h1 t
    rw [key, key2, if_neg (by omega), h1]

/-- C7 at the token `7`: the expression `* * * 7 * *` compiles and matches exactly
the instants whose wall-clock weekday is 0, Sunday. -/
theorem week_token_matches_witness :
    (1 ≤ 7 ∧ 7 ≤ 7) ∧ weekExpr 7 = "* * * 7 * *".toList ∧
    ∃ C, CompileCronExpr (weekExpr 7) = .ok C ∧
      ∀ t : Time, C.Match t = true ↔ t.weekday = 0 := by
  obtain ⟨C, hC, -, -, h7, -⟩ := week_token_matches 7 (by decide) (by decide)
  exact ⟨by decide, by decide, C, hC, h7 rfl⟩

/-! ## Wildcard tokens -/

/-- C8 fails at the field `1,*`: `parseField` returns the error of `strconv.Atoi` on
the token `*`; it does not succeed, and the field does not become "any". -/
theorem star_in_list_rejected :
    parseField "1,*".toList 0 59 = .error (.numError ['*']) ∧
    ¬ ∃ vs, parseField "1,*".toList 0 59 = .ok (vs, true) := by
  have h : parseField "1,*".toList 0 59 = .error (.numError ['*']) := by decide
  refine ⟨h, ?_⟩
  rintro ⟨vs, hvs⟩
  rw [h] at hvs
  cases hvs

/-- C8, amended. For every field that is a comma-separated list of two or more
tokens in which at least one token is `*`, `parseField` returns an error; and for
every field, `parseField` reports "any" exactly when the whole field, trimmed, is
`*` or empty. -/
theorem star_token_in_list (f : FieldName) (ts : List Str) (hlen : 2 ≤ ts.length)
    (hstar : ['*'] ∈ ts) (hclean : ∀ t ∈ ts, ∀ c ∈ t, c ≠ ',' ∧ isSpace c = false) :
    (∃ e, parseField (joinTokens ts) f.min f.max = .error e) ∧
    (∀ (field : Str) (min max : Int) (vs : List Int),
      parseField field min max = .ok (vs, true) ↔
        vs = [] ∧ (TrimSpace field = ['*'] ∨ TrimSpace field = [])) := by
  constructor
  · have htrim : TrimSpace (joinTokens ts) = joinTokens ts :=
      TrimSpace_noSpace _ (joinTokens_noSpace ts hclean)
    have hcomma := comma_mem_joinTokens ts hlen
    apply parseField_error_of_token _ _ _ f.bounds.1 f.bounds.2
    · rw [htrim]
      rintro (h | h)
      · rw [h] at hcomma
        simp at hcomma
      · rw [h] at hcomma
        cases hcomma
    · rw [htrim]
      exact ⟨['*'], mem_splitTokens_joinTokens ts ['*'] hclean hstar (by simp), _,
        parseToken_star f.min f.max⟩
  · intro field min max vs
    unfold parseField
    simp only
    split
    · rename_i h
      constructor
      · intro h1
        injection h1 with h1
        injection h1 with h1 _
        exact ⟨h1.symm, h⟩
      · rintro ⟨rfl, -⟩
        rfl
    · rename_i h
      constructor
      · intro h1
        exfalso
        cases hp : parseTokens min max (splitTokens (TrimSpace field)) [] with
        | ok r =>
          rw [hp] at h1
          simp only [Result.bind] at h1
          split at h1
          · cases h1
          · injection h1 with h1
            injection h1 with _ h1
            cases h1
        | error e => rw [hp] at h1; cases h1
        | panic => rw [hp] at h1; cases h1
        | diverge => rw [hp] at h1; cases h1
      · rintro ⟨-, h1⟩
        exact absurd h1 h

/-- C8, amended, at the minute field `1,*`: it is the list of the tokens `1` and
`*`, and `parseField` returns an error for it. -/
theorem star_token_in_list_witness :
    joinTokens [['1'], ['*']] = "1,*".toList ∧
    ∃ e, parseField (joinTokens [['1'], ['*']]) FieldName.minute.min FieldName.minute.max =
      .error e :=
  ⟨by decide, (star_token_in_list .minute [['1'], ['*']] (by decide) (by decide)
    (by decide)).1⟩

/-! ## The lock table -/

theorem TryLock_snd (l : taskLock) (id : Int) : (l.TryLock id).2 = true ↔ id ∉ l.locks := by
  unfold taskLock.TryLock taskLock.LoadOrStore
  by_cases h : id ∈ l.locks <;> simp [h]

theorem mem_TryLock (l : taskLock) (id j : Int) :
    j ∈ (l.TryLock id).1.locks ↔ j = id ∨ j ∈ l.locks := by
  unfold taskLock.TryLock taskLock.LoadOrStore
  by_cases h : id ∈ l.locks
  · simp only [h, if_true]
    constructor
    · intro hj; exact Or.inr hj
    · rintro (rfl | hj)
      · exact h
      · exact hj
  · simp [h]

theorem mem_Unlock (l : taskLock) (id j : Int) :
    j ∈ (l.Unlock id).locks ↔ j ∈ l.locks ∧ j ≠ id := by
  unfold taskLock.Unlock
  simp

/-- C9. In the sequential model of the lock table as a set of ids: `TryLock id`
returns true exactly when `id` was not in the set; afterwards the set contains `id`
in either case; `Unlock id` leaves the set without `id`; neither operation changes
the membership of another id. A second `TryLock id` with no `Unlock` in between
returns false, and a `TryLock id` that follows an `Unlock id` returns true; on a
fresh table, `TryLock; TryLock` returns true then false and `TryLock; Unlock;
TryLock` returns true twice. -/
theorem taskLock_spec (l : taskLock) (id : Int) :
    ((l.TryLock id).2 = true ↔ id ∉ l.locks) ∧
    id ∈ (l.TryLock id).1.locks ∧
    id ∉ (l.Unlock id).locks ∧
    (∀ j, j ≠ id → (j ∈ (l.TryLock id).1.locks ↔ j ∈ l.locks)) ∧
    (∀ j, j ≠ id → (j ∈ (l.Unlock id).locks ↔ j ∈ l.locks)) ∧
    ((l.TryLock id).1.TryLock id).2 = false ∧
    (((l.TryLock id).1.Unlock id).TryLock id).2 = true ∧
    ((newTaskLock.TryLock id).2 = true ∧
      ((newTaskLock.TryLock id).1.TryLock id).2 = false) ∧
    ((newTaskLock.TryLock id).2 = true ∧
      (((newTaskLock.TryLock id).1.Unlock id).TryLock id).2 = true) := by
  have second : ∀ l2 : taskLock, ((l2.TryLock id).1.TryLock id).2 = false := by
    intro l2
    have h := TryLock_snd (l2.TryLock id).1 id
    have hm : id ∈ (l2.TryLock id).1.locks := (mem_TryLock l2 id id).2 (Or.inl rfl)
    cases hb : ((l2.TryLock id).1.TryLock id).2
    · rfl
    · exact absurd hm (h.1 hb)
  have after : ∀ l2 : taskLock, ((l2.Unlock id).TryLock id).2 = true := by
    intro l2
    apply (TryLock_snd _ _).2
    intro hm
    exact ((mem_Unlock l2 id id).1 hm).2 rfl
  have fresh : (newTaskLock.TryLock id).2 = true := by
    apply (TryLock_snd _ _).2
    simp [newTaskLock]
  refine ⟨TryLock_snd l id, (mem_TryLock l id id).2 (Or.inl rfl), ?_, ?_, ?_, second l,
    after _, ⟨fresh, second _⟩, ⟨fresh, after _⟩⟩
  · intro hm
    exact ((mem_Unlock l id id).1 hm).2 rfl
  · intro j hj
    rw [mem_TryLock]
    constructor
    · rintro (h | h)
      · exact absurd h hj
      · exact h
    · intro h; exact Or.inr h
  · intro j hj
    rw [mem_Unlock]
    constructor
    · intro h; exact h.1
    · intro h; exact ⟨h, hj⟩

/-! ## Single flight -/

theorem SingleFlight_init : SingleFlight SchedState.init := by
  unfold SingleFlight SchedState.init
  simp

theorem SingleFlight_dispatchTask (ok : Bool) (now : Time) (s : SchedState) (ct : compiledTask)
    (h : SingleFlight s) : SingleFlight (dispatchTask ok now s ct) := by
  obtain ⟨hnd, hsub⟩ := h
  unfold dispatchTask
  split
  · exact ⟨hnd, hsub⟩
  · split
    · exact ⟨hnd, hsub⟩
    · split
      · exact ⟨hnd, hsub⟩
      · simp only
        split
        · refine ⟨hnd, ?_⟩
          intro j hj
          exact (mem_TryLock _ _ _).2 (Or.inr (hsub j hj))
        · rename_i hlock
          have hfree : ct.Task.ID ∉ s.lock.locks := by
            apply (TryLock_snd _ _).1
            simpa using hlock
          have hnot : ct.Task.ID ∉ s.inflight := fun hin => hfree (hsub _ hin)
          split
          · refine ⟨hnd, ?_⟩
            intro j hj
            apply (mem_Unlock _ _ _).2
            refine ⟨(mem_TryLock _ _ _).2 (Or.inr (hsub j hj)), ?_⟩
            rintro rfl
            exact hnot hj
          · refine ⟨List.nodup_cons.2 ⟨hnot, hnd⟩, ?_⟩
            intro j hj
            apply (mem_TryLock _ _ _).2
            rcases List.mem_cons.1 hj with rfl | hj
            · exact Or.inl rfl
            · exact Or.inr (hsub j hj)

theorem SingleFlight_finishTask (s : SchedState) (id : Int) (h : SingleFlight s) :
    SingleFlight (finishTask s id) := by
  obtain ⟨hnd, hsub⟩ := h
  unfold finishTask
  refine ⟨hnd.erase id, ?_⟩
  intro j hj
  have hj2 := (hnd.mem_erase_iff).1 hj
  exact (mem_Unlock _ _ _).2 ⟨hsub j hj2.2, hj2.1⟩

theorem SingleFlight_dispatch (now : Time) : ∀ (snapshot : List (compiledTask × Bool))
    (s : SchedState), SingleFlight s → SingleFlight (dispatch now s snapshot) := by
  intro snapshot
  induction snapshot with
  | nil => intro s h; exact h
  | cons e rest ih =>
    intro s h
    obtain ⟨ct, ok⟩ := e
    exact ih _ (SingleFlight_dispatchTask ok now s ct h)

theorem Reachable_dispatch (now : Time) : ∀ (snapshot : List (compiledTask × Bool))
    (s : SchedState), Reachable s → Reachable (dispatch now s snapshot) := by
  intro snapshot
  induction snapshot with
  | nil => intro s h; exact h
  | cons e rest ih =>
    intro s h
    obtain ⟨ct, ok⟩ := e
    exact ih _ (Reachable.step h (Step.dispatch ok now s ct))

/-- C10. Every state reachable by dispatch steps (one snapshot entry handled:
skipped, refused by `TryLock`, unlocked after a failed `MarkRunning`, or launched)
and by termination steps (an execution ends and unlocks its id) has at most one
execution in flight per task id, and every id in flight is in the lock table; this
holds after dispatching any snapshot from such a state, repeated ids included. -/
theorem single_flight (s : SchedState) (h : Reachable s) :
    (∀ id, s.inflight.count id ≤ 1) ∧ (∀ id ∈ s.inflight, id ∈ s.lock.locks) ∧
    ∀ (now : Time) (snapshot : List (compiledTask × Bool)),
      Reachable (dispatch now s snapshot) ∧
      (∀ id, (dispatch now s snapshot).inflight.count id ≤ 1) ∧
      (∀ id ∈ (dispatch now s snapshot).inflight, id ∈ (dispatch now s snapshot).lock.locks) := by
  have inv : SingleFlight s := by
    induction h with
    | init => exact SingleFlight_init
    | step _ st ih =>
      cases st with
      | dispatch ok now s ct => exact SingleFlight_dispatchTask ok now _ ct ih
      | finish s id hin => exact SingleFlight_finishTask _ id ih
  refine ⟨List.nodup_iff_count_le_one.1 inv.1, inv.2, ?_⟩
  intro now snapshot
  have inv2 := SingleFlight_dispatch now snapshot s inv
  exact ⟨Reachable_dispatch now snapshot s h, List.nodup_iff_count_le_one.1 inv2.1, inv2.2⟩

/-- C10 at the state reached by dispatching a snapshot that lists the same task
twice: one execution of task 5 is in flight, its id is locked, and the invariant
holds. -/
theorem single_flight_witness :
    Reachable sampleState ∧ sampleState.inflight = [5] ∧ sampleState.lock.locks = [5] ∧
    (∀ id, sampleState.inflight.count id ≤ 1) ∧
    (∀ id ∈ sampleState.inflight, id ∈ sampleState.lock.locks) :=
  have hr : Reachable sampleState := Reachable_dispatch sampleTime _ _ Reachable.init
  ⟨hr, by decide, by decide, (single_flight sampleState hr).1, (single_flight sampleState hr).2.1⟩

/-! ## The dispatch loop -/

theorem dispatchStep_fst (ok : Bool) (now : Time) (s : SchedState) (ct : compiledTask) :
    (dispatchStep ok now s ct).1 = dispatchTask ok now s ct := by
  unfold dispatchStep dispatchTask
  split
  · rfl
  · split
    · rfl
    · split
      · rfl
      · simp only
        split
        · rfl
        · split <;> rfl

theorem dispatchTrace_fst (now : Time) : ∀ (snapshot : List (compiledTask × Bool))
    (s : SchedState), (dispatchTrace now s snapshot).1 = dispatch now s snapshot := by
  intro snapshot
  induction snapshot with
  | nil => intro s; rfl
  | cons e rest ih =>
    intro s
    obtain ⟨ct, ok⟩ := e
    simp only [dispatchTrace, dispatch, ih, dispatchStep_fst]

/-- The calls of one iteration of the dispatch loop: none unless the four checks
pass, then `MarkRunning`, followed by the spawn when `MarkRunning` succeeded. -/
theorem dispatchStep_events (ok : Bool) (now : Time) (s : SchedState) (ct : compiledTask) :
    ((ct.Task.IsEnable = 0 ∧ ct.Task.Status ≠ 1 ∧
        (∃ e, ct.Expr = some e ∧ e.Match now = true) ∧
        (s.lock.TryLock ct.Task.ID).2 = true) ∧
      (dispatchStep ok now s ct).2 =
        DispatchEvent.markRunning ct.Task.ID now ::
          (if ok = true then [DispatchEvent.spawn ct.Task] else [])) ∨
    (¬ (ct.Task.IsEnable = 0 ∧ ct.Task.Status ≠ 1 ∧
        (∃ e, ct.Expr = some e ∧ e.Match now = true) ∧
        (s.lock.TryLock ct.Task.ID).2 = true) ∧
      (dispatchStep ok now s ct).2 = []) := by
  unfold dispatchStep
  by_cases h1 : ct.Task.IsEnable ≠ 0
  · rw [if_pos h1]
    exact Or.inr ⟨fun h => h1 h.1, rfl⟩
  · rw [if_neg h1]
    by_cases h2 : ct.Task.Status = 1
    · rw [if_pos h2]
      exact Or.inr ⟨fun h => h.2.1 h2, rfl⟩
    · rw [if_neg h2]
      cases he : ct.Expr with
      | none =>
        simp only [if_true]
        refine Or.inr ⟨?_, trivial⟩
        rintro ⟨-, -, ⟨e, h, -⟩, -⟩
        cases h
      | some e =>
        simp only
        by_cases h3 : e.Match now = true
        · have hn3 : ¬ ((!e.Match now) = true) := by simp [h3]
          rw [if_neg hn3]
          by_cases h4 : (s.lock.TryLock ct.Task.ID).2 = true
          · have hn4 : ¬ ((!(s.lock.TryLock ct.Task.ID).2) = true) := by simp [h4]
            rw [if_neg hn4]
            refine Or.inl ⟨⟨by simpa using h1, h2, ⟨e, rfl, h3⟩, h4⟩, ?_⟩
            cases ok <;> simp
          · have hp4 : (!(s.lock.TryLock ct.Task.ID).2) = true := by simpa using h4
            rw [if_pos hp4]
            exact Or.inr ⟨fun h => h4 h.2.2.2, rfl⟩
        · have hp3 : (!e.Match now) = true := by simpa using h3
          rw [if_pos hp3]
          refine Or.inr ⟨?_, rfl⟩
          rintro ⟨-, -, ⟨e2, h, hm⟩, -⟩
          injection h with h
          subst h
          exact h3 hm

theorem dispatchTrace_events_sound (now : Time) : ∀ (snapshot : List (compiledTask × Bool))
    (s : SchedState),
    (∀ t : Task, DispatchEvent.spawn t ∈ (dispatchTrace now s snapshot).2 →
      ∃ entry ∈ snapshot, entry.1.Task = t ∧ entry.2 = true ∧ t.IsEnable = 0 ∧ t.Status ≠ 1 ∧
        ∃ e, entry.1.Expr = some e ∧ e.Match now = true) ∧
    (∀ (id : Int) (n : Time), DispatchEvent.markRunning id n ∈ (dispatchTrace now s snapshot).2 →
      n = now ∧ ∃ entry ∈ snapshot, entry.1.Task.ID = id ∧ entry.1.Task.IsEnable = 0 ∧
        entry.1.Task.Status ≠ 1 ∧ ∃ e, entry.1.Expr = some e ∧ e.Match now = true) := by
  intro snapshot
  induction snapshot with
  | nil =>
    intro s
    constructor
    · intro t h; simp [dispatchTrace] at h
    · intro id n h; simp [dispatchTrace] at h
  | cons entry rest ih =>
    intro s
    obtain ⟨ct, ok⟩ := entry
    obtain ⟨ih1, ih2⟩ := ih (dispatchStep ok now s ct).1
    simp only [dispatchTrace, List.mem_append]
    rcases dispatchStep_events ok now s ct with ⟨⟨c1, c2, c3, -⟩, hev⟩ | ⟨-, hev⟩
    · rw [hev]
      constructor
      · rintro t (h | h)
        · cases ok with
          | false => simp at h
          | true =>
            simp only [if_true, List.mem_cons, List.mem_singleton, List.not_mem_nil,
              or_false] at h
            rcases h with h | h
            · cases h
            · injection h with h
              subst h
              exact ⟨(ct, true), List.mem_cons_self _ _, rfl, rfl, c1, c2, c3⟩
        · obtain ⟨entry, hm, rest2⟩ := ih1 t h
          exact ⟨entry, List.mem_cons_of_mem _ hm, rest2⟩
      · rintro id n (h | h)
        · cases ok with
          | false =>
            simp only [Bool.false_eq_true, if_false, List.mem_singleton] at h
            injection h with h1 h2
            subst h1; subst h2
            exact ⟨rfl, (ct, false), List.mem_cons_self _ _, rfl, c1, c2, c3⟩
          | true =>
            simp only [if_true, List.mem_cons, List.mem_singleton, List.not_mem_nil,
              or_false] at h
            rcases h with h | h
            · injection h with h1 h2
              subst h1; subst h2
              exact ⟨rfl, (ct, true), List.mem_cons_self _ _, rfl, c1, c2, c3⟩
            · cases h
        · obtain ⟨hn, entry, hm, rest2⟩ := ih2 id n h
          exact ⟨hn, entry, List.mem_cons_of_mem _ hm, rest2⟩
    · rw [hev]
      constructor
      · rintro t (h | h)
        · cases h
        · obtain ⟨entry, hm, rest2⟩ := ih1 t h
          exact ⟨entry, List.mem_cons_of_mem _ hm, rest2⟩
      · rintro id n (h | h)
        · cases h
        · obtain ⟨hn, entry, hm, rest2⟩ := ih2 id n h
          exact ⟨hn, entry, List.mem_cons_of_mem _ hm, rest2⟩

/-- C11. For every snapshot entry and instant, the dispatch loop calls `MarkRunning`
for the entry exactly when the task has `IsEnable = 0`, `Status ≠ 1`, a cron
expression that matches `now`, and `TryLock` acquired its id; it spawns an
execution exactly when moreover `MarkRunning` succeeded; these are its only calls,
and the calls of a snapshot are those of its entries in snapshot order. Hence no
task with `IsEnable ≠ 0` or `Status = 1` is ever spawned or marked running, and a
task with `Status = -1` that passes the other checks is marked running and
spawned. -/
theorem dispatch_calls (ok : Bool) (now : Time) (s : SchedState) (ct : compiledTask)
    (rest : List (compiledTask × Bool)) :
    (DispatchEvent.markRunning ct.Task.ID now ∈ (dispatchStep ok now s ct).2 ↔
      (ct.Task.IsEnable = 0 ∧ ct.Task.Status ≠ 1 ∧
        (∃ e, ct.Expr = some e ∧ e.Match now = true) ∧
        (s.lock.TryLock ct.Task.ID).2 = true)) ∧
    (DispatchEvent.spawn ct.Task ∈ (dispatchStep ok now s ct).2 ↔
      ((ct.Task.IsEnable = 0 ∧ ct.Task.Status ≠ 1 ∧
        (∃ e, ct.Expr = some e ∧ e.Match now = true) ∧
        (s.lock.TryLock ct.Task.ID).2 = true) ∧ ok = true)) ∧
    ((dispatchStep ok now s ct).2 = [] ∨
      (dispatchStep ok now s ct).2 = [DispatchEvent.markRunning ct.Task.ID now] ∨
      (dispatchStep ok now s ct).2 =
        [DispatchEvent.markRunning ct.Task.ID now, DispatchEvent.spawn ct.Task]) ∧
    (dispatchTrace now s ((ct, ok) :: rest)).2 =
      (dispatchStep ok now s ct).2 ++ (dispatchTrace now (dispatchStep ok now s ct).1 rest).2 ∧
    (∀ (snapshot : List (compiledTask × Bool)) (s0 : SchedState) (t : Task),
      DispatchEvent.spawn t ∈ (dispatchTrace now s0 snapshot).2 →
        t.IsEnable = 0 ∧ t.Status ≠ 1) ∧
    (∀ (snapshot : List (compiledTask × Bool)) (s0 : SchedState) (id : Int) (n : Time),
      DispatchEvent.markRunning id n ∈ (dispatchTrace now s0 snapshot).2 →
        ∃ entry ∈ snapshot, entry.1.Task.ID = id ∧ entry.1.Task.IsEnable = 0 ∧
          entry.1.Task.Status ≠ 1) ∧
    (ct.Task.IsEnable = 0 → ct.Task.Status = -1 →
      (∃ e, ct.Expr = some e ∧ e.Match now = true) →
      (s.lock.TryLock ct.Task.ID).2 = true →
      (dispatchStep true now s ct).2 =
        [DispatchEvent.markRunning ct.Task.ID now, DispatchEvent.spawn ct.Task]) := by
  refine ⟨?_, ?_, ?_, rfl, ?_, ?_, ?_⟩
  · rcases dispatchStep_events ok now s ct with ⟨hc, hev⟩ | ⟨hc, hev⟩
    · rw [hev]
      simp [hc]
    · rw [hev]
      simp only [List.not_mem_nil, false_iff]
      exact hc
  · rcases dispatchStep_events ok now s ct with ⟨hc, hev⟩ | ⟨hc, hev⟩
    · rw [hev]
      cases ok <;> simp [hc]
    · rw [hev]
      simp only [List.not_mem_nil, false_iff]
      exact fun h => hc h.1
  · rcases dispatchStep_events ok now s ct with ⟨-, hev⟩ | ⟨-, hev⟩
    · rw [hev]
      cases ok <;> simp
    · exact Or.inl hev
  · intro snapshot s0 t h
    obtain ⟨entry, -, -, -, h1, h2, -⟩ := (dispatchTrace_events_sound now snapshot s0).1 t h
    exact ⟨h1, h2⟩
  · intro snapshot s0 id n h
    obtain ⟨-, entry, hm, h1, h2, h3, -⟩ := (dispatchTrace_events_sound now snapshot s0).2 id n h
    exact ⟨entry, hm, h1, h2, h3⟩
  · intro h1 h2 h3 h4
    rcases dispatchStep_events true now s ct with ⟨-, hev⟩ | ⟨hc, -⟩
    · rw [hev]
      rfl
    · exact absurd ⟨h1, by rw [h2]; decide, h3, h4⟩ hc

/-- C11 at a task with id 5, enabled, with `Status = -1` and an expression that
matches `sampleTime`, on a fresh lock table: `MarkRunning` is called and the task
is spawned. -/
theorem dispatch_calls_witness :
    retryTask.Task.Status = -1 ∧
    (dispatchStep true sampleTime SchedState.init retryTask).2 =
      [DispatchEvent.markRunning 5 sampleTime, DispatchEvent.spawn retryTask.Task] :=
  ⟨rfl, (dispatch_calls true sampleTime SchedState.init retryTask []).2.2.2.2.2.2 rfl rfl
    ⟨sampleCompiled, rfl, by decide⟩ (by decide)⟩

/-! ## `executeTask` -/

/-- C12. For every task and every outcome of `runner.Run`, `executeTask` calls
`MarkStatus` exactly once, with status `0` when `Run` returned no error and with
status `-1` when it returned an error (a cancellation error included); and the id
of the task is absent from the lock table on exit, whether or not `Run` or
`MarkStatus` failed. -/
theorem executeTask_marks_once (runErr : Option RunError) (markStatusOk : Bool)
    (l : taskLock) (task : Task) :
    (executeTask runErr markStatusOk l task).2.filter
        (fun e => match e with
          | .markStatus _ _ => true
          | _ => false) =
      [ExecEvent.markStatus task.ID (if runErr = none then 0 else -1)] ∧
    (runErr = none →
      ExecEvent.markStatus task.ID 0 ∈ (executeTask runErr markStatusOk l task).2) ∧
    (runErr ≠ none →
      ExecEvent.markStatus task.ID (-1) ∈ (executeTask runErr markStatusOk l task).2) ∧
    ExecEvent.markStatus task.ID (-1) ∈
      (executeTask (some RunError.cancelled) markStatusOk l task).2 ∧
    task.ID ∉ (executeTask runErr markStatusOk l task).1.locks ∧
    (∀ j, j ≠ task.ID →
      (j ∈ (executeTask runErr markStatusOk l task).1.locks ↔ j ∈ l.locks)) := by
  refine ⟨?_, ?_, ?_, ?_, ?_, ?_⟩
  · cases runErr <;> cases markStatusOk <;> simp [executeTask, List.filter]
  · rintro rfl
    cases markStatusOk <;> simp [executeTask]
  · intro h
    cases runErr with
    | none => exact absurd rfl h
    | some e => cases markStatusOk <;> simp [executeTask]
  · cases markStatusOk <;> simp [executeTask]
  · intro hm
    exact ((mem_Unlock l task.ID task.ID).1 hm).2 rfl
  · intro j hj
    show j ∈ (l.Unlock task.ID).locks ↔ j ∈ l.locks
    rw [mem_Unlock]
    exact ⟨fun h => h.1, fun h => ⟨h, hj⟩⟩

/-- C12 at `sampleTask` holding its lock, with `Run` cancelled and `MarkStatus`
failing: one `MarkStatus(5, -1)` call, and the lock table is empty on exit. -/
theorem executeTask_marks_once_witness :
    (executeTask (some RunError.cancelled) false { locks := [5] } sampleTask.Task).2 =
      [ExecEvent.run sampleTask.Task, ExecEvent.logError, ExecEvent.markStatus 5 (-1),
        ExecEvent.logError] ∧
    (executeTask (some RunError.cancelled) false { locks := [5] } sampleTask.Task).1.locks = [] ∧
    ExecEvent.markStatus sampleTask.Task.ID (-1) ∈
      (executeTask (some RunError.cancelled) false { locks := [5] } sampleTask.Task).2 :=
  ⟨rfl, by decide,
    (executeTask_marks_once (some RunError.cancelled) false { locks := [5] }
      sampleTask.Task).2.2.1 (by simp)⟩

/-! ## The task cache -/

theorem compileTasks_filter : ∀ (tasks : List Task) (compiled : List compiledTask),
    (∀ t ∈ tasks, (∃ e, CompileCronExpr t.RunExpr = .ok e) ∨
      ∃ err, CompileCronExpr t.RunExpr = .error err) →
    compileTasks tasks compiled = .ok (compiled ++ tasks.filterMap compiledEntry) := by
  intro tasks
  induction tasks with
  | nil => intro compiled _; simp [compileTasks]
  | cons t rest ih =>
    intro compiled h
    have hrest := fun c => ih c (fun x hx => h x (List.mem_cons_of_mem _ hx))
    rcases h t (List.mem_cons_self _ _) with ⟨e, he⟩ | ⟨err, he⟩
    · simp only [compileTasks, he, hrest, List.filterMap_cons, compiledEntry, List.append_assoc,
        List.singleton_append]
    · simp only [compileTasks, he, hrest, List.filterMap_cons, compiledEntry]

/-- When no expression of the loaded list makes `CompileCronExpr` panic, the
snapshot after `refresh` is the sub-list of the tasks that compile, in order, each
with its compiled expression. -/
theorem refresh_snapshot (tasks : List Task) (c : TaskCache)
    (h : ∀ t ∈ tasks, (∃ e, CompileCronExpr t.RunExpr = .ok e) ∨
      ∃ err, CompileCronExpr t.RunExpr = .error err) :
    ∃ c2, c.refresh (.ok tasks) = .ok c2 ∧ c2.Snapshot = tasks.filterMap compiledEntry := by
  refine ⟨{ tasks := tasks.filterMap compiledEntry }, ?_, rfl⟩
  unfold TaskCache.refresh
  simp only [compileTasks_filter tasks [] h, Result.bind, List.nil_append]

/-- C13, at the list of `sampleTask` followed by a task whose expression is
`* 1/9223372036854775807 * * * *`: that expression does not return an error, it
makes `CompileCronExpr` panic, so `refresh` panics and no snapshot is published;
the task is not dropped and the compiling task before it is lost with it. With
`sampleTask` alone the snapshot is that task with its compiled expression. -/
theorem refresh_panics :
    CompileCronExpr overflowTask.RunExpr = .panic ∧
    TaskCache.refresh (.ok [sampleTask.Task, overflowTask]) { tasks := [] } = .panic ∧
    TaskCache.refresh (.ok [sampleTask.Task]) { tasks := [] } = .ok { tasks := [sampleTask] } :=
  ⟨rfl, rfl, rfl⟩

/-- C14. If `LoadEnabledTasks` returns an error, `refresh` returns normally and
leaves the cache as it was: the snapshot after it equals the snapshot before. -/
theorem refresh_load_error (e : Str) (c : TaskCache) :
    c.refresh (.error e) = .ok c ∧
    ∀ c2, c.refresh (.error e) = .ok c2 → c2.Snapshot = c.Snapshot := by
  refine ⟨rfl, ?_⟩
  intro c2 h
  have h2 : Result.ok c = Result.ok c2 := h
  injection h2 with h2
  rw [h2]

/-! ## The paginated drain -/

theorem processRows_cons (rt : Runtime) (command : Str) (sleepDuration : Int)
    (oracle : Nat → RowOracle) (i : Nat) (row : Row) (rest : List Row) (minID : Int) :
    processRows rt command sleepDuration oracle i (row :: rest) minID =
      if sleepDuration > 0 ∧ (oracle i).cancelled = true then
        ((match sendUpdate rt (oracle i).update with
          | some e => [.update command row, .warn e]
          | none => [.update command row]), none)
      else
        ((match sendUpdate rt (oracle i).update with
          | some e => [.update command row, .warn e]
          | none => [.update command row]) ++
          (processRows rt command sleepDuration oracle (i + 1) rest (trackMin rt minID row)).1,
         (processRows rt command sleepDuration oracle (i + 1) rest (trackMin rt minID row)).2) := rfl

theorem processRows_nil (rt : Runtime) (command : Str) (sleepDuration : Int)
    (oracle : Nat → RowOracle) (i : Nat) (minID : Int) :
    processRows rt command sleepDuration oracle i [] minID = ([], some minID) := rfl

/-- The row loop issues no getdata request, and it issues the update requests of
the rows in order: of all of them unless the context is cancelled. -/
theorem processRows_events (rt : Runtime) (command : Str) (sleepDuration : Int)
    (oracle : Nat → RowOracle) : ∀ (rows : List Row) (i : Nat) (minID : Int),
    (∀ e ∈ (processRows rt command sleepDuration oracle i rows minID).1, e.lastID? = none) ∧
    (∃ k, ((processRows rt command sleepDuration oracle i rows minID).1.filter
        (fun e => match e with
          | .update _ _ => true
          | _ => false)) = (rows.take k).map (fun row => RunEvent.update command row)) := by
  intro rows
  induction rows with
  | nil =>
    intro i minID
    rw [processRows_nil]
    exact ⟨fun e he => (by cases he), 0, rfl⟩
  | cons row rest ih =>
    intro i minID
    rw [processRows_cons]
    obtain ⟨ih1, k, ih2⟩ := ih (i + 1) (trackMin rt minID row)
    by_cases hc : sleepDuration > 0 ∧ (oracle i).cancelled = true
    · rw [if_pos hc]
      refine ⟨?_, 1, ?_⟩
      · intro e he
        cases hs : sendUpdate rt (oracle i).update <;> rw [hs] at he <;> simp at he <;>
          (try rcases he with rfl | rfl) <;> rfl
      · cases hs : sendUpdate rt (oracle i).update <;> simp [List.filter]
    · rw [if_neg hc]
      refine ⟨?_, k + 1, ?_⟩
      · intro e he
        simp only [List.mem_append] at he
        rcases he with he | he
        · cases hs : sendUpdate rt (oracle i).update <;> rw [hs] at he <;> simp at he <;>
            (try rcases he with rfl | rfl) <;> rfl
        · exact ih1 e he
      · simp only [List.filter_append, ih2]
        cases hs : sendUpdate rt (oracle i).update <;> simp [List.filter]

/-- Without cancellation the row loop handles every row and ends with the `minID`
tracked over all rows. -/
theorem processRows_complete (rt : Runtime) (command : Str) (sleepDuration : Int)
    (oracle : Nat → RowOracle)
    (hnc : sleepDuration ≤ 0 ∨ ∀ i, (oracle i).cancelled = false) :
    ∀ (rows : List Row) (i : Nat) (minID : Int),
    (processRows rt command sleepDuration oracle i rows minID).2 =
      some (rows.foldl (trackMin rt) minID) ∧
    ((processRows rt command sleepDuration oracle i rows minID).1.filter
        (fun e => match e with
          | .update _ _ => true
          | _ => false)) = rows.map (fun row => RunEvent.update command row) := by
  intro rows
  induction rows with
  | nil =>
    intro i minID
    rw [processRows_nil]
    exact ⟨rfl, rfl⟩
  | cons row rest ih =>
    intro i minID
    have hc : ¬ (sleepDuration > 0 ∧ (oracle i).cancelled = true) := by
      rintro ⟨h1, h2⟩
      rcases hnc with h | h
      · omega
      · rw [h i] at h2; cases h2
    rw [processRows_cons, if_neg hc]
    obtain ⟨ih1, ih2⟩ := ih (i + 1) (trackMin rt minID row)
    refine ⟨by simpa using ih1, ?_⟩
    simp only [List.filter_append, ih2]
    cases hs : sendUpdate rt (oracle i).update <;> simp [List.filter]

/-- With cancellation the row loop ends either cancelled or with the tracked
`minID`. -/
theorem processRows_result (rt : Runtime) (command : Str) (sleepDuration : Int)
    (oracle : Nat → RowOracle) : ∀ (rows : List Row) (i : Nat) (minID : Int),
    (processRows rt command sleepDuration oracle i rows minID).2 = none ∨
    (processRows rt command sleepDuration oracle i rows minID).2 =
      some (rows.foldl (trackMin rt) minID) := by
  intro rows
  induction rows with
  | nil => intro i minID; right; rfl
  | cons row rest ih =>
    intro i minID
    rw [processRows_cons]
    by_cases hc : sleepDuration > 0 ∧ (oracle i).cancelled = true
    · rw [if_pos hc]; left; rfl
    · rw [if_neg hc]
      simpa using ih (i + 1) (trackMin rt minID row)

/-- The value of `minID` after a batch none of whose extracted ids is `0`: the
smallest of the starting value (when set) and the extracted ids. -/
theorem foldl_trackMin (rt : Runtime) : ∀ (rows : List Row) (m : Int),
    (0 : Int) ∉ rows.filterMap (extractID rt) →
    (rows.filterMap (extractID rt) = [] → rows.foldl (trackMin rt) m = m) ∧
    (m = 0 → rows.filterMap (extractID rt) ≠ [] →
      rows.foldl (trackMin rt) m ∈ rows.filterMap (extractID rt)) ∧
    (m ≠ 0 → (rows.foldl (trackMin rt) m = m ∨
      rows.foldl (trackMin rt) m ∈ rows.filterMap (extractID rt)) ∧
      rows.foldl (trackMin rt) m ≤ m) ∧
    (m ≠ 0 → rows.foldl (trackMin rt) m ≠ 0) ∧
    (∀ i ∈ rows.filterMap (extractID rt), rows.foldl (trackMin rt) m ≤ i) := by
  intro rows
  induction rows with
  | nil => intro m _; simp
  | cons row rest ih =>
    intro m h0
    cases hid : extractID rt row with
    | none =>
      have hf : (row :: rest).filterMap (extractID rt) = rest.filterMap (extractID rt) := by
        simp [List.filterMap_cons, hid]
      have ht : trackMin rt m row = m := by simp [trackMin, hid]
      rw [hf] at h0 ⊢
      simp only [List.foldl_cons, ht]
      exact ih m h0
    | some id =>
      have hf : (row :: rest).filterMap (extractID rt) = id :: rest.filterMap (extractID rt) := by
        simp [List.filterMap_cons, hid]
      rw [hf] at h0 ⊢
      have hid0 : id ≠ 0 := fun h => h0 (by rw [h]; exact List.mem_cons_self _ _)
      have h0r : (0 : Int) ∉ rest.filterMap (extractID rt) :=
        fun h => h0 (List.mem_cons_of_mem _ h)
      simp only [List.foldl_cons]
      by_cases hm : m = 0 ∨ id < m
      · have ht : trackMin rt m row = id := by simp [trackMin, hid, hm]
        rw [ht]
        obtain ⟨i1, -, i3, i4, i5⟩ := ih id h0r
        have i3 := i3 hid0
        refine ⟨by simp, ?_, ?_, ?_, ?_⟩
        · intro _ _
          rcases i3.1 with h | h
          · rw [h]; exact List.mem_cons_self _ _
          · exact List.mem_cons_of_mem _ h
        · intro hm0
          refine ⟨?_, ?_⟩
          · right
            rcases i3.1 with h | h
            · rw [h]; exact List.mem_cons_self _ _
            · exact List.mem_cons_of_mem _ h
          · have := i3.2
            rcases hm with h | h
            · exact absurd h hm0
            · omega
        · intro _; exact i4 hid0
        · intro i hi
          rcases List.mem_cons.1 hi with rfl | hi
          · exact i3.2
          · exact i5 i hi
      · have ht : trackMin rt m row = m := by simp [trackMin, hid, hm]
        rw [ht]
        push_neg at hm
        obtain ⟨i1, -, i3, i4, i5⟩ := ih m h0r
        have i3 := i3 hm.1
        refine ⟨by simp, ?_, ?_, ?_, ?_⟩
        · intro h; exact absurd h hm.1
        · intro _
          refine ⟨?_, i3.2⟩
          rcases i3.1 with h | h
          · left; exact h
          · right; exact List.mem_cons_of_mem _ h
        · intro _; exact i4 hm.1
        · intro i hi
          rcases List.mem_cons.1 hi with rfl | hi
          · have := i3.2; omega
          · exact i5 i hi

/-- Every call of the outer loop starts with the getdata request of its cursor. -/
theorem runLoop_head (rt : Runtime) (command : Str) (limit sleepDuration : Int)
    (script : List Exchange) (lastID : Int) :
    (runLoop rt command limit sleepDuration script lastID).1.head? =
      some (.getdata command limit lastID) := by
  cases script with
  | nil => rfl
  | cons x script =>
    simp only [runLoop]
    split
    · rfl
    · split
      · rfl
      · split
        · rfl
        · split <;> rfl

theorem runLoop_batch (rt : Runtime) (command : Str) (limit sleepDuration : Int)
    (x : Exchange) (script : List Exchange) (lastID : Int) (rows : List Row)
    (hfetch : fetchData rt x.reply = .ok rows) (hne : rows ≠ []) :
    runLoop rt command limit sleepDuration (x :: script) lastID =
      match (processRows rt command sleepDuration x.rows 0 rows 0).2 with
      | none =>
        (.getdata command limit lastID ::
          (processRows rt command sleepDuration x.rows 0 rows 0).1, .error .cancelled)
      | some minID =>
        if minID = 0 then
          (.getdata command limit lastID ::
            (processRows rt command sleepDuration x.rows 0 rows 0).1, .ok)
        else
          (.getdata command limit lastID ::
            (processRows rt command sleepDuration x.rows 0 rows 0).1 ++
              (runLoop rt command limit sleepDuration script minID).1,
           (runLoop rt command limit sleepDuration script minID).2) := by
  have hlen : ¬ rows.length = 0 := by
    intro h
    exact hne (List.length_eq_zero.1 h)
  simp only [runLoop, hfetch, if_neg hlen]

theorem filterMap_extractID_nil (rt : Runtime) : ∀ rows : List Row,
    (∀ row ∈ rows, extractID rt row = none) → rows.filterMap (extractID rt) = [] := by
  intro rows
  induction rows with
  | nil => intro _; rfl
  | cons row rest ih =>
    intro h
    rw [List.filterMap_cons, h row (List.mem_cons_self _ _)]
    exact ih (fun r hr => h r (List.mem_cons_of_mem _ hr))

/-- C15 fails when an extracted id is `0`, which the loop uses as "no id yet". The
batch `[{id:5},{id:0},{id:3}]` yields the ids `5, 0, 3`, whose minimum is `0`, but
the next getdata request has `last_id = 3`; and after the batch `[{id:0}]`, in
which a row yields an id, the run ends successfully without the next request. -/
theorem zero_id_not_tracked :
    [idRow 5, idRow 0, idRow 3].filterMap (extractID sampleRuntime) = [5, 0, 3] ∧
    (Run sampleRuntime sampleRunner sampleTask.Task
      [{ reply := okReply [idRow 5, idRow 0, idRow 3], rows := quietRows }]).1.filterMap
        RunEvent.lastID? = [0, 3] ∧
    [idRow 0].filterMap (extractID sampleRuntime) = [0] ∧
    Run sampleRuntime sampleRunner sampleTask.Task
      [{ reply := okReply [idRow 0], rows := quietRows },
       { reply := okReply [idRow 4], rows := quietRows }] =
      ([.getdata ['c'] 50 0, .update ['c'] (idRow 0)], .ok) := by
  decide

/-- C15, amended. For every non-empty batch returned by getdata none of whose
extracted ids is `0`, when no cancellation occurs: if at least one row yields an
id, the loop issues a further getdata request whose `last_id` is the minimum of
the ids extracted from the rows of the batch, and continues from there; if no row
yields an id, the run ends successfully after the batch. -/
theorem next_cursor_is_min (rt : Runtime) (command : Str) (limit sleepDuration : Int)
    (x : Exchange) (script : List Exchange) (lastID : Int) (rows : List Row)
    (hfetch : fetchData rt x.reply = .ok rows) (hne : rows ≠ [])
    (hnc : sleepDuration ≤ 0 ∨ ∀ i, (x.rows i).cancelled = false)
    (h0 : (0 : Int) ∉ rows.filterMap (extractID rt)) :
    (rows.filterMap (extractID rt) ≠ [] →
      ∃ (m : Int) (evs : List RunEvent),
        m ∈ rows.filterMap (extractID rt) ∧
        (∀ i ∈ rows.filterMap (extractID rt), m ≤ i) ∧
        (∀ e ∈ evs, e.lastID? = none) ∧
        (runLoop rt command limit sleepDuration (x :: script) lastID).1 =
          .getdata command limit lastID :: evs ++
            (runLoop rt command limit sleepDuration script m).1 ∧
        (runLoop rt command limit sleepDuration script m).1.head? =
          some (.getdata command limit m) ∧
        (runLoop rt command limit sleepDuration (x :: script) lastID).2 =
          (runLoop rt command limit sleepDuration script m).2) ∧
    (rows.filterMap (extractID rt) = [] →
      ∃ evs : List RunEvent, (∀ e ∈ evs, e.lastID? = none) ∧
        runLoop rt command limit sleepDuration (x :: script) lastID =
          (.getdata command limit lastID :: evs, .ok)) := by
  have hp := (processRows_complete rt command sleepDuration x.rows hnc rows 0 0).1
  have hev := (processRows_events rt command sleepDuration x.rows rows 0 0).1
  obtain ⟨f1, f2, -, -, f5⟩ := foldl_trackMin rt rows 0 h0
  have hb := runLoop_batch rt command limit sleepDuration x script lastID rows hfetch hne
  rw [hp] at hb
  simp only at hb
  constructor
  · intro hids
    have hmem := f2 rfl hids
    have hm0 : rows.foldl (trackMin rt) 0 ≠ 0 := by
      intro h
      rw [h] at hmem
      exact h0 hmem
    rw [if_neg hm0] at hb
    refine ⟨rows.foldl (trackMin rt) 0, _, hmem, f5, hev, ?_, runLoop_head _ _ _ _ _ _, ?_⟩
    · rw [hb]
    · rw [hb]
  · intro hids
    rw [if_pos (f1 hids)] at hb
    exact ⟨_, hev, hb⟩

/-- C15, amended, at the multi-page drain: the batches `[{id:10},{id:7},{id:9}]`,
`[{id:4}]`, `[]` give the `last_id` values `0`, `7`, `4` and the run succeeds; the
request that follows the first batch carries the minimum `7` of its ids. -/
theorem next_cursor_is_min_witness :
    (Run sampleRuntime sampleRunner sampleTask.Task sampleScript).1.filterMap RunEvent.lastID? =
      [0, 7, 4] ∧
    (Run sampleRuntime sampleRunner sampleTask.Task sampleScript).2 = .ok ∧
    ∃ m : Int, m ∈ [idRow 10, idRow 7, idRow 9].filterMap (extractID sampleRuntime) ∧
      (∀ i ∈ [idRow 10, idRow 7, idRow 9].filterMap (extractID sampleRuntime), m ≤ i) ∧
      m = 7 ∧
      (runLoop sampleRuntime ['c'] 50 0 sampleScript.tail m).1.head? =
        some (.getdata ['c'] 50 m) := by
  obtain ⟨m, evs, h1, h2, -, -, h5, -⟩ :=
    (next_cursor_is_min sampleRuntime ['c'] 50 0
      { reply := okReply [idRow 10, idRow 7, idRow 9], rows := quietRows } sampleScript.tail 0
      [idRow 10, idRow 7, idRow 9] rfl (by decide) (Or.inl (le_refl 0))
      (by decide)).1 (by decide)
  have hm : m = 7 := by
    have e : [idRow 10, idRow 7, idRow 9].filterMap (extractID sampleRuntime) = [10, 7, 9] := by
      decide
    rw [e] at h1 h2
    have := h2 7 (by simp)
    simp only [List.mem_cons, List.mem_singleton, List.not_mem_nil, or_false] at h1
    omega
  exact ⟨by decide, by decide, m, h1, h2, hm, h5⟩

/-- C16 fails for a batch whose ids are all at least the `last_id` that fetched it:
the batch `[{id:9}]`, fetched with `last_id = 7`, does not end the run; `Run` issues
a further getdata request with `last_id = 9` and waits for its reply. -/
theorem ids_above_cursor_continue :
    Run sampleRuntime sampleRunner sampleTask.Task
      [{ reply := okReply [idRow 7], rows := quietRows },
       { reply := okReply [idRow 9], rows := quietRows }] =
      ([.getdata ['c'] 50 0, .update ['c'] (idRow 7), .getdata ['c'] 50 7,
        .update ['c'] (idRow 9), .getdata ['c'] 50 9], .pending) := by
  decide

/-- C16, amended. For every run, a batch in which no row yields an id ends the
run: after the getdata request of that batch the loop issues no other getdata
request and returns, successfully unless the context was cancelled during the
batch. -/
theorem batch_without_ids_ends (rt : Runtime) (command : Str) (limit sleepDuration : Int)
    (x : Exchange) (script : List Exchange) (lastID : Int) (rows : List Row)
    (hfetch : fetchData rt x.reply = .ok rows)
    (hnone : ∀ row ∈ rows, extractID rt row = none) :
    ∃ evs : List RunEvent, (∀ e ∈ evs, e.lastID? = none) ∧
      (runLoop rt command limit sleepDuration (x :: script) lastID).1 =
        .getdata command limit lastID :: evs ∧
      ((runLoop rt command limit sleepDuration (x :: script) lastID).2 = .ok ∨
        (runLoop rt command limit sleepDuration (x :: script) lastID).2 = .error .cancelled) ∧
      ((sleepDuration ≤ 0 ∨ ∀ i, (x.rows i).cancelled = false) →
        (runLoop rt command limit sleepDuration (x :: script) lastID).2 = .ok) := by
  by_cases hne : rows = []
  · subst hne
    have h : runLoop rt command limit sleepDuration (x :: script) lastID =
        ([.getdata command limit lastID], .ok) := by
      simp only [runLoop, hfetch, List.length_nil, if_true]
    rw [h]
    exact ⟨[], fun e he => (by cases he), rfl, Or.inl rfl, fun _ => rfl⟩
  · have hids := filterMap_extractID_nil rt rows hnone
    have hfold : rows.foldl (trackMin rt) 0 = 0 :=
      (foldl_trackMin rt rows 0 (by rw [hids]; simp)).1 hids
    have hev := (processRows_events rt command sleepDuration x.rows rows 0 0).1
    have hb := runLoop_batch rt command limit sleepDuration x script lastID rows hfetch hne
    rcases processRows_result rt command sleepDuration x.rows rows 0 0 with hp | hp
    · rw [hp] at hb
      simp only at hb
      rw [hb]
      refine ⟨_, hev, rfl, Or.inr rfl, ?_⟩
      intro hnc
      have hp2 := (processRows_complete rt command sleepDuration x.rows hnc rows 0 0).1
      rw [hp] at hp2
      cases hp2
    · rw [hp, hfold] at hb
      simp only [if_true] at hb
      rw [hb]
      exact ⟨_, hev, rfl, Or.inl rfl, fun _ => rfl⟩

/-- C16, amended, at a batch of one row that has no `id` key, fetched with
`last_id = 7`: the run ends successfully with no further getdata request. -/
theorem batch_without_ids_ends_witness :
    runLoop sampleRuntime ['c'] 50 0
      [{ reply := okReply [some []], rows := quietRows },
       { reply := okReply [idRow 4], rows := quietRows }] 7 =
      ([.getdata ['c'] 50 7, .update ['c'] (some [])], .ok) ∧
    ∃ evs : List RunEvent, (∀ e ∈ evs, e.lastID? = none) ∧
      (runLoop sampleRuntime ['c'] 50 0
        [{ reply := okReply [some []], rows := quietRows },
         { reply := okReply [idRow 4], rows := quietRows }] 7).1 =
        .getdata ['c'] 50 7 :: evs := by
  obtain ⟨evs, h1, h2, -, -⟩ := batch_without_ids_ends sampleRuntime ['c'] 50 0
    { reply := okReply [some []], rows := quietRows }
    [{ reply := okReply [idRow 4], rows := quietRows }] 7 [some []] rfl (by decide)
  exact ⟨by decide, evs, h1, h2⟩

/-! ## Failed requests -/

theorem Run_first_failure (rt : Runtime) (r : HTTPTaskRunner) (task : Task) (x : Exchange)
    (script : List Exchange) (e : RunError) (hurl : r.BaseURL ≠ [])
    (hfetch : fetchData rt x.reply = .error e) :
    Run rt r task (x :: script) =
      ([.getdata task.Command (if task.DataCountLimit ≤ 0 then 50 else task.DataCountLimit) 0],
        .error e) := by
  unfold Run
  rw [if_neg hurl]
  simp only [runLoop, hfetch]

/-- C17. A getdata reply whose HTTP status code is at least 400, or whose decoded
`status`, upper-cased, is not `SUCCESS`, makes `fetchData` fail: with the HTTP
status in the first case, otherwise with the message of the server. `success` and
`Success` pass the check, `FAIL` and a missing status do not. When the first
getdata fails, for whatever reason, `Run` returns that error and has issued the
getdata request only, no update request; a later getdata that fails ends the loop
with its error in the same way. -/
theorem getdata_failure (rt : Runtime) (r : HTTPTaskRunner) (task : Task) (x : Exchange)
    (script : List Exchange) (code : Int) (status : Str) (body : Option getDataResponse)
    (hreply : x.reply = .http code status body)
    (hbad : code ≥ 400 ∨ ∃ gd, body = some gd ∧ ToUpper rt gd.Status ≠ "SUCCESS".toList)
    (hurl : r.BaseURL ≠ []) :
    (∃ e, fetchData rt x.reply = .error e ∧
      (code ≥ 400 → e = .getdataRequestFailed status) ∧
      (code < 400 → ∀ gd, body = some gd → e = .getdataFailed gd.Message) ∧
      (Run rt r task (x :: script)).2 = .error e ∧
      (Run rt r task (x :: script)).1 =
        [.getdata task.Command
          (if task.DataCountLimit ≤ 0 then 50 else task.DataCountLimit) 0]) ∧
    (∀ (y : Exchange) (e : RunError), fetchData rt y.reply = .error e →
      (Run rt r task (y :: script)).2 = .error e ∧
      (∀ ev ∈ (Run rt r task (y :: script)).1, ∀ c row, ev ≠ RunEvent.update c row) ∧
      ∀ (command : Str) (limit sleepDuration lastID : Int),
        runLoop rt command limit sleepDuration (y :: script) lastID =
          ([.getdata command limit lastID], .error e)) ∧
    (ToUpper rt "success".toList = "SUCCESS".toList ∧
      ToUpper rt "Success".toList = "SUCCESS".toList ∧
      ToUpper rt "FAIL".toList ≠ "SUCCESS".toList ∧
      ToUpper rt [] ≠ "SUCCESS".toList) ∧
    (∀ (c : Int) (st : Str) (gd : getDataResponse), c < 400 →
      (fetchData rt (.http c st (some gd)) = .ok gd.Data ↔
        ToUpper rt gd.Status = "SUCCESS".toList)) := by
  have hfail : ToUpper rt "FAIL".toList = "FAIL".toList := rfl
  have hempty : ToUpper rt [] = [] := rfl
  refine ⟨?_, ?_, ⟨rfl, rfl, by rw [hfail]; decide, by rw [hempty]; decide⟩, ?_⟩
  · by_cases hc : code ≥ 400
    · have hf : fetchData rt x.reply = .error (.getdataRequestFailed status) := by
        rw [hreply]
        simp only [fetchData, if_pos hc]
      have hr := Run_first_failure rt r task x script _ hurl hf
      refine ⟨_, hf, fun _ => rfl, fun h => absurd hc (by omega), ?_, ?_⟩
      · rw [hr]
      · rw [hr]
    · rcases hbad with h | ⟨gd, hb, hs⟩
      · exact absurd h hc
      · have hf : fetchData rt x.reply = .error (.getdataFailed gd.Message) := by
          rw [hreply, hb]
          simp only [fetchData, if_neg hc, ne_eq, hs, not_false_eq_true, if_true]
        have hr := Run_first_failure rt r task x script _ hurl hf
        refine ⟨_, hf, fun h => absurd h hc, ?_, ?_, ?_⟩
        · intro _ gd2 h2
          rw [hb] at h2
          injection h2 with h2
          rw [h2]
        · rw [hr]
        · rw [hr]
  · intro y e hf
    rw [Run_first_failure rt r task y script e hurl hf]
    refine ⟨rfl, ?_, ?_⟩
    · intro ev hev c row
      rw [List.mem_singleton] at hev
      rw [hev]
      intro h
      cases h
    · intro command limit sleepDuration lastID
      simp only [runLoop, hf]
  · intro c st gd hc
    have hc2 : ¬ c ≥ 400 := by omega
    simp only [fetchData, if_neg hc2]
    by_cases hs : ToUpper rt gd.Status = "SUCCESS".toList
    · simp [hs]
    · simp [hs]

/-- C17 at the reply `{"status":"FAIL","message":"x"}` with code 200: `Run` returns
the error carrying the message `x` after its single getdata request. -/
theorem getdata_failure_witness :
    Run sampleRuntime sampleRunner sampleTask.Task
      [{ reply := .http 200 "200 OK".toList
            (some { Status := "FAIL".toList, Message := "x".toList, Data := [idRow 1] }),
         rows := quietRows }] =
      ([.getdata ['c'] 50 0], .error (.getdataFailed ['x'])) ∧
    ∃ e, fetchData sampleRuntime (.http 200 "200 OK".toList
        (some { Status := "FAIL".toList, Message := "x".toList, Data := [idRow 1] })) =
      .error e ∧ e = .getdataFailed ['x'] := by
  obtain ⟨e, h1, -, h3, -, -⟩ := (getdata_failure sampleRuntime sampleRunner sampleTask.Task
    { reply := .http 200 "200 OK".toList
        (some { Status := "FAIL".toList, Message := "x".toList, Data := [idRow 1] }),
      rows := quietRows } [] 200 "200 OK".toList
    (some { Status := "FAIL".toList, Message := "x".toList, Data := [idRow 1] }) rfl
    (Or.inr ⟨_, rfl, by decide⟩) (by decide)).1
  exact ⟨by decide, e, h1, h3 (by decide) _ rfl⟩

/-! ## Update failures -/

theorem processRows_agree (rt : Runtime) (command : Str) (sleepDuration : Int)
    (o1 o2 : Nat → RowOracle) (h : ∀ i, (o1 i).cancelled = (o2 i).cancelled) :
    ∀ (rows : List Row) (i : Nat) (minID : Int),
    (processRows rt command sleepDuration o1 i rows minID).1.filter RunEvent.isRequest =
      (processRows rt command sleepDuration o2 i rows minID).1.filter RunEvent.isRequest ∧
    (processRows rt command sleepDuration o1 i rows minID).2 =
      (processRows rt command sleepDuration o2 i rows minID).2 := by
  intro rows
  induction rows with
  | nil => intro i minID; exact ⟨rfl, rfl⟩
  | cons row rest ih =>
    intro i minID
    obtain ⟨ih1, ih2⟩ := ih (i + 1) (trackMin rt minID row)
    have hsent : ∀ o : Nat → RowOracle,
        (match sendUpdate rt (o i).update with
          | some e => [RunEvent.update command row, RunEvent.warn e]
          | none => [RunEvent.update command row]).filter RunEvent.isRequest =
        [RunEvent.update command row] := by
      intro o
      cases sendUpdate rt (o i).update <;> rfl
    rw [processRows_cons, processRows_cons, h i]
    by_cases hc : sleepDuration > 0 ∧ (o2 i).cancelled = true
    · rw [if_pos hc, if_pos hc]
      exact ⟨by rw [hsent o1, hsent o2], rfl⟩
    · rw [if_neg hc, if_neg hc]
      refine ⟨?_, ih2⟩
      simp only [List.filter_append, hsent o1, hsent o2, ih1]

/-- The requests of the row loop are update requests, one per row in order: for
every row unless the context is cancelled. -/
theorem processRows_requests (rt : Runtime) (command : Str) (sleepDuration : Int)
    (oracle : Nat → RowOracle) : ∀ (rows : List Row) (i : Nat) (minID : Int),
    (∃ k, (processRows rt command sleepDuration oracle i rows minID).1.filter
        RunEvent.isRequest = (rows.take k).map (fun row => RunEvent.update command row)) ∧
    ((sleepDuration ≤ 0 ∨ ∀ j, (oracle j).cancelled = false) →
      (processRows rt command sleepDuration oracle i rows minID).1.filter RunEvent.isRequest =
        rows.map (fun row => RunEvent.update command row)) := by
  intro rows
  induction rows with
  | nil => intro i minID; exact ⟨⟨0, rfl⟩, fun _ => rfl⟩
  | cons row rest ih =>
    intro i minID
    obtain ⟨⟨k, ih1⟩, ih2⟩ := ih (i + 1) (trackMin rt minID row)
    have hsent :
        (match sendUpdate rt (oracle i).update with
          | some e => [RunEvent.update command row, RunEvent.warn e]
          | none => [RunEvent.update command row]).filter RunEvent.isRequest =
        [RunEvent.update command row] := by
      cases sendUpdate rt (oracle i).update <;> rfl
    rw [processRows_cons]
    by_cases hc : sleepDuration > 0 ∧ (oracle i).cancelled = true
    · rw [if_pos hc]
      refine ⟨⟨1, by rw [hsent]; rfl⟩, ?_⟩
      intro hnc
      rcases hnc with h | h
      · omega
      · rw [h i] at hc
        exact absurd hc.2 (by simp)
    · rw [if_neg hc]
      refine ⟨⟨k + 1, ?_⟩, ?_⟩
      · simp only [List.filter_append, hsent, ih1]
        rfl
      · intro hnc
        simp only [List.filter_append, hsent, ih2 hnc]
        rfl

theorem runLoop_agree (rt : Runtime) (command : Str) (limit sleepDuration : Int) :
    ∀ (s1 s2 : List Exchange),
    List.Forall₂ (fun x y => x.reply = y.reply ∧
      ∀ i, (x.rows i).cancelled = (y.rows i).cancelled) s1 s2 →
    ∀ lastID : Int,
    (runLoop rt command limit sleepDuration s1 lastID).1.filter RunEvent.isRequest =
      (runLoop rt command limit sleepDuration s2 lastID).1.filter RunEvent.isRequest ∧
    (runLoop rt command limit sleepDuration s1 lastID).2 =
      (runLoop rt command limit sleepDuration s2 lastID).2 := by
  intro s1 s2 h
  induction h with
  | nil => intro lastID; exact ⟨rfl, rfl⟩
  | @cons x y t1 t2 hxy _ ih =>
    intro lastID
    obtain ⟨hr, hc⟩ := hxy
    cases hf : fetchData rt y.reply with
    | error e =>
      have hf1 : fetchData rt x.reply = .error e := by rw [hr]; exact hf
      simp only [runLoop, hf, hf1]
      exact ⟨trivial, trivial⟩
    | ok rows =>
      have hf1 : fetchData rt x.reply = .ok rows := by rw [hr]; exact hf
      by_cases hne : rows = []
      · subst hne
        simp only [runLoop, hf, hf1, List.length_nil, if_true]
        exact ⟨trivial, trivial⟩
      · rw [runLoop_batch rt command limit sleepDuration x t1 lastID rows hf1 hne,
          runLoop_batch rt command limit sleepDuration y t2 lastID rows hf hne]
        obtain ⟨a1, a2⟩ := processRows_agree rt command sleepDuration x.rows y.rows hc rows 0 0
        rw [a2]
        cases hp : (processRows rt command sleepDuration y.rows 0 rows 0).2 with
        | none =>
          simp only [List.filter_cons, a1]
          exact ⟨trivial, trivial⟩
        | some m =>
          simp only
          by_cases hm : m = 0
          · rw [if_pos hm, if_pos hm]
            simp only [List.filter_cons, a1]
            exact ⟨trivial, trivial⟩
          · rw [if_neg hm, if_neg hm]
            obtain ⟨b1, b2⟩ := ih m
            simp only [List.filter_cons, List.filter_append, a1, b1]
            exact ⟨trivial, b2⟩

/-- C18. Two runs of the same task against the same getdata replies and the same
cancellations, whatever the outcomes of their update calls, issue the same getdata
and update requests in the same order and return the same result; and the update
requests of a batch are one per fetched row, in the order of the rows (of all rows
unless the context is cancelled during the batch). -/
theorem update_outcomes_irrelevant (rt : Runtime) (r : HTTPTaskRunner) (task : Task)
    (s1 s2 : List Exchange)
    (h : List.Forall₂ (fun x y => x.reply = y.reply ∧
      ∀ i, (x.rows i).cancelled = (y.rows i).cancelled) s1 s2) :
    (Run rt r task s1).1.filter RunEvent.isRequest =
      (Run rt r task s2).1.filter RunEvent.isRequest ∧
    (Run rt r task s1).2 = (Run rt r task s2).2 ∧
    (∀ (command : Str) (sleepDuration : Int) (oracle : Nat → RowOracle) (rows : List Row),
      (∃ k, (processRows rt command sleepDuration oracle 0 rows 0).1.filter
          RunEvent.isRequest = (rows.take k).map (fun row => RunEvent.update command row)) ∧
      ((sleepDuration ≤ 0 ∨ ∀ j, (oracle j).cancelled = false) →
        (processRows rt command sleepDuration oracle 0 rows 0).1.filter RunEvent.isRequest =
          rows.map (fun row => RunEvent.update command row))) := by
  refine ⟨?_, ?_, ?_⟩
  · unfold Run
    split
    · rfl
    · exact (runLoop_agree rt _ _ _ s1 s2 h 0).1
  · unfold Run
    split
    · rfl
    · exact (runLoop_agree rt _ _ _ s1 s2 h 0).2
  · intro command sleepDuration oracle rows
    exact processRows_requests rt command sleepDuration oracle rows 0 0

/-- C18 at the multi-page drain, once with every update succeeding and once with
every update failing: the requests and the result are the same, only the logged
warnings differ. -/
theorem update_outcomes_irrelevant_witness :
    (Run sampleRuntime sampleRunner sampleTask.Task sampleScript).1.filter RunEvent.isRequest =
      (Run sampleRuntime sampleRunner sampleTask.Task failingScript).1.filter
        RunEvent.isRequest ∧
    (Run sampleRuntime sampleRunner sampleTask.Task sampleScript).2 =
      (Run sampleRuntime sampleRunner sampleTask.Task failingScript).2 ∧
    (Run sampleRuntime sampleRunner sampleTask.Task failingScript).1.filter
        RunEvent.isRequest =
      [.getdata ['c'] 50 0, .update ['c'] (idRow 10), .update ['c'] (idRow 7),
        .update ['c'] (idRow 9), .getdata ['c'] 50 7, .update ['c'] (idRow 4),
        .getdata ['c'] 50 4] ∧
    (Run sampleRuntime sampleRunner sampleTask.Task sampleScript).1 ≠
      (Run sampleRuntime sampleRunner sampleTask.Task failingScript).1 :=
  have h := update_outcomes_irrelevant sampleRuntime sampleRunner sampleTask.Task sampleScript
    failingScript
    (List.Forall₂.cons ⟨rfl, fun _ => rfl⟩ (List.Forall₂.cons ⟨rfl, fun _ => rfl⟩
      (List.Forall₂.cons ⟨rfl, fun _ => rfl⟩ List.Forall₂.nil)))
  ⟨h.1, h.2.1, by decide, by decide⟩

/-! ## `extractID` -/

theorem wrapInt_range (x : Int) : minInt ≤ wrapInt x ∧ wrapInt x ≤ maxInt := by
  unfold wrapInt minInt maxInt
  omega

theorem extractID_examples :
    extractID sampleRuntime (some [("id".toList, Value.float64 (.finite (-79) 10))]) =
      some (-7) ∧
    extractID sampleRuntime (some [("id".toList, Value.string "12".toList)]) = some 12 ∧
    extractID sampleRuntime (some [("id".toList, Value.string "1.5".toList)]) = none ∧
    extractID sampleRuntime (some [("id".toList, Value.number "42".toList)]) = some 42 ∧
    extractID sampleRuntime (some [("id".toList, Value.number "4.2".toList)]) = none ∧
    extractID sampleRuntime (some [("id".toList, Value.int 3)]) = some 3 ∧
    extractID sampleRuntime (some [("id".toList, Value.other)]) = none ∧
    extractID sampleRuntime (some [("name".toList, Value.int 3)]) = none ∧
    extractID sampleRuntime none = none := by
  decide

/-- C19, at the row `{"id": 9223372036854775808}`, whose id decodes to the `float64`
value `2^63`. The number truncated toward zero is `2^63`, which is not an `int`:
the float branch of `extractID` converts it with an unguarded `int(v)` and returns
`(n, true)` for another number `n`, whatever the platform (`(0, true)` with the
sample runtime), whereas the same id given as a string or as a JSON number is
rejected with `(0, false)`. The claim also fails at the JSON number `1e3`, an
integer that `extractID` rejects. -/
theorem huge_float_not_truncated :
    Int.tdiv 9223372036854775808 1 = 9223372036854775808 ∧
    (¬ ∃ rt : Runtime, extractID rt (idRow 9223372036854775808) = some 9223372036854775808) ∧
    (∀ rt : Runtime, ∃ n : Int, extractID rt (idRow 9223372036854775808) = some n ∧
      minInt ≤ n ∧ n ≤ maxInt) ∧
    extractID sampleRuntime (idRow 9223372036854775808) = some 0 ∧
    (∀ rt : Runtime, extractID rt
      (some [("id".toList, Value.string "9223372036854775808".toList)]) = none) ∧
    (∀ rt : Runtime, extractID rt
      (some [("id".toList, Value.number "9223372036854775808".toList)]) = none) ∧
    (∀ rt : Runtime, extractID rt (some [("id".toList, Value.number "1e3".toList)]) = none) := by
  have e : ∀ rt : Runtime, extractID rt (idRow 9223372036854775808) =
      some (wrapInt (rt.floatToInt (.finite 9223372036854775808 1))) := fun _ => rfl
  refine ⟨by decide, ?_, ?_, by decide, fun _ => rfl, fun _ => rfl, fun _ => rfl⟩
  · rintro ⟨rt, h⟩
    rw [e rt] at h
    injection h with h
    have hr := (wrapInt_range (rt.floatToInt (.finite 9223372036854775808 1))).2
    rw [h] at hr
    revert hr
    decide
  · intro rt
    exact ⟨_, e rt, wrapInt_range _⟩

/-- What `extractID` returns, branch by branch. It returns `(n, true)` exactly when
`row["id"]` is a `float64` (`n` is the number truncated toward zero when that fits
in `int`, and the result of the platform conversion otherwise), an `int` or `int64`
(`n` is it), or a string or `json.Number` that `strconv.Atoi` accepts, that is an
optional sign and decimal digits with a value within `int` (`n` is that value); it
returns `(0, false)` exactly when the row is nil, has no `id` key, or `id` has
another type or is a string or `json.Number` that `strconv.Atoi` rejects. -/
theorem extractID_spec (rt : Runtime) (row : Row) :
    (∀ n : Int, extractID rt row = some n ↔
      ((∃ num den, Row.id row = some (.float64 (.finite num den)) ∧
          (minInt ≤ Int.tdiv num den ∧ Int.tdiv num den ≤ maxInt) ∧ n = Int.tdiv num den) ∨
        (∃ v, Row.id row = some (.float64 v) ∧
          (∀ num den, v = .finite num den →
            ¬ (minInt ≤ Int.tdiv num den ∧ Int.tdiv num den ≤ maxInt)) ∧
          n = wrapInt (rt.floatToInt v)) ∨
        Row.id row = some (.int n) ∨
        Row.id row = some (.int64 n) ∨
        (∃ s, Row.id row = some (.string s) ∧ Atoi s = .ok n) ∨
        (∃ s, Row.id row = some (.number s) ∧ Atoi s = .ok n))) ∧
    (extractID rt row = none ↔
      (row = none ∨ Row.id row = none ∨ Row.id row = some .other ∨
        (∃ s, Row.id row = some (.string s) ∧ ∀ n, Atoi s ≠ .ok n) ∨
        (∃ s, Row.id row = some (.number s) ∧ ∀ n, Atoi s ≠ .ok n))) := by
  cases row with
  | none =>
    have e : extractID rt none = none := rfl
    have e2 : Row.id none = none := rfl
    rw [e, e2]
    simp
  | some entries =>
    have e : extractID rt (some entries) =
        match Row.id (some entries) with
        | some (.float64 v) => some (floatToInt rt v)
        | some (.int v) => some v
        | some (.int64 v) => some v
        | some (.number v) =>
          (match Atoi v with
          | .ok i => some i
          | _ => none)
        | some (.string v) =>
          (match Atoi v with
          | .ok val => some val
          | _ => none)
        | _ => none := rfl
    rw [e]
    cases hid : Row.id (some entries) with
    | none =>
      refine ⟨?_, ?_⟩
      · intro n
        constructor
        · intro h; cases h
        · rintro (⟨_, _, h, -⟩ | ⟨_, h, -⟩ | h | h | ⟨_, h, -⟩ | ⟨_, h, -⟩) <;> cases h
      · exact ⟨fun _ => Or.inr (Or.inl rfl), fun _ => rfl⟩
    | some val =>
      cases val with
      | float64 v =>
        refine ⟨?_, ?_⟩
        · intro n
          show some (floatToInt rt v) = some n ↔ _
          constructor
          · intro h
            injection h with h
            subst h
            cases v with
            | finite num den =>
              by_cases hfit : minInt ≤ Int.tdiv num den ∧ Int.tdiv num den ≤ maxInt
              · exact Or.inl ⟨num, den, rfl, hfit, by simp only [floatToInt, if_pos hfit]⟩
              · refine Or.inr (Or.inl ⟨_, rfl, ?_, by simp only [floatToInt, if_neg hfit]⟩)
                intro num2 den2 h2
                injection h2 with h3 h4
                subst h3; subst h4
                exact hfit
            | nan => exact Or.inr (Or.inl ⟨_, rfl, fun _ _ h2 => (by cases h2), rfl⟩)
            | inf neg => exact Or.inr (Or.inl ⟨_, rfl, fun _ _ h2 => (by cases h2), rfl⟩)
          · rintro (⟨num, den, h, hfit, rfl⟩ | ⟨v2, h, hv, rfl⟩ | h | h | ⟨_, h, -⟩ | ⟨_, h, -⟩)
            · cases h
              simp only [floatToInt, if_pos hfit]
            · cases h
              cases v with
              | finite num den => simp only [floatToInt, if_neg (hv num den rfl)]
              | nan => rfl
              | inf neg => rfl
            · cases h
            · cases h
            · cases h
            · cases h
        · show some (floatToInt rt v) = none ↔ _
          constructor
          · intro h; cases h
          · rintro (h | h | h | ⟨_, h, -⟩ | ⟨_, h, -⟩) <;> cases h
      | int v =>
        refine ⟨?_, ?_⟩
        · intro n
          show some v = some n ↔ _
          constructor
          · intro h
            injection h with h
            subst h
            exact Or.inr (Or.inr (Or.inl rfl))
          · rintro (⟨_, _, h, -⟩ | ⟨_, h, -⟩ | h | h | ⟨_, h, -⟩ | ⟨_, h, -⟩) <;> cases h
            rfl
        · show some v = none ↔ _
          constructor
          · intro h; cases h
          · rintro (h | h | h | ⟨_, h, -⟩ | ⟨_, h, -⟩) <;> cases h
      | int64 v =>
        refine ⟨?_, ?_⟩
        · intro n
          show some v = some n ↔ _
          constructor
          · intro h
            injection h with h
            subst h
            exact Or.inr (Or.inr (Or.inr (Or.inl rfl)))
          · rintro (⟨_, _, h, -⟩ | ⟨_, h, -⟩ | h | h | ⟨_, h, -⟩ | ⟨_, h, -⟩) <;> cases h
            rfl
        · show some v = none ↔ _
          constructor
          · intro h; cases h
          · rintro (h | h | h | ⟨_, h, -⟩ | ⟨_, h, -⟩) <;> cases h
      | number s =>
        refine ⟨?_, ?_⟩
        · intro n
          show (match Atoi s with
            | .ok i => some i
            | _ => none) = some n ↔ _
          constructor
          · intro h
            cases ha : Atoi s with
            | ok i =>
              rw [ha] at h
              injection h with h
              subst h
              exact Or.inr (Or.inr (Or.inr (Or.inr (Or.inr ⟨s, rfl, ha⟩))))
            | error e => rw [ha] at h; cases h
            | panic => rw [ha] at h; cases h
            | diverge => rw [ha] at h; cases h
          · rintro (⟨_, _, h, -⟩ | ⟨_, h, -⟩ | h | h | ⟨_, h, -⟩ | ⟨s2, h, ha⟩)
            · cases h
            · cases h
            · cases h
            · cases h
            · cases h
            · cases h
              rw [ha]
        · show (match Atoi s with
            | .ok i => some i
            | _ => none) = none ↔ _
          constructor
          · intro h
            refine Or.inr (Or.inr (Or.inr (Or.inr ⟨s, rfl, ?_⟩)))
            intro n ha
            rw [ha] at h
            cases h
          · rintro (h | h | h | ⟨_, h, -⟩ | ⟨s2, h, ha⟩)
            · cases h
            · cases h
            · cases h
            · cases h
            · cases h
              cases hb : Atoi s with
              | ok i => exact absurd hb (ha i)
              | error e => rfl
              | panic => rfl
              | diverge => rfl
      | string s =>
        refine ⟨?_, ?_⟩
        · intro n
          show (match Atoi s with
            | .ok i => some i
            | _ => none) = some n ↔ _
          constructor
          · intro h
            cases ha : Atoi s with
            | ok i =>
              rw [ha] at h
              injection h with h
              subst h
              exact Or.inr (Or.inr (Or.inr (Or.inr (Or.inl ⟨s, rfl, ha⟩))))
            | error e => rw [ha] at h; cases h
            | panic => rw [ha] at h; cases h
            | diverge => rw [ha] at h; cases h
          · rintro (⟨_, _, h, -⟩ | ⟨_, h, -⟩ | h | h | ⟨s2, h, ha⟩ | ⟨_, h, -⟩)
            · cases h
            · cases h
            · cases h
            · cases h
            · cases h
              rw [ha]
            · cases h
        · show (match Atoi s with
            | .ok i => some i
            | _ => none) = none ↔ _
          constructor
          · intro h
            refine Or.inr (Or.inr (Or.inr (Or.inl ⟨s, rfl, ?_⟩)))
            intro n ha
            rw [ha] at h
            cases h
          · rintro (h | h | h | ⟨s2, h, ha⟩ | ⟨_, h, -⟩)
            · cases h
            · cases h
            · cases h
            · cases h
              cases hb : Atoi s with
              | ok i => exact absurd hb (ha i)
              | error e => rfl
              | panic => rfl
              | diverge => rfl
            · cases h
      | other =>
        refine ⟨?_, ?_⟩
        · intro n
          constructor
          · intro h; cases h
          · rintro (⟨_, _, h, -⟩ | ⟨_, h, -⟩ | h | h | ⟨_, h, -⟩ | ⟨_, h, -⟩) <;> cases h
        · exact ⟨fun _ => Or.inr (Or.inr (Or.inl rfl)), fun _ => rfl⟩

/-- C20. When a task passes the enable, status, match and `TryLock` checks but its
`MarkRunning` call returns an error, the dispatch loop makes no other call for it
(no execution is spawned) and unlocks its id before moving on: the scheduler state
is what it was before the entry (the id absent from the lock table, as before), a
later `TryLock` of the id succeeds, and the rest of the snapshot is processed from
that state. -/
theorem markRunning_failure_unlocks (now : Time) (s : SchedState) (ct : compiledTask)
    (rest : List (compiledTask × Bool))
    (h1 : ct.Task.IsEnable = 0) (h2 : ct.Task.Status ≠ 1)
    (h3 : ∃ e, ct.Expr = some e ∧ e.Match now = true)
    (h4 : (s.lock.TryLock ct.Task.ID).2 = true) :
    (dispatchStep false now s ct).2 = [DispatchEvent.markRunning ct.Task.ID now] ∧
    (∀ t, DispatchEvent.spawn t ∉ (dispatchStep false now s ct).2) ∧
    ct.Task.ID ∉ s.lock.locks ∧
    ct.Task.ID ∉ (dispatchStep false now s ct).1.lock.locks ∧
    (dispatchStep false now s ct).1 = s ∧
    ((dispatchStep false now s ct).1.lock.TryLock ct.Task.ID).2 = true ∧
    dispatchTrace now s ((ct, false) :: rest) =
      ((dispatchTrace now s rest).1,
        DispatchEvent.markRunning ct.Task.ID now :: (dispatchTrace now s rest).2) := by
  have hfree : ct.Task.ID ∉ s.lock.locks := (TryLock_snd _ _).1 h4
  have hev : (dispatchStep false now s ct).2 = [DispatchEvent.markRunning ct.Task.ID now] := by
    rcases dispatchStep_events false now s ct with ⟨-, hev⟩ | ⟨hc, -⟩
    · rw [hev]
      rfl
    · exact absurd ⟨h1, h2, h3, h4⟩ hc
  have hst : (dispatchStep false now s ct).1 = s := by
    rw [dispatchStep_fst]
    obtain ⟨e, he, hm⟩ := h3
    unfold dispatchTask
    rw [if_neg (by simpa using h1), if_neg h2, he]
    simp only [hm, Bool.not_true, Bool.false_eq_true, if_false, h4, Bool.not_false, if_true]
    have hl : (s.lock.TryLock ct.Task.ID).1.locks = ct.Task.ID :: s.lock.locks := by
      unfold taskLock.TryLock taskLock.LoadOrStore
      simp [hfree]
    cases s with
    | mk lock inflight =>
      cases lock with
      | mk locks =>
        simp only [taskLock.Unlock, SchedState.mk.injEq, taskLock.mk.injEq, and_true]
        simp only at hl hfree
        rw [hl]
        simp only [List.filter_cons, bne_self_eq_false, Bool.false_eq_true, if_false]
        rw [List.filter_eq_self]
        intro a ha
        simp only [bne_iff_ne, ne_eq]
        rintro rfl
        exact hfree ha
  refine ⟨hev, ?_, hfree, ?_, hst, ?_, ?_⟩
  · intro t ht
    rw [hev] at ht
    simp at ht
  · rw [hst]; exact hfree
  · rw [hst]; exact h4
  · simp only [dispatchTrace, hev, hst]
    rfl

/-- C20 at `sampleTask` on a fresh scheduler: the failed `MarkRunning` is the only
call and the lock table is empty again. -/
theorem markRunning_failure_unlocks_witness :
    (dispatchStep false sampleTime SchedState.init sampleTask).2 =
      [DispatchEvent.markRunning 5 sampleTime] ∧
    (dispatchStep false sampleTime SchedState.init sampleTask).1 = SchedState.init :=
  have h := markRunning_failure_unlocks sampleTime SchedState.init sampleTask [] rfl
    (by decide) ⟨sampleCompiled, rfl, by decide⟩ (by decide)
  ⟨h.1, h.2.2.2.2.1⟩

/-! ## Step tokens that carry range text -/

theorem parseDigits_none_of_mem (c : Char) (hc : digitVal c = none) :
    ∀ (ds : Str) (acc : Nat), c ∈ ds → parseDigits ds acc = none := by
  intro ds
  induction ds with
  | nil => intro acc h; cases h
  | cons d ds ih =>
    intro acc h
    rcases List.mem_cons.1 h with rfl | h
    · simp only [parseDigits, hc]
    · simp only [parseDigits]
      cases digitVal d with
      | none => rfl
      | some v => exact ih _ h

/-- A text with a `-` after its first character is not a plain integer. -/
theorem Atoi_inner_minus (c : Char) (cs : Str) (hm : '-' ∈ cs) :
    Atoi (c :: cs) = .error (.numError (c :: cs)) := by
  have hds : '-' ∈ (if c = '-' ∨ c = '+' then cs else c :: cs) := by
    split
    · exact hm
    · exact List.mem_cons_of_mem _ hm
  have hne : ¬ (if c = '-' ∨ c = '+' then cs else c :: cs) = [] := by
    intro h
    rw [h] at hds
    cases hds
  have hp := parseDigits_none_of_mem '-' (by decide) _ 0 hds
  simp only [Atoi]
  rw [if_neg hne, hp]

/-- A token that contains `/` is handled by the step branch of `parseField`,
whatever else it contains: the text before the first `/` is read as the start and
the text after it as the step, both by `strconv.Atoi`. -/
theorem parseToken_step_branch (token : Str) (min max : Int)
    (h : Contains (TrimSpace token) '/' = true) :
    parseToken token min max =
      (Atoi ((TrimSpace token).takeWhile (fun c => c != '/'))).bind fun start =>
      (Atoi ((TrimSpace token).dropWhile (fun c => c != '/')).tail).bind fun step =>
      if step ≤ 0 then .error .stepNotPositive
      else if start < min ∨ start > max then .error (.valueOutOfRange start)
      else
        match forLoop max step loopFuel start with
        | some vs => .ok vs
        | none => .diverge := by
  have hne : ¬ TrimSpace token = [] := by
    intro h0
    rw [h0] at h
    revert h
    decide
  unfold parseToken
  simp only
  rw [if_neg hne, if_pos h]
  unfold SplitN2
  rw [if_pos h]

/-- A step token whose start text has a `-` after its first character, such as
`0-30/5`, is rejected by `parseField`: the start is not a plain integer. -/
theorem parseToken_range_step (token : Str) (min max : Int) (c : Char) (cs : Str)
    (h : Contains (TrimSpace token) '/' = true)
    (hp : (TrimSpace token).takeWhile (fun c => c != '/') = c :: cs) (hm : '-' ∈ cs) :
    parseToken token min max = .error (.numError (c :: cs)) := by
  rw [parseToken_step_branch token min max h, hp, Atoi_inner_minus c cs hm]
  rfl

/-- A step token accepted by `parseField` has a plain integer before its first `/`
and a plain integer after it. -/
theorem parseToken_step_ok (token : Str) (min max : Int) (vs : List Int)
    (h : Contains (TrimSpace token) '/' = true) (hok : parseToken token min max = .ok vs) :
    ∃ start step : Int,
      Atoi ((TrimSpace token).takeWhile (fun c => c != '/')) = .ok start ∧
      Atoi ((TrimSpace token).dropWhile (fun c => c != '/')).tail = .ok step ∧
      0 < step ∧ min ≤ start ∧ start ≤ max ∧ forLoop max step loopFuel start = some vs := by
  rw [parseToken_step_branch token min max h] at hok
  obtain ⟨start, h0, hok⟩ := (Result.bind_eq_ok _ _ _).1 hok
  obtain ⟨step, h1, hok⟩ := (Result.bind_eq_ok _ _ _).1 hok
  by_cases hs : step ≤ 0
  · rw [if_pos hs] at hok; cases hok
  · rw [if_neg hs] at hok
    by_cases hr : start < min ∨ start > max
    · rw [if_pos hr] at hok; cases hok
    · rw [if_neg hr] at hok
      push_neg at hs hr
      cases hl : forLoop max step loopFuel start with
      | none => rw [hl] at hok; cases hok
      | some l =>
        rw [hl] at hok
        injection hok with hok
        subst hok
        exact ⟨start, step, h0, h1, hs, hr.1, hr.2, hl⟩

theorem fillHourMinutePair_outcome (t : Nat → Nat → Bool) (hf mf : Str)
    (h : (∃ e, parseField hf 0 23 = .error e) ∨ ∃ e, parseField mf 0 59 = .error e) :
    ∃ e, fillHourMinutePair t hf mf = .error e := by
  unfold fillHourMinutePair
  rcases parseField_returns hf 0 23 (by decide) (by decide) with ⟨r, hr⟩ | ⟨e, he⟩
  · rcases h with ⟨e, he⟩ | ⟨e, he⟩
    · rw [hr] at he; cases he
    · simp only [hr, he, Result.wrapErr, Result.bind]
      exact ⟨_, rfl⟩
  · simp only [he, Result.wrapErr, Result.bind]
    exact ⟨_, rfl⟩

/-- An expression with a field that `parseField` rejects never compiles:
`CompileCronExpr` returns an error, unless an earlier field makes it panic. The
hour and minute fields are taken without `|`. -/
theorem rejected_field_outcome (expr f0 f1 f2 f3 f4 f5 : Str)
    (hF : Fields expr = [f0, f1, f2, f3, f4, f5])
    (h : (∃ e, parseField f0 mathMinYear mathMaxYear = .error e) ∨
      (∃ e, parseField f1 1 12 = .error e) ∨ (∃ e, parseField f2 1 31 = .error e) ∨
      (∃ e, parseField f3 1 7 = .error e) ∨
      ((Split f4 '|').length = 1 ∧ (Split f5 '|').length = 1 ∧
        ((∃ e, parseField f4 0 23 = .error e) ∨ ∃ e, parseField f5 0 59 = .error e))) :
    ((∃ e, CompileCronExpr expr = .error e) ∨ CompileCronExpr expr = .panic) ∧
    (((∃ e, parseField f0 mathMinYear mathMaxYear = .error e) ∨
      ∃ e, parseField f1 1 12 = .error e) → ∃ e, CompileCronExpr expr = .error e) := by
  have key : ∀ (field : Str) (min max : Int) (len : Nat) (t : Nat → Bool),
      (∃ e, parseField field min max = .error e) →
      ∃ e, fillBoolField field min max len t = .error e := by
    intro field min max len t ⟨e, he⟩
    unfold fillBoolField
    simp only [he, Result.bind]
    exact ⟨_, rfl⟩
  unfold CompileCronExpr
  rw [hF]
  simp only
  rcases fillYears_outcome f0 with ⟨ys, h0⟩ | ⟨e, h0⟩
  · have hy : ¬ ∃ e, parseField f0 mathMinYear mathMaxYear = .error e := by
      rintro ⟨e, he⟩
      unfold fillYears at h0
      simp only [he, Result.wrapErr, Result.bind] at h0
      cases h0
    rcases fillBoolField_outcome f1 1 12 monthsLen emptyCompiled.months (by decide) (by decide)
      (by decide) with ⟨g1, h1⟩ | ⟨e, h1⟩ | h1
    · have hm : ¬ ∃ e, parseField f1 1 12 = .error e := by
        intro hx
        obtain ⟨e, he⟩ := key f1 1 12 monthsLen emptyCompiled.months hx
        rw [h1] at he
        cases he
      refine ⟨?_, fun hx => hx.elim (fun a => absurd a hy) (fun a => absurd a hm)⟩
      rcases fillBoolField_outcome f2 1 31 daysLen emptyCompiled.days (by decide) (by decide)
        (by decide) with ⟨g2, h2⟩ | ⟨e, h2⟩ | h2
      · have hd : ¬ ∃ e, parseField f2 1 31 = .error e := by
          intro hx
          obtain ⟨e, he⟩ := key f2 1 31 daysLen emptyCompiled.days hx
          rw [h2] at he
          cases he
        rcases fillBoolField_outcome f3 1 7 weeksLen emptyCompiled.weeks (by decide) (by decide)
          (by decide) with ⟨g3, h3⟩ | ⟨e, h3⟩ | h3
        · have hw : ¬ ∃ e, parseField f3 1 7 = .error e := by
            intro hx
            obtain ⟨e, he⟩ := key f3 1 7 weeksLen emptyCompiled.weeks hx
            rw [h3] at he
            cases he
          have h45 : (Split f4 '|').length = 1 ∧ (Split f5 '|').length = 1 ∧
              ((∃ e, parseField f4 0 23 = .error e) ∨ ∃ e, parseField f5 0 59 = .error e) := by
            rcases h with h | h | h | h | h
            · exact absurd h hy
            · exact absurd h hm
            · exact absurd h hd
            · exact absurd h hw
            · exact h
          obtain ⟨e, h4⟩ := fillHourMinutePair_outcome emptyCompiled.hourMinOK f4 f5 h45.2.2
          have h4f : fillHourMinute emptyCompiled.hourMinOK f4 f5 = .error e := by
            unfold fillHourMinute
            simp only
            rw [if_neg (by omega), if_neg (by omega)]
            exact h4
          simp only [h0, h1, h2, h3, h4f, Result.bind, Result.wrapErr]
          exact Or.inl ⟨_, rfl⟩
        · simp only [h0, h1, h2, h3, Result.bind, Result.wrapErr]
          exact Or.inl ⟨_, rfl⟩
        · simp only [h0, h1, h2, h3, Result.bind, Result.wrapErr]
          exact Or.inr trivial
      · simp only [h0, h1, h2, Result.bind, Result.wrapErr]
        exact Or.inl ⟨_, rfl⟩
      · simp only [h0, h1, h2, Result.bind, Result.wrapErr]
        exact Or.inr trivial
    · simp only [h0, h1, Result.bind, Result.wrapErr]
      exact ⟨Or.inl ⟨_, rfl⟩, fun _ => ⟨_, rfl⟩⟩
    · have hm : ¬ ∃ e, parseField f1 1 12 = .error e := by
        intro hx
        obtain ⟨e, he⟩ := key f1 1 12 monthsLen emptyCompiled.months hx
        rw [h1] at he
        cases he
      simp only [h0, h1, Result.bind, Result.wrapErr]
      exact ⟨Or.inr trivial, fun hx => hx.elim (fun a => absurd a hy) (fun a => absurd a hm)⟩
  · simp only [h0, Result.bind]
    exact ⟨Or.inl ⟨_, rfl⟩, fun _ => ⟨_, rfl⟩⟩

/-- C21, at the expression `* 1/9223372036854775807 * * * 0-30/5`. The minute token
`0-30/5` contains `/`, so `parseField` takes the step branch: the start text `0-30`
is not a plain integer and the field is rejected with the error of `strconv.Atoi`;
it is not read as the range `0..30` stepped by `5`. With wildcards in the other
fields `CompileCronExpr` returns that error. But with the month token
`1/9223372036854775807` before it `CompileCronExpr` does not return an error: it
panics in the month field, whose step loop overflows to negative indices. -/
theorem range_step_panics :
    Contains "0-30/5".toList '/' = true ∧
    parseToken "0-30/5".toList 0 59 = .error (.numError "0-30".toList) ∧
    parseField "0-30/5".toList 0 59 = .error (.numError "0-30".toList) ∧
    CompileCronExpr "* * * * * 0-30/5".toList =
      .error (.inField .minute (.numError "0-30".toList)) ∧
    CompileCronExpr "* 1/9223372036854775807 * * * 0-30/5".toList = .panic :=
  ⟨by decide, by decide, by decide, rfl, rfl⟩

/-! ## The minute clock -/

theorem untilNextMinute_eq (now : Int) :
    untilNextMinute now = 60000000000 - now % 60000000000 := by
  unfold untilNextMinute timeSub timeAdd timeTruncate Minute minInt maxInt
  simp only
  rw [if_neg (show ¬ (60000000000 : Int) ≤ 0 by decide)]
  have h1 := Int.emod_nonneg now (show (60000000000 : Int) ≠ 0 by decide)
  have h2 := Int.emod_lt_of_pos now (show (0 : Int) < 60000000000 by decide)
  rw [if_neg (by omega), if_neg (by omega)]
  omega

/-- C22. For every instant `now`, counted in nanoseconds, `untilNextMinute` returns a
duration `d` with `0 < d ≤ 1 minute`; `now + d` is a whole-minute boundary and no
minute boundary lies strictly after `now` and before `now + d`; when `now` is on a
minute boundary, `d` is a full minute. -/
theorem untilNextMinute_spec (now : Int) :
    0 < untilNextMinute now ∧ untilNextMinute now ≤ Minute ∧
    Minute ∣ now + untilNextMinute now ∧
    (∀ b : Int, Minute ∣ b → now < b → now + untilNextMinute now ≤ b) ∧
    (Minute ∣ now → untilNextMinute now = Minute) := by
  rw [untilNextMinute_eq]
  unfold Minute
  refine ⟨by omega, by omega, by omega, ?_, by omega⟩
  intro b hb hlt
  omega

/-- C22 at three instants: on a minute boundary the wait is a full minute, 12
nanoseconds before a boundary it is 12 nanoseconds, and one nanosecond before the
zero time it is one nanosecond. -/
theorem untilNextMinute_spec_witness :
    Minute ∣ 1762296000000000000 ∧
    untilNextMinute 1762296000000000000 = Minute ∧
    Minute ∣ 1762295999999999988 + untilNextMinute 1762295999999999988 ∧
    untilNextMinute 1762295999999999988 = 12 ∧
    untilNextMinute (-1) = 1 :=
  ⟨⟨29371600, by decide⟩,
    (untilNextMinute_spec 1762296000000000000).2.2.2.2 ⟨29371600, by decide⟩,
    (untilNextMinute_spec 1762295999999999988).2.2.1, by decide, by decide⟩

/-! ## Bounds of the parsed values and of the table writes -/

/-- The values of a counting loop with a positive step either all lie between the
start and the bound, or one of them is negative (the increment overflowed). -/
theorem forLoop_bounds (bound step : Int) (hs : 0 < step) (hs2 : step ≤ maxInt)
    (hb : bound ≤ 2305843009213693952) :
    ∀ (fuel : Nat) (v : Int) (l : List Int), 0 ≤ v → forLoop bound step fuel v = some l →
      (∀ x ∈ l, v ≤ x ∧ x ≤ bound) ∨ ∃ x ∈ l, x < 0 := by
  intro fuel
  induction fuel with
  | zero => intro v l _ h; cases h
  | succ f ih =>
    intro v l hv h
    rw [forLoop_succ] at h
    by_cases hvb : v ≤ bound
    · rw [if_pos hvb] at h
      cases hr : forLoop bound step f (wrapInt (v + step)) with
      | none => rw [hr] at h; cases h
      | some r =>
        rw [hr] at h
        injection h with h
        subst h
        by_cases ho : v + step ≤ maxInt
        · rw [wrapInt_id _ (by unfold minInt; omega) ho] at hr
          rcases ih (v + step) r (by omega) hr with h1 | ⟨x, hx, hneg⟩
          · left
            intro x hx
            rcases List.mem_cons.1 hx with rfl | hx
            · exact ⟨le_refl _, hvb⟩
            · have := h1 x hx
              omega
          · exact Or.inr ⟨x, List.mem_cons_of_mem _ hx, hneg⟩
        · rw [wrapInt_over _ (by omega) (by unfold maxInt at *; omega)] at hr
          right
          cases f with
          | zero => cases hr
          | succ f2 =>
            rw [forLoop_succ, if_pos (by unfold maxInt at *; omega)] at hr
            cases hr2 : forLoop bound step f2 (wrapInt (v + step - 18446744073709551616 + step)) with
            | none => rw [hr2] at hr; cases hr
            | some r2 =>
              rw [hr2] at hr
              injection hr with hr
              subst hr
              exact ⟨v + step - 18446744073709551616,
                List.mem_cons_of_mem _ (List.mem_cons_self _ _), by unfold maxInt at *; omega⟩
    · rw [if_neg hvb] at h
      injection h with h
      subst h
      left
      intro x hx
      cases hx

/-- The values that a token appends either all lie within the bounds of the field,
or one of them is negative. -/
theorem parseToken_bounds (token : Str) (min max : Int) (vs : List Int) (hmin : 0 ≤ min)
    (hmax : max ≤ 2305843009213693952) (hok : parseToken token min max = .ok vs) :
    (∀ v ∈ vs, min ≤ v ∧ v ≤ max) ∨ ∃ v ∈ vs, v < 0 := by
  unfold parseToken at hok
  simp only at hok
  split at hok
  · injection hok with hok
    subst hok
    left
    intro v hv
    cases hv
  · split at hok
    · split at hok
      · rename_i p0 p1 _
        obtain ⟨start, h0, hok⟩ := (Result.bind_eq_ok _ _ _).1 hok
        obtain ⟨step, h1, hok⟩ := (Result.bind_eq_ok _ _ _).1 hok
        rcases Atoi_cases p1 with ⟨s2, e1, -, hs2⟩ | e1
        · rw [h1] at e1
          injection e1 with e1
          subst e1
          split at hok
          · cases hok
          · split at hok
            · cases hok
            · rename_i hs hr
              push_neg at hs hr
              cases hl : forLoop max step loopFuel start with
              | none => rw [hl] at hok; cases hok
              | some l =>
                rw [hl] at hok
                injection hok with hok
                subst hok
                rcases forLoop_bounds max step hs hs2 hmax loopFuel start l (by omega) hl with
                  h | h
                · left
                  intro v hv
                  have := h v hv
                  omega
                · exact Or.inr h
        · rw [h1] at e1
          cases e1
      · cases hok
    · split at hok
      · split at hok
        · rename_i p0 p1 _
          obtain ⟨start, h0, hok⟩ := (Result.bind_eq_ok _ _ _).1 hok
          obtain ⟨endv, h1, hok⟩ := (Result.bind_eq_ok _ _ _).1 hok
          split at hok
          · cases hok
          · split at hok
            · cases hok
            · rename_i hs hr
              push_neg at hs hr
              cases hl : forLoop endv 1 loopFuel start with
              | none => rw [hl] at hok; cases hok
              | some l =>
                rw [hl] at hok
                injection hok with hok
                subst hok
                rcases forLoop_bounds endv 1 (by decide) (by decide) (by omega) loopFuel start l
                  (by omega) hl with h | h
                · left
                  intro v hv
                  have := h v hv
                  omega
                · exact Or.inr h
        · cases hok
      · obtain ⟨value, h0, hok⟩ := (Result.bind_eq_ok _ _ _).1 hok
        split at hok
        · cases hok
        · rename_i hr
          push_neg at hr
          injection hok with hok
          subst hok
          left
          intro v hv
          rw [List.mem_singleton] at hv
          subst hv
          exact hr

theorem parseTokens_bounds (min max : Int) (hmin : 0 ≤ min) (hmax : max ≤ 2305843009213693952) :
    ∀ (tokens : List Str) (result vs : List Int),
      ((∀ v ∈ result, min ≤ v ∧ v ≤ max) ∨ ∃ v ∈ result, v < 0) →
      parseTokens min max tokens result = .ok vs →
      (∀ v ∈ vs, min ≤ v ∧ v ≤ max) ∨ ∃ v ∈ vs, v < 0 := by
  intro tokens
  induction tokens with
  | nil =>
    intro result vs hres hok
    simp only [parseTokens] at hok
    injection hok with hok
    subst hok
    exact hres
  | cons tok rest ih =>
    intro result vs hres hok
    simp only [parseTokens] at hok
    obtain ⟨l, h1, hok⟩ := (Result.bind_eq_ok _ _ _).1 hok
    refine ih (result ++ l) vs ?_ hok
    rcases hres with hres | ⟨x, hx, hneg⟩
    · rcases parseToken_bounds tok min max l hmin hmax h1 with h | ⟨x, hx, hneg⟩
      · left
        intro v hv
        rcases List.mem_append.1 hv with hv | hv
        · exact hres v hv
        · exact h v hv
      · exact Or.inr ⟨x, List.mem_append_right _ hx, hneg⟩
    · exact Or.inr ⟨x, List.mem_append_left _ hx, hneg⟩

/-- When `parseField` succeeds without the wildcard, the list it returns is not
empty, and its values either all lie within the bounds or include a negative
one. -/
theorem parseField_bounds (field : Str) (min max : Int) (vs : List Int) (hmin : 0 ≤ min)
    (hmax : max ≤ 2305843009213693952) (hok : parseField field min max = .ok (vs, false)) :
    vs ≠ [] ∧ ((∀ v ∈ vs, min ≤ v ∧ v ≤ max) ∨ ∃ v ∈ vs, v < 0) := by
  unfold parseField at hok
  simp only at hok
  split at hok
  · cases hok
  · obtain ⟨l, h1, hok⟩ := (Result.bind_eq_ok _ _ _).1 hok
    split at hok
    · cases hok
    · rename_i hlen
      injection hok with hok
      injection hok with hok _
      subst hok
      refine ⟨fun h => hlen (by rw [h]; rfl), ?_⟩
      exact parseTokens_bounds min max hmin hmax _ [] l (Or.inl (fun v hv => (by cases hv))) h1

/-- A table that `fillBoolField` returns holds nothing new outside `min .. max`:
every write was within the bounds of the field, hence within the array. -/
theorem fillBoolField_bounds (field : Str) (min max : Int) (len : Nat) (t g : Nat → Bool)
    (hmin : 0 ≤ min) (hmax : max ≤ 2305843009213693952)
    (hg : fillBoolField field min max len t = .ok g) :
    ∀ i, g i = true → t i = true ∨ (min ≤ (i : Int) ∧ (i : Int) ≤ max ∧ i < len) := by
  obtain ⟨r, idx, h1, h2, h3, h4⟩ := fillBoolField_spec field min max len t g hg
  have hidx : ∀ v ∈ idx, min ≤ v ∧ v ≤ max := by
    by_cases hany : r.2 = true
    · simp only [hany, if_true] at h2
      rcases forLoop_bounds max 1 (by decide) (by decide) hmax loopFuel min idx hmin h2 with
        h | ⟨x, hx, hneg⟩
      · exact h
      · have := h3 x hx
        omega
    · simp only [hany, Bool.false_eq_true, if_false] at h2
      subst h2
      have hr : r = (r.1, false) := by
        cases r with
        | mk a b =>
          cases b with
          | true => exact absurd rfl hany
          | false => rfl
      rw [hr] at h1
      rcases (parseField_bounds field min max r.1 hmin hmax h1).2 with h | ⟨x, hx, hneg⟩
      · exact h
      · have := h3 x hx
        omega
  intro i hi
  rcases (h4 i).1 hi with h | h
  · exact Or.inl h
  · have a := hidx _ h
    have b := h3 _ h
    exact Or.inr ⟨a.1, a.2, by omega⟩

theorem fillPairs_bounds : ∀ (hs ms : List Str) (t g : Nat → Nat → Bool),
    fillPairs hs ms t = .ok g →
    ∀ i j, g i j = true → t i j = true ∨ (i < hoursLen ∧ j < minutesLen) := by
  intro hs
  induction hs with
  | nil =>
    intro ms t g hg i j hij
    simp only [fillPairs] at hg
    injection hg with hg
    subst hg
    exact Or.inl hij
  | cons h hs ih =>
    intro ms t g hg i j hij
    cases ms with
    | nil =>
      simp only [fillPairs] at hg
      injection hg with hg
      subst hg
      exact Or.inl hij
    | cons m ms =>
      simp only [fillPairs] at hg
      obtain ⟨t1, h1, h2⟩ := (Result.bind_eq_ok _ _ _).1 hg
      obtain ⟨hv, mv, -, -, hb, hc⟩ := fillHourMinutePair_spec t t1 h m h1
      rcases ih ms t1 g h2 i j hij with h3 | h3
      · rcases (hc i j).1 h3 with h4 | ⟨h4, h5⟩
        · exact Or.inl h4
        · have := hb _ h4 _ h5
          exact Or.inr ⟨by omega, by omega⟩
      · exact Or.inr h3

theorem fillHourMinute_bounds (t g : Nat → Nat → Bool) (hf mf : Str)
    (hg : fillHourMinute t hf mf = .ok g) :
    ∀ i j, g i j = true → t i j = true ∨ (i < hoursLen ∧ j < minutesLen) := by
  unfold fillHourMinute at hg
  simp only at hg
  split at hg
  · split at hg
    · cases hg
    · exact fillPairs_bounds _ _ t g hg
  · split at hg
    · cases hg
    · intro i j hij
      obtain ⟨hv, mv, -, -, hb, hc⟩ := fillHourMinutePair_spec t g hf mf hg
      rcases (hc i j).1 hij with h4 | ⟨h4, h5⟩
      · exact Or.inl h4
      · have := hb _ h4 _ h5
        exact Or.inr ⟨by omega, by omega⟩

/-- The tables of an expression that compiles. Every entry set lies within the
bounds of its field, so within its array, and index `0` of the month, day and week
tables is not set; and every index that `Match` reads for an instant is within the
array it reads. -/
theorem compiled_tables_bounds (expr : Str) (c : CronExprCompiled)
    (hC : CompileCronExpr expr = .ok c) :
    (∀ i, c.months i = true → 1 ≤ i ∧ i ≤ 12) ∧
    (∀ i, c.days i = true → 1 ≤ i ∧ i ≤ 31) ∧
    (∀ i, c.weeks i = true → 1 ≤ i ∧ i ≤ 7) ∧
    (∀ i j, c.hourMinOK i j = true → i ≤ 23 ∧ j ≤ 59) ∧
    c.months 0 = false ∧ c.days 0 = false ∧ c.weeks 0 = false ∧
    ∀ t : Time, t.month < monthsLen ∧ t.day < daysLen ∧ remapWeekday t.weekday < weeksLen ∧
      1 ≤ remapWeekday t.weekday ∧ t.hour < hoursLen ∧ t.minute < minutesLen := by
  have hF : ∃ f0 f1 f2 f3 f4 f5, Fields expr = [f0, f1, f2, f3, f4, f5] := by
    unfold CompileCronExpr at hC
    split at hC
    · rename_i f0 f1 f2 f3 f4 f5 hf
      exact ⟨f0, f1, f2, f3, f4, f5, hf⟩
    · cases hC
  obtain ⟨f0, f1, f2, f3, f4, f5, hF⟩ := hF
  obtain ⟨-, h1, h2, h3, h4⟩ := compile_fields expr f0 f1 f2 f3 f4 f5 c hF hC
  have b1 := fillBoolField_bounds f1 1 12 monthsLen _ _ (by decide) (by decide) h1
  have b2 := fillBoolField_bounds f2 1 31 daysLen _ _ (by decide) (by decide) h2
  have b3 := fillBoolField_bounds f3 1 7 weeksLen _ _ (by decide) (by decide) h3
  have b4 := fillHourMinute_bounds _ _ f4 f5 h4
  have m1 : ∀ i, c.months i = true → 1 ≤ i ∧ i ≤ 12 := by
    intro i hi
    rcases b1 i hi with h | h
    · cases h
    · omega
  have m2 : ∀ i, c.days i = true → 1 ≤ i ∧ i ≤ 31 := by
    intro i hi
    rcases b2 i hi with h | h
    · cases h
    · omega
  have m3 : ∀ i, c.weeks i = true → 1 ≤ i ∧ i ≤ 7 := by
    intro i hi
    rcases b3 i hi with h | h
    · cases h
    · omega
  have z : ∀ f : Nat → Bool, (∀ i, f i = true → 1 ≤ i ∧ i ≤ 31) → f 0 = false := by
    intro f hf
    cases h : f 0 with
    | false => rfl
    | true => have := hf 0 h; omega
  refine ⟨m1, m2, m3, ?_, ?_, z _ m2, ?_, ?_⟩
  · intro i j hij
    rcases b4 i j hij with h | h
    · cases h
    · unfold hoursLen minutesLen at h
      omega
  · exact z _ (fun i hi => by have := m1 i hi; omega)
  · exact z _ (fun i hi => by have := m3 i hi; omega)
  · intro t
    have a := t.month_range
    have b := t.day_range
    have d := t.weekday_range
    have e := t.hour_range
    have f := t.minute_range
    unfold remapWeekday monthsLen daysLen weeksLen hoursLen minutesLen
    refine ⟨by omega, by omega, ?_, ?_, by omega, by omega⟩
    · split <;> omega
    · split <;> omega

/-- C23, at the token `1/9223372036854775807`. As a month field (bounds `1..12`)
`parseField` succeeds with `any = false` and returns `1`, the smallest `int` and
`-1`: two of the three values lie below the lower bound, the increment `v += step`
having wrapped around. The write `target[-9223372036854775808] = true` that
`fillBoolField` then makes is outside the array and panics, and so does the write
of `fillHourMinutePair` for the same token as the minute field; `CompileCronExpr`
panics on both expressions. -/
theorem step_values_out_of_bounds :
    parseField "1/9223372036854775807".toList 1 12 =
      .ok ([1, -9223372036854775808, -1], false) ∧
    ¬ (∀ v ∈ [1, -9223372036854775808, -1], (1 : Int) ≤ v ∧ v ≤ 12) ∧
    setIndex monthsLen emptyCompiled.months (-9223372036854775808) = .panic ∧
    fillBoolField "1/9223372036854775807".toList 1 12 monthsLen emptyCompiled.months = .panic ∧
    parseField "1/9223372036854775807".toList 0 59 =
      .ok ([1, -9223372036854775808, -1], false) ∧
    setCell emptyCompiled.hourMinOK 0 (-9223372036854775808) = .panic ∧
    fillHourMinutePair emptyCompiled.hourMinOK ['*'] "1/9223372036854775807".toList = .panic ∧
    CompileCronExpr "* 1/9223372036854775807 * * * *".toList = .panic ∧
    CompileCronExpr "* * * * * 1/9223372036854775807".toList = .panic :=
  ⟨by decide, by decide, rfl, rfl, by decide, rfl, rfl, rfl, rfl⟩

/-! ## Termination of the paginated drain -/

theorem cursors_no_request (evs : List RunEvent) (h : ∀ e ∈ evs, e.lastID? = none) :
    cursors evs = [] := by
  unfold cursors
  induction evs with
  | nil => rfl
  | cons e evs ih =>
    rw [List.filterMap_cons, h e (List.mem_cons_self _ _)]
    exact ih (fun e2 he => h e2 (List.mem_cons_of_mem _ he))

theorem cursors_getdata (command : Str) (limit L : Int) (evs : List RunEvent) :
    cursors (.getdata command limit L :: evs) = L :: cursors evs := rfl

theorem cursors_append (a b : List RunEvent) : cursors (a ++ b) = cursors a ++ cursors b := by
  unfold cursors
  exact List.filterMap_append _ _ _

/-- The first getdata request of the outer loop carries its cursor. -/
theorem cursors_runLoop_head (rt : Runtime) (command : Str) (limit sleepDuration : Int)
    (script : List Exchange) (L : Int) :
    ∃ rest, cursors (runLoop rt command limit sleepDuration script L).1 = L :: rest := by
  have h := runLoop_head rt command limit sleepDuration script L
  cases hev : (runLoop rt command limit sleepDuration script L).1 with
  | nil => rw [hev] at h; cases h
  | cons e evs =>
    rw [hev] at h
    simp only [List.head?_cons, Option.some.injEq] at h
    subst h
    exact ⟨cursors evs, rfl⟩

/-- One iteration of the outer loop on a successful reply: either the run ends with
this request, or it goes on from the `minID` of the batch, which is not `0`. -/
theorem runLoop_step (rt : Runtime) (command : Str) (limit sleepDuration : Int)
    (x : Exchange) (script : List Exchange) (L : Int) (rows : List Row)
    (hfetch : fetchData rt x.reply = .ok rows) :
    (cursors (runLoop rt command limit sleepDuration (x :: script) L).1 = [L] ∧
      ((runLoop rt command limit sleepDuration (x :: script) L).2 = .ok ∨
        (runLoop rt command limit sleepDuration (x :: script) L).2 = .error .cancelled) ∧
      (rows.filterMap (extractID rt) = [] ∨
        (runLoop rt command limit sleepDuration (x :: script) L).2 = .error .cancelled ∨
        rows.foldl (trackMin rt) 0 = 0)) ∨
    (rows.foldl (trackMin rt) 0 ≠ 0 ∧
      cursors (runLoop rt command limit sleepDuration (x :: script) L).1 =
        L :: cursors (runLoop rt command limit sleepDuration script
          (rows.foldl (trackMin rt) 0)).1 ∧
      (runLoop rt command limit sleepDuration (x :: script) L).2 =
        (runLoop rt command limit sleepDuration script (rows.foldl (trackMin rt) 0)).2) := by
  by_cases hne : rows = []
  · subst hne
    have h : runLoop rt command limit sleepDuration (x :: script) L =
        ([.getdata command limit L], .ok) := by
      simp only [runLoop, hfetch, List.length_nil, if_true]
    rw [h]
    exact Or.inl ⟨rfl, Or.inl rfl, Or.inl rfl⟩
  · have hev := (processRows_events rt command sleepDuration x.rows rows 0 0).1
    have hcur := cursors_no_request _ hev
    have hb := runLoop_batch rt command limit sleepDuration x script L rows hfetch hne
    rcases processRows_result rt command sleepDuration x.rows rows 0 0 with hp | hp
    · rw [hp] at hb
      simp only at hb
      rw [hb]
      exact Or.inl ⟨by rw [cursors_getdata, hcur], Or.inr rfl, Or.inr (Or.inl rfl)⟩
    · rw [hp] at hb
      simp only at hb
      by_cases h0 : rows.foldl (trackMin rt) 0 = 0
      · rw [if_pos h0] at hb
        rw [hb]
        exact Or.inl ⟨by rw [cursors_getdata, hcur], Or.inl rfl, Or.inr (Or.inr h0)⟩
      · rw [if_neg h0] at hb
        rw [hb]
        refine Or.inr ⟨h0, ?_, rfl⟩
        simp only
        rw [cursors_append, cursors_getdata, hcur]
        rfl

theorem batchIDs_of_fetch (rt : Runtime) (x : Exchange) (rows : List Row)
    (hfetch : fetchData rt x.reply = .ok rows) :
    batchIDs rt x = rows.filterMap (extractID rt) := by
  unfold batchIDs
  rw [hfetch]

theorem fetch_of_isOk (rt : Runtime) (x : Exchange) (h : (fetchData rt x.reply).isOk = true) :
    ∃ rows, fetchData rt x.reply = .ok rows := by
  cases hf : fetchData rt x.reply with
  | error e => rw [hf] at h; cases h
  | ok rows => exact ⟨rows, rfl⟩

/-- The `minID` of a batch whose ids are positive: `0` exactly when no row yields an
id, and otherwise the smallest id of the batch. -/
theorem minID_of_positive (rt : Runtime) (rows : List Row)
    (hpos : ∀ id ∈ rows.filterMap (extractID rt), 0 < id) :
    (rows.foldl (trackMin rt) 0 = 0 → rows.filterMap (extractID rt) = []) ∧
    (rows.foldl (trackMin rt) 0 ≠ 0 →
      rows.foldl (trackMin rt) 0 ∈ rows.filterMap (extractID rt) ∧
      ∀ id ∈ rows.filterMap (extractID rt), rows.foldl (trackMin rt) 0 ≤ id) := by
  have h0 : (0 : Int) ∉ rows.filterMap (extractID rt) := by
    intro h
    have := hpos 0 h
    omega
  obtain ⟨f1, f2, -, -, f5⟩ := foldl_trackMin rt rows 0 h0
  constructor
  · intro hz
    by_contra hne
    have := f2 rfl hne
    rw [hz] at this
    exact h0 this
  · intro hnz
    have hne : rows.filterMap (extractID rt) ≠ [] := fun h => hnz (f1 h)
    exact ⟨f2 rfl hne, f5⟩

/-- From a positive cursor `L`, under the descending-window contract, the cursors
of the getdata requests decrease strictly and stay positive, there are at most `L`
requests, and the run returns when the script has `L` replies. -/
theorem runLoop_descending (rt : Runtime) (command : Str) (limit sleepDuration : Int) :
    ∀ (script : List Exchange) (L : Int), 0 < L →
      DescendingWindow rt script (cursors (runLoop rt command limit sleepDuration script L).1) →
      ∃ rest, cursors (runLoop rt command limit sleepDuration script L).1 = L :: rest ∧
        (L :: rest).Pairwise (fun a b => b < a) ∧ (∀ c ∈ rest, 0 < c) ∧
        ((L :: rest).length : Int) ≤ L ∧
        (L ≤ script.length → (runLoop rt command limit sleepDuration script L).2 ≠ .pending) := by
  intro script
  induction script with
  | nil =>
    intro L hL _
    refine ⟨[], rfl, List.pairwise_singleton _ _, fun c hc => (by cases hc), ?_, ?_⟩
    · simp only [List.length_singleton, Nat.cast_one]
      omega
    · intro h
      simp only [List.length_nil, Nat.cast_zero] at h
      omega
  | cons x script ih =>
    intro L hL hC
    obtain ⟨rest0, hrest0⟩ := cursors_runLoop_head rt command limit sleepDuration (x :: script) L
    have hx : descendingReply rt L x := by
      apply hC (L, x)
      rw [hrest0, List.zip_cons_cons]
      exact List.mem_cons_self _ _
    obtain ⟨rows, hfetch⟩ := fetch_of_isOk rt x hx.1
    have hids := hx.2
    rw [batchIDs_of_fetch rt x rows hfetch] at hids
    have hmin := minID_of_positive rt rows (fun id hid => (hids id hid).1)
    rcases runLoop_step rt command limit sleepDuration x script L rows hfetch with
      ⟨h1, h2, -⟩ | ⟨h0, h1, h2⟩
    · refine ⟨[], h1, List.pairwise_singleton _ _, fun c hc => (by cases hc), ?_, ?_⟩
      · simp only [List.length_singleton, Nat.cast_one]
        omega
      · intro _ hp
        rcases h2 with h2 | h2 <;> rw [h2] at hp <;> cases hp
    · obtain ⟨hmem, -⟩ := hmin.2 h0
      have hm := hids _ hmem
      have hmL := hm.2 hL
      have hC2 : DescendingWindow rt script
          (cursors (runLoop rt command limit sleepDuration script
            (rows.foldl (trackMin rt) 0)).1) := by
        intro p hp
        apply hC p
        rw [h1, List.zip_cons_cons]
        exact List.mem_cons_of_mem _ hp
      obtain ⟨rest, e1, e2, e3, e4, e5⟩ := ih (rows.foldl (trackMin rt) 0) hm.1 hC2
      refine ⟨rows.foldl (trackMin rt) 0 :: rest, by rw [h1, e1], ?_, ?_, ?_, ?_⟩
      · refine List.pairwise_cons.2 ⟨?_, e2⟩
        intro c hc
        rcases List.mem_cons.1 hc with rfl | hc
        · exact hmL
        · have := (List.pairwise_cons.1 e2).1 c hc
          omega
      · intro c hc
        rcases List.mem_cons.1 hc with rfl | hc
        · exact hm.1
        · exact e3 c hc
      · rw [List.length_cons, Nat.cast_succ]
        omega
      · intro hlen
        rw [h2]
        apply e5
        rw [List.length_cons, Nat.cast_succ] at hlen
        omega

/-- The run from the cursor `0` under the descending-window contract. -/
theorem runLoop_descending_first (rt : Runtime) (command : Str) (limit sleepDuration : Int)
    (script : List Exchange)
    (hC : DescendingWindow rt script (cursors (runLoop rt command limit sleepDuration script 0).1)) :
    (∃ rest, cursors (runLoop rt command limit sleepDuration script 0).1 = 0 :: rest ∧
      rest.Pairwise (fun a b => b < a) ∧ ∀ c ∈ rest, 0 < c) ∧
    (∀ (x : Exchange) (tl : List Exchange), script = x :: tl →
      (batchIDs rt x = [] →
        cursors (runLoop rt command limit sleepDuration script 0).1 = [0] ∧
        (runLoop rt command limit sleepDuration script 0).2 ≠ .pending) ∧
      ∀ m : Int, m ∈ batchIDs rt x → (∀ id ∈ batchIDs rt x, m ≤ id) →
        ((cursors (runLoop rt command limit sleepDuration script 0).1).length : Int) ≤ m + 1 ∧
        (m + 1 ≤ script.length →
          (runLoop rt command limit sleepDuration script 0).2 ≠ .pending)) := by
  cases script with
  | nil =>
    refine ⟨⟨[], rfl, List.Pairwise.nil, fun c hc => (by cases hc)⟩, ?_⟩
    intro x tl h
    cases h
  | cons x script =>
    obtain ⟨rest0, hrest0⟩ := cursors_runLoop_head rt command limit sleepDuration (x :: script) 0
    have hx : descendingReply rt 0 x := by
      apply hC (0, x)
      rw [hrest0, List.zip_cons_cons]
      exact List.mem_cons_self _ _
    obtain ⟨rows, hfetch⟩ := fetch_of_isOk rt x hx.1
    have hids := hx.2
    rw [batchIDs_of_fetch rt x rows hfetch] at hids
    have hmin := minID_of_positive rt rows (fun id hid => (hids id hid).1)
    rcases runLoop_step rt command limit sleepDuration x script 0 rows hfetch with
      ⟨h1, h2, h3⟩ | ⟨h0, h1, h2⟩
    · have hnp : (runLoop rt command limit sleepDuration (x :: script) 0).2 ≠ .pending := by
        intro hp
        rcases h2 with h2 | h2 <;> rw [h2] at hp <;> cases hp
      refine ⟨⟨[], h1, List.Pairwise.nil, fun c hc => (by cases hc)⟩, ?_⟩
      intro y tl hy
      injection hy with hy1 hy2
      subst hy1
      refine ⟨fun _ => ⟨h1, hnp⟩, ?_⟩
      intro m hm _
      rw [batchIDs_of_fetch rt x rows hfetch] at hm
      have := (hids m hm).1
      rw [h1]
      refine ⟨?_, fun _ => hnp⟩
      simp only [List.length_singleton, Nat.cast_one]
      omega
    · obtain ⟨hmem, hle⟩ := hmin.2 h0
      have hm := hids _ hmem
      have hC2 : DescendingWindow rt script
          (cursors (runLoop rt command limit sleepDuration script
            (rows.foldl (trackMin rt) 0)).1) := by
        intro p hp
        apply hC p
        rw [h1, List.zip_cons_cons]
        exact List.mem_cons_of_mem _ hp
      obtain ⟨rest, e1, e2, e3, e4, e5⟩ :=
        runLoop_descending rt command limit sleepDuration script _ hm.1 hC2
      refine ⟨⟨rows.foldl (trackMin rt) 0 :: rest, by rw [h1, e1], e2, ?_⟩, ?_⟩
      · intro c hc
        rcases List.mem_cons.1 hc with rfl | hc
        · exact hm.1
        · exact e3 c hc
      · intro y tl hy
        injection hy with hy1 hy2
        subst hy1
        subst hy2
        rw [batchIDs_of_fetch rt x rows hfetch]
        refine ⟨?_, ?_⟩
        · intro hnil
          rw [hnil] at hmem
          cases hmem
        · intro m hm1 hm2
          have hmeq : m = rows.foldl (trackMin rt) 0 := by
            have a := hm2 _ hmem
            have b := hle m hm1
            omega
          rw [h1, e1, h2]
          refine ⟨?_, ?_⟩
          · rw [List.length_cons, Nat.cast_succ]
            omega
          · intro hlen
            apply e5
            rw [List.length_cons, Nat.cast_succ] at hlen
            omega

/-- Against a server that always returns the batch `[{id:7}]` the outer loop asks
for one more reply than it is given, however many it is given. -/
theorem runLoop_sameBatch : ∀ (n : Nat) (L : Int),
    (runLoop sampleRuntime ['c'] 50 0 (List.replicate n sameBatch) L).2 = .pending ∧
    (cursors (runLoop sampleRuntime ['c'] 50 0 (List.replicate n sameBatch) L).1).length =
      n + 1 := by
  intro n
  induction n with
  | zero => intro L; exact ⟨rfl, rfl⟩
  | succ n ih =>
    intro L
    have hfetch : fetchData sampleRuntime sameBatch.reply = .ok [idRow 7] := rfl
    have hfold : [idRow 7].foldl (trackMin sampleRuntime) 0 = 7 := by decide
    rw [List.replicate_succ]
    rcases runLoop_step sampleRuntime ['c'] 50 0 sameBatch (List.replicate n sameBatch) L
      [idRow 7] hfetch with ⟨-, h2, h3⟩ | ⟨-, h1, h2⟩
    · exfalso
      rcases h3 with h3 | h3 | h3
      · revert h3; decide
      · have hb := runLoop_batch sampleRuntime ['c'] 50 0 sameBatch (List.replicate n sameBatch)
          L [idRow 7] hfetch (by decide)
        have hp : processRows sampleRuntime ['c'] 0 sameBatch.rows 0 [idRow 7] 0 =
            ([.update ['c'] (idRow 7)], some 7) := by decide
        rw [hp] at hb
        simp only at hb
        rw [if_neg (by decide)] at hb
        rw [hb] at h3
        have := (ih 7).1
        rw [this] at h3
        cases h3
      · rw [hfold] at h3
        revert h3
        decide
    · rw [hfold] at h1 h2
      rw [h1, h2]
      exact ⟨(ih 7).1, by rw [List.length_cons, (ih 7).2]⟩

/-- C24. Under the descending-window contract (every getdata reply of the run is a
success, the ids of its batch are positive and, for a request with `last_id = L > 0`,
below `L`), the `last_id` values of the getdata requests after the first are
strictly decreasing positive integers; when `m` is the minimum id of the first
batch, `Run` makes at most `m + 2` getdata requests and returns once the server has
given `m + 1` replies; and when the first batch has no id, `Run` returns after the
first request. Without the contract the loop need not stop: against a server that
always returns the batch `[{id:7}]`, however many replies it is given `Run` is
waiting for one more. -/
theorem descending_window_terminates (rt : Runtime) (r : HTTPTaskRunner) (task : Task)
    (script : List Exchange)
    (hC : DescendingWindow rt script (cursors (Run rt r task script).1)) :
    ((cursors (Run rt r task script).1).tail.Pairwise (fun a b => b < a) ∧
      ∀ c ∈ (cursors (Run rt r task script).1).tail, 0 < c) ∧
    (r.BaseURL = [] → Run rt r task script = ([], .error .baseURLEmpty)) ∧
    (r.BaseURL ≠ [] → ∀ (x : Exchange) (tl : List Exchange), script = x :: tl →
      (batchIDs rt x = [] →
        cursors (Run rt r task script).1 = [0] ∧ (Run rt r task script).2 ≠ .pending) ∧
      ∀ m : Int, m ∈ batchIDs rt x → (∀ id ∈ batchIDs rt x, m ≤ id) →
        ((cursors (Run rt r task script).1).length : Int) ≤ m + 2 ∧
        (m + 1 ≤ script.length → (Run rt r task script).2 ≠ .pending)) ∧
    ∀ n : Nat,
      (Run sampleRuntime sampleRunner sampleTask.Task (List.replicate n sameBatch)).2 =
        .pending ∧
      (cursors (Run sampleRuntime sampleRunner sampleTask.Task
        (List.replicate n sameBatch)).1).length = n + 1 := by
  refine ⟨?_, ?_, ?_, ?_⟩
  · by_cases hu : r.BaseURL = []
    · have h : Run rt r task script = ([], .error .baseURLEmpty) := by
        unfold Run
        rw [if_pos hu]
      rw [h]
      exact ⟨List.Pairwise.nil, fun c hc => (by cases hc)⟩
    · unfold Run at hC ⊢
      rw [if_neg hu] at hC ⊢
      obtain ⟨⟨rest, e1, e2, e3⟩, -⟩ := runLoop_descending_first rt _ _ _ script hC
      simp only at e1 ⊢
      rw [e1]
      exact ⟨e2, e3⟩
  · intro hu
    unfold Run
    rw [if_pos hu]
  · intro hu x tl hs
    unfold Run at hC ⊢
    rw [if_neg hu] at hC ⊢
    obtain ⟨-, h⟩ := runLoop_descending_first rt _ _ _ script hC
    obtain ⟨h1, h2⟩ := h x tl hs
    refine ⟨h1, ?_⟩
    intro m hm1 hm2
    obtain ⟨a, b⟩ := h2 m hm1 hm2
    refine ⟨?_, b⟩
    simp only at a ⊢
    omega
  · intro n
    exact runLoop_sameBatch n 0

/-- C24 at the descending drain `[{id:3},{id:2}]`, `[{id:1}]`, `[]`: the contract
holds, the `last_id` values are `0, 2, 1`, the minimum id of the first batch is
`2`, and `Run` returns after three getdata requests. -/
theorem descending_window_terminates_witness :
    DescendingWindow sampleRuntime windowScript
      (cursors (Run sampleRuntime sampleRunner sampleTask.Task windowScript).1) ∧
    cursors (Run sampleRuntime sampleRunner sampleTask.Task windowScript).1 = [0, 2, 1] ∧
    (Run sampleRuntime sampleRunner sampleTask.Task windowScript).2 = .ok ∧
    ((cursors (Run sampleRuntime sampleRunner sampleTask.Task windowScript).1).length : Int) ≤
      2 + 2 ∧
    (Run sampleRuntime sampleRunner sampleTask.Task windowScript).2 ≠ .pending :=
  have hC : DescendingWindow sampleRuntime windowScript
      (cursors (Run sampleRuntime sampleRunner sampleTask.Task windowScript).1) := by decide
  have h := (descending_window_terminates sampleRuntime sampleRunner sampleTask.Task
    windowScript hC).2.2.1 (by decide) _ _ rfl
  have hb := h.2 2 (by decide) (by decide)
  ⟨hC, by decide, by decide, hb.1, hb.2 (by decide)⟩

end Scheduler
